import Mathlib

/-!
Verification of the EASE supernode clustering core.

This file gives a shallow embedding, in Lean 4, of the clustering pipeline of
the EASE backend (`backend/app/dsu.py`, `backend/app/utils.py`,
`backend/app/pipeline.py`, `backend/app/loader.py`, `backend/app/models.py`,
and the candidate/gate stages of
`backend/app/services/supernode_reconstruction.py`), together with proofs and
refutations of the specified properties of that code.

Modelling conventions:
* Python floats are modelled as exact rationals (`ℚ`).  The one primitive that
  has no exact rational meaning, row-wise L2 normalisation (`l2_normalize_rows`,
  whose norms are square roots), is kept as an explicit parameter `ν` of the
  pipeline; every theorem quantifying over `ν` therefore covers the real
  normalisation function as a special case, and concrete executions are run on
  configurations with `normalize_fingerprints = false` (a legal configuration
  value) where the source never calls it.
* Python `dict`s are modelled as association lists in insertion order, which is
  Python 3.7+ iteration order.
* Machine-level pieces (`hashlib.sha256`, UTF-8 encoding of `str.encode()`)
  are embedded directly over `ℕ`, with 32-bit words represented as naturals
  reduced mod `2^32`.
* Fallible statements (`raise ValueError`, `IndexError` on `list[-1]` of an
  empty list) are modelled with `Except`/`Option`.
-/

deriving instance DecidableEq for Except

namespace EASE

/-! ### 32-bit word helpers (naturals reduced mod 2^32) -/

/-- Reduce a natural to a 32-bit word. -/
def w32 (x : ℕ) : ℕ := x % 4294967296

/-- Right rotation of a 32-bit word by `n` bits. -/
def rotr32 (n x : ℕ) : ℕ := w32 (x / 2 ^ n + x % 2 ^ n * 2 ^ (32 - n))

/-- Logical right shift of a 32-bit word by `n` bits. -/
def shr32 (n x : ℕ) : ℕ := x / 2 ^ n

/-- Three-way xor. -/
def xor3 (a b c : ℕ) : ℕ := (a ^^^ b) ^^^ c

/-- Bitwise complement of a 32-bit word. -/
def not32 (x : ℕ) : ℕ := x ^^^ 4294967295

/-! ### SHA-256 (the `hashlib.sha256` primitive used by `stable_pair_hash`) -/

/-- The 64 SHA-256 round constants. -/
def sha256K : List ℕ :=
  [1116352408, 1899447441, 3049323471, 3921009573, 961987163, 1508970993,
   2453635748, 2870763221, 3624381080, 310598401, 607225278, 1426881987,
   1925078388, 2162078206, 2614888103, 3248222580, 3835390401, 4022224774,
   264347078, 604807628, 770255983, 1249150122, 1555081692, 1996064986,
   2554220882, 2821834349, 2952996808, 3210313671, 3336571891, 3584528711,
   113926993, 338241895, 666307205, 773529912, 1294757372, 1396182291,
   1695183700, 1986661051, 2177026350, 2456956037, 2730485921, 2820302411,
   3259730800, 3345764771, 3516065817, 3600352804, 4094571909, 275423344,
   430227734, 506948616, 659060556, 883997877, 958139571, 1322822218,
   1537002063, 1747873779, 1955562222, 2024104815, 2227730452, 2361852424,
   2428436474, 2756734187, 3204031479, 3329325298]

/-- The SHA-256 initial hash state. -/
def sha256H0 : List ℕ :=
  [1779033703, 3144134277, 1013904242, 2773480762, 1359893119, 2600822924,
   528734635, 1541459225]

/-- Message-schedule sigma-0. -/
def smallSigma0 (x : ℕ) : ℕ := xor3 (rotr32 7 x) (rotr32 18 x) (shr32 3 x)

/-- Message-schedule sigma-1. -/
def smallSigma1 (x : ℕ) : ℕ := xor3 (rotr32 17 x) (rotr32 19 x) (shr32 10 x)

/-- Round-function Sigma-0. -/
def bigSigma0 (x : ℕ) : ℕ := xor3 (rotr32 2 x) (rotr32 13 x) (rotr32 22 x)

/-- Round-function Sigma-1. -/
def bigSigma1 (x : ℕ) : ℕ := xor3 (rotr32 6 x) (rotr32 11 x) (rotr32 25 x)

/-- The `Ch` bitwise choice function. -/
def chFn (x y z : ℕ) : ℕ := (x &&& y) ^^^ (not32 x &&& z)

/-- The `Maj` bitwise majority function. -/
def majFn (x y z : ℕ) : ℕ := ((x &&& y) ^^^ (x &&& z)) ^^^ (y &&& z)

/-- Extend a 16-word block by `k` further schedule words. -/
def extendWords : ℕ → List ℕ → List ℕ
  | 0, ws => ws
  | k + 1, ws =>
    let i := ws.length
    let w := w32 (ws.getD (i - 16) 0 + smallSigma0 (ws.getD (i - 15) 0) +
      ws.getD (i - 7) 0 + smallSigma1 (ws.getD (i - 2) 0))
    extendWords k (ws ++ [w])

/-- One SHA-256 compression round; the state is the 8-word list `[a..h]` and
`kw` is the pair of round constant and schedule word. -/
def sha256Round (st : List ℕ) (kw : ℕ × ℕ) : List ℕ :=
  match st with
  | [a, b, c, d, e, f, g, h] =>
    let t1 := w32 (h + bigSigma1 e + chFn e f g + kw.1 + kw.2)
    let t2 := w32 (bigSigma0 a + majFn a b c)
    [w32 (t1 + t2), a, b, c, w32 (d + t1), e, f, g]
  | other => other

/-- Compress one 16-word block into the running 8-word hash state. -/
def compressBlock (hs : List ℕ) (block : List ℕ) : List ℕ :=
  let ws := extendWords 48 block
  let st := (sha256K.zip ws).foldl sha256Round hs
  (hs.zip st).map fun xy => w32 (xy.1 + xy.2)

/-- Big-endian byte decomposition of a natural into `k` bytes. -/
def beBytes : ℕ → ℕ → List ℕ
  | 0, _ => []
  | k + 1, n => beBytes k (n / 256) ++ [n % 256]

/-- Group consecutive 4-byte runs into big-endian 32-bit words. -/
def bytesToWords : List ℕ → List ℕ
  | b0 :: b1 :: b2 :: b3 :: rest =>
    (((b0 * 256 + b1) * 256 + b2) * 256 + b3) :: bytesToWords rest
  | _ => []

/-- SHA-256 padding: a `0x80` byte, zeros to 56 mod 64, and the 64-bit
big-endian bit length. -/
def sha256Pad (msg : List ℕ) : List ℕ :=
  let len := msg.length
  let zeros := (119 - len % 64) % 64
  msg ++ 128 :: List.replicate zeros 0 ++ beBytes 8 (8 * len)

/-- Split a byte list into 64-byte chunks (fuel-structured so that the kernel
can evaluate it). -/
def chunksAux : ℕ → List ℕ → List (List ℕ)
  | 0, _ => []
  | _, [] => []
  | fuel + 1, l => l.take 64 :: chunksAux fuel (l.drop 64)

/-- Split a byte list into 64-byte chunks. -/
def chunk64 (l : List ℕ) : List (List ℕ) := chunksAux (l.length + 1) l

/-- The SHA-256 hash state (8 words) of a byte string. -/
def sha256Words (msg : List ℕ) : List ℕ :=
  ((chunk64 (sha256Pad msg)).map bytesToWords).foldl compressBlock sha256H0

/-- The first 8 bytes of a SHA-256 digest, as a big-endian integer
(`int.from_bytes(h[:8], "big")` in the source). -/
def sha256First8 (msg : List ℕ) : ℕ :=
  let hs := sha256Words msg
  (hs.getD 0 0) * 4294967296 + hs.getD 1 0

/-! ### UTF-8 encoding (Python `str.encode()`) -/

/-- UTF-8 encoding of one code point. -/
def utf8Char (c : Char) : List ℕ :=
  let n := c.toNat
  if n < 128 then [n]
  else if n < 2048 then [192 + n / 64, 128 + n % 64]
  else if n < 65536 then [224 + n / 4096, 128 + n / 64 % 64, 128 + n % 64]
  else [240 + n / 262144, 128 + n / 4096 % 64, 128 + n / 64 % 64, 128 + n % 64]

/-- UTF-8 encoding of a string. -/
def utf8Bytes (s : String) : List ℕ :=
  s.data.foldr (fun c acc => utf8Char c ++ acc) []

/-! ### Python string comparison (code-point lexicographic) -/

/-- Lexicographic comparison of code-point lists, as Python compares `str`. -/
def charListLt : List Char → List Char → Bool
  | [], [] => false
  | [], _ :: _ => true
  | _ :: _, [] => false
  | a :: as, b :: bs =>
    if a.toNat < b.toNat then true
    else if b.toNat < a.toNat then false
    else charListLt as bs

/-- Python `<` on strings. -/
def pyStrLt (a b : String) : Bool := charListLt a.data b.data

/-- Python `<=` on strings. -/
def pyStrLe (a b : String) : Bool := !(pyStrLt b a)

/-! ### `utils.stable_pair_hash` -/

/-- `utils.stable_pair_hash(u, v, seed)`: sort the pair, hash
`f"{seed}:{a}|{b}".encode()` with SHA-256, take the first 8 bytes as a
big-endian integer, and return `(val % 10**12) / 10**12` (the final float
division is modelled exactly in `ℚ`). -/
def stable_pair_hash (u v : String) (seed : ℤ) : ℚ :=
  let a := if pyStrLt v u then v else u
  let b := if pyStrLt v u then u else v
  let s := toString seed ++ ":" ++ a ++ "|" ++ b
  let val := sha256First8 (utf8Bytes s)
  mkRat (val % 1000000000000) 1000000000000

/-! ### `dsu.py`: Disjoint Set Union with path halving and union by size

The Python class mutates `self.parent` inside `find` (pointer halving), so the
embedded operations thread the state explicitly: `find` returns the updated
structure together with the found root.  The `while` loop of `find` is run with
fuel `len(parent)`, which suffices on every well-formed state (proved below).
-/

structure DSU where
  items : List String
  parent : List ℕ
  size : List ℕ
  deriving Repr, DecidableEq

/-- `DSU.__init__`: `index_of` keys each item to its index (later duplicates
overwrite earlier ones, as in a Python dict comprehension). -/
def index_of (items : List String) (x : String) : Option ℕ :=
  (List.range items.length).foldl
    (fun acc i => if items.getD i "" = x then some i else acc) none

/-- `DSU(items)`: parent is the identity, all sizes are 1. -/
def DSU.init (items : List String) : DSU :=
  { items := items
    parent := List.range items.length
    size := List.replicate items.length 1 }

/-- `DSU._to_index` for a string key (an `int` key passes through unchanged in
the source and is modelled by calling the index-level operations directly).
A missing key raises `KeyError` in Python; the embedding maps it to the
out-of-range index `len(items)`, which no in-contract call ever produces. -/
def DSU.toIndex (d : DSU) (x : String) : ℕ :=
  (index_of d.items x).getD d.items.length

/-- The loop of `DSU.find`: `while parent[i] != i: parent[i] = parent[parent[i]];
i = parent[i]`, with explicit fuel. -/
def findAux : List ℕ → ℕ → ℕ → List ℕ × ℕ
  | p, i, 0 => (p, i)
  | p, i, fuel + 1 =>
    let pi := p.getD i i
    if pi = i then (p, i)
    else
      let g := p.getD pi pi
      findAux (p.set i g) g fuel

/-- `DSU.find` on an index, threading the mutated parent array. -/
def DSU.find (d : DSU) (i : ℕ) : DSU × ℕ :=
  let pr := findAux d.parent i d.parent.length
  ({ d with parent := pr.1 }, pr.2)

/-- `DSU.union`: no-op returning `False` when the two roots coincide, else link
the root of smaller stored size below the other and add its size over. -/
def DSU.union (d : DSU) (a b : ℕ) : DSU × Bool :=
  let fa := d.find a
  let ra := fa.2
  let fb := fa.1.find b
  let d2 := fb.1
  let rb := fb.2
  if ra = rb then (d2, false)
  else
    let sra := d2.size.getD ra 0
    let srb := d2.size.getD rb 0
    let ra2 := if sra < srb then rb else ra
    let rb2 := if sra < srb then ra else rb
    ({ d2 with
        parent := d2.parent.set rb2 ra2
        size := d2.size.set ra2 (d2.size.getD ra2 0 + d2.size.getD rb2 0) },
      true)

/-- `dict.setdefault(k, []).append(v)` on an insertion-ordered association
list. -/
def upsert {κ α : Type} [DecidableEq κ] (l : List (κ × List α)) (k : κ) (v : α) :
    List (κ × List α) :=
  match l with
  | [] => [(k, [v])]
  | (k0, vs) :: rest =>
    if k0 = k then (k0, vs ++ [v]) :: rest else (k0, vs) :: upsert rest k v

/-- The loop of `DSU.groups`, threading the state mutated by `find`. -/
def groupsAux : DSU → List ℕ → List (ℕ × List ℕ) → DSU × List (ℕ × List ℕ)
  | d, [], acc => (d, acc)
  | d, i :: rest, acc =>
    let fr := d.find i
    groupsAux fr.1 rest (upsert acc fr.2 i)

/-- `DSU.groups` with the mutated state returned alongside the result. -/
def DSU.groupsM (d : DSU) : DSU × List (ℕ × List ℕ) :=
  groupsAux d (List.range d.items.length) []

/-- `DSU.groups`: representative-to-members mapping, in first-encounter order
of representatives (Python dict insertion order). -/
def DSU.groups (d : DSU) : List (ℕ × List ℕ) := d.groupsM.2

/-- The loop of `DSU.snapshot`, threading the state mutated by `find`. -/
def snapshotAux : DSU → List ℕ → List ℕ → DSU × List ℕ
  | d, [], acc => (d, acc)
  | d, i :: rest, acc =>
    let fr := d.find i
    snapshotAux fr.1 rest (acc ++ [fr.2])

/-- `DSU.snapshot` with the mutated state returned alongside the result. -/
def DSU.snapshotM (d : DSU) : DSU × List ℕ :=
  snapshotAux d (List.range d.items.length) []

/-- `DSU.snapshot`: the parent array resolved to final representatives. -/
def DSU.snapshot (d : DSU) : List ℕ := d.snapshotM.2

/-- `DSU.restore`: replace the parent array and recompute sizes by counting
each node into its direct parent (correct for the depth-≤1 arrays produced by
`snapshot`). -/
def DSU.restore (d : DSU) (parents : List ℕ) : DSU :=
  let size0 := List.replicate d.items.length 1
  let newSize := (List.range d.items.length).foldl
    (fun sz i =>
      let pi := parents.getD i i
      if pi ≠ i then sz.set pi (sz.getD pi 0 + 1) else sz)
    size0
  { d with parent := parents, size := newSize }

/-! ### Specification-level view of a parent array -/

/-- `k`-fold application of the parent map (out-of-range entries read as
themselves). -/
def iterP (p : List ℕ) : ℕ → ℕ → ℕ
  | 0, i => i
  | k + 1, i => iterP p k (p.getD i i)

/-- `i` is a fixpoint of the parent map. -/
def isRootP (p : List ℕ) (i : ℕ) : Prop := p.getD i i = i

instance (p : List ℕ) (i : ℕ) : Decidable (isRootP p i) := by
  unfold isRootP; infer_instance

/-- The representative of `i`: the parent map iterated `length p` times. -/
def rootP (p : List ℕ) (i : ℕ) : ℕ := iterP p p.length i

/-- `i` reaches a fixpoint within `k` steps. -/
def Reach (p : List ℕ) (k i : ℕ) : Prop := isRootP p (iterP p k i)

/-- Well-formedness of a parent array: entries in range, and every chain
reaches a fixpoint within `length p` steps. -/
def WFp (p : List ℕ) : Prop :=
  (∀ i < p.length, p.getD i i < p.length) ∧
  (∀ i < p.length, Reach p p.length i)

instance (p : List ℕ) : Decidable (WFp p) := by
  unfold WFp Reach; infer_instance

/-- Well-formedness of a DSU state: parent array well-formed, and all three
arrays of equal length. -/
def DSU.WF (d : DSU) : Prop :=
  WFp d.parent ∧ d.parent.length = d.items.length ∧
    d.size.length = d.items.length

instance (d : DSU) : Decidable d.WF := by
  unfold DSU.WF; infer_instance

/-- Number of representatives (fixpoints of the parent map). -/
def rootCount (p : List ℕ) : ℕ :=
  (List.range p.length).countP fun i => decide (isRootP p i)

/-- Number of elements of the universe whose representative is `r`. -/
def setCount (p : List ℕ) (r : ℕ) : ℕ :=
  (List.range p.length).countP fun i => decide (rootP p i = r)

/-- Stored sizes agree with actual set sizes at every representative. -/
def SizeOK (d : DSU) : Prop :=
  ∀ r < d.parent.length, isRootP d.parent r →
    d.size.getD r 0 = setCount d.parent r

/-- The DSU states reachable from a fresh `DSU(items)` by in-range unions.
This captures "any sequence of unions" in §8 of the specification. -/
inductive DSU.Reachable : DSU → Prop
  | init (items : List String) : DSU.Reachable (DSU.init items)
  | unionStep (d : DSU) (a b : ℕ) (h : DSU.Reachable d)
      (ha : a < d.items.length) (hb : b < d.items.length) :
      DSU.Reachable (d.union a b).1

/-- The assoc-list contents of `groups` determined by a root function alone;
`DSU.groups` is proved to compute this. -/
def groupsSpec (r : ℕ → ℕ) (l : List ℕ) : List (ℕ × List ℕ) :=
  l.foldl (fun acc i => upsert acc (r i) i) []

/-- The root surviving `union(a, b)`: the one of larger stored size, the root
of `a` on ties. -/
def unionWinner (d : DSU) (a b : ℕ) : ℕ :=
  if d.size.getD (rootP d.parent a) 0 < d.size.getD (rootP d.parent b) 0 then
    rootP d.parent b
  else rootP d.parent a

/-- The root linked below the winner by `union(a, b)`. -/
def unionLoser (d : DSU) (a b : ℕ) : ℕ :=
  if d.size.getD (rootP d.parent a) 0 < d.size.getD (rootP d.parent b) 0 then
    rootP d.parent a
  else rootP d.parent b

/-! ### `utils.py`: similarity matrices and the candidate selector

Similarity matrices are represented as a function of two indices.  Cosine
similarity normalises rows with an L2 norm, a square root that has no exact
rational value; the pipeline is therefore parameterised by the row
normalisation `ν` standing for `l2_normalize_rows`, and every theorem about
the pipeline quantifies over `ν`. -/

/-- Insert `x` into a sorted list, before the first element it compares
`le` to (so an earlier-inserted element stays before later ties: the fold
below is a stable sort). -/
def insertSorted {α : Type} (le : α → α → Bool) (x : α) : List α → List α
  | [] => [x]
  | y :: ys => if le x y then x :: y :: ys else y :: insertSorted le x ys

/-- Stable insertion sort.  Python's `sort` and the embedding's uses of it
agree: a stable sort under a total preorder has a unique output, so any stable
implementation models `list.sort`/sorted order faithfully. -/
def stableSort {α : Type} (le : α → α → Bool) (l : List α) : List α :=
  l.foldr (insertSorted le) []

/-- Dot product of two rational vectors. -/
def dotQ (x y : List ℚ) : ℚ := ((x.zip y).map fun ab => ab.1 * ab.2).sum

/-- `utils.dot_similarity_matrix`: `X @ X.T`. -/
def dot_similarity_matrix (X : List (List ℚ)) : ℕ → ℕ → ℚ :=
  fun i j => dotQ (X.getD i []) (X.getD j [])

/-- `utils.cosine_similarity_matrix`: normalise rows (the `ν` parameter stands
for `l2_normalize_rows`) then multiply by the transpose. -/
def cosine_similarity_matrix (ν : List (List ℚ) → List (List ℚ))
    (X : List (List ℚ)) : ℕ → ℕ → ℚ :=
  dot_similarity_matrix (ν X)

/-- One row of `utils.select_topk_above_threshold`: columns `j > i` whose score
meets the threshold, sorted by descending score (numpy's
`argpartition`/`argsort` leave the relative order of tied scores
implementation-defined; the embedding fixes the stable order, and every
property proved below is independent of that choice), truncated to the `topk`
best when `topk > 0`. -/
def selectRow (S : ℕ → ℕ → ℚ) (n : ℕ) (tau : ℚ) (topk : ℤ) (i : ℕ) :
    List (ℕ × ℕ × ℚ) :=
  let js := (List.range n).filter fun j => decide (i < j) && decide (tau ≤ S i j)
  let sorted := stableSort (fun a b => decide (b.2 ≤ a.2)) (js.map fun j => (j, S i j))
  let sel :=
    if 0 < topk ∧ topk < (sorted.length : ℤ) then sorted.take topk.toNat else sorted
  sel.map fun t => (i, t.1, t.2)

/-- `utils.select_topk_above_threshold` over an `n × n` similarity matrix. -/
def select_topk_above_threshold (S : ℕ → ℕ → ℚ) (n : ℕ) (tau : ℚ) (topk : ℤ) :
    List (ℕ × ℕ × ℚ) :=
  ((List.range n).map (selectRow S n tau topk)).flatten

/-! ### `schemas.py`: requests and merge events -/

/-- `schemas.RunRequest` with its default values. -/
structure RunRequest where
  tau_sim : ℚ := 98 / 100
  alpha : ℚ := 90 / 100
  beta : ℚ := 5 / 100
  layer_whitelist : Option (List ℤ) := none
  gate_enabled : Bool := true
  similarity_metric : String := "cosine"
  fingerprint_source : String := "adjacency"
  normalize_fingerprints : Bool := true
  topk_candidates_per_node : ℤ := 50
  max_pairs_per_layer : ℤ := 100000
  max_merges : ℤ := 0
  min_group_size_postfilter : ℤ := 1
  seed : ℤ := 123
  deriving Repr

/-- `schemas.MergeEvent`. -/
structure MergeEvent where
  u : String
  v : String
  score : ℚ
  layer : ℤ
  mean_corr : ℚ
  ce_gap : ℚ
  deriving Repr, DecidableEq

/-! ### `models.py`: graph model -/

/-- `models.Node`; `meta` is modelled as the vector-valued entries the core
ever reads from it. -/
structure Node where
  id : String
  type : String
  layer : Option ℤ := none
  meta : List (String × List ℚ) := []
  deriving Repr

/-- `models.Edge`. -/
structure Edge where
  source : String
  target : String
  weight : ℚ
  deriving Repr

/-- `models.Graph`; the derived indices of `build_indices` are recomputed on
demand below instead of being stored. -/
structure Graph where
  nodes : List Node
  edges : List Edge
  deriving Repr

/-- `node_by_id`: a Python dict comprehension, so later duplicate ids win. -/
def Graph.node_by_id (g : Graph) (x : String) : Option Node :=
  g.nodes.foldl (fun acc n => if n.id = x then some n else acc) none

/-- `outgoing[s]`: edges with source `s`, in input order; only node ids are
keys of the dict. -/
def Graph.outgoing (g : Graph) (s : String) : List Edge :=
  if g.nodes.any (fun n => n.id = s) then g.edges.filter (fun e => e.source = s)
  else []

/-- `feature_ids`. -/
def Graph.feature_ids (g : Graph) : List String :=
  (g.nodes.filter fun n => n.type = "feature").map Node.id

/-- `token_ids`. -/
def Graph.token_ids (g : Graph) : List String :=
  (g.nodes.filter fun n => n.type = "token").map Node.id

/-- `logit_ids`. -/
def Graph.logit_ids (g : Graph) : List String :=
  (g.nodes.filter fun n => n.type = "logit").map Node.id

/-- `layer_of`. -/
def Graph.layer_of (g : Graph) (x : String) : Option ℤ :=
  match g.node_by_id x with
  | some n => n.layer
  | none => none

/-! ### `loader.py`: fingerprint construction -/

/-- The first vector stored in `Node.meta` under the accepted keys, in the
source's loop order `delta_logit`, `fingerprint`, `vec`. -/
def metaVec (n : Node) : Option (List ℚ) :=
  match n.meta.lookup "delta_logit" with
  | some v => some v
  | none =>
    match n.meta.lookup "fingerprint" with
    | some v => some v
    | none => n.meta.lookup "vec"

/-- `loader._delta_logit_vectors_from_meta`: per-feature stored vectors, or
`none` when any feature lacks one or dimensions are inconsistent. -/
def delta_logit_vectors_from_meta (g : Graph) : Option (List (List ℚ)) :=
  let vecs := g.feature_ids.map fun fid => (g.node_by_id fid).bind metaVec
  if vecs.any Option.isNone then none
  else
    let vs := vecs.reduceOption
    match vs with
    | [] => some []
    | v :: rest =>
      if rest.all (fun w => w.length = v.length) then some (v :: rest) else none

/-- Result triple of `loader.build_fingerprints`. -/
structure FPResult where
  fids : List String
  X : List (List ℚ)
  layers : List (Option ℤ)
  deriving Repr

/-- One adjacency fingerprint row: outgoing edge weights accumulated into the
column of each known target (`index_of` is the column dict; with distinct
column ids this is the enumeration position). -/
def adjacencyRow (g : Graph) (colIds : List String) (fid : String) : List ℚ :=
  (g.outgoing fid).foldl
    (fun v e =>
      match index_of colIds e.target with
      | some j => v.set j (v.getD j 0 + e.weight)
      | none => v)
    (List.replicate colIds.length (0 : ℚ))

/-- `loader.build_fingerprints` (with `ν` standing for `l2_normalize_rows`):
select features through the optional layer whitelist, then either take stored
`delta_logit` vectors (falling back to adjacency mode when missing or
inconsistent) or accumulate adjacency fingerprints over logit columns (token
columns when the graph has no logits). -/
def build_fingerprints (ν : List (List ℚ) → List (List ℚ)) (g : Graph)
    (fingerprint_source : String) (normalize_fingerprints : Bool)
    (layer_whitelist : Option (List ℤ)) : FPResult :=
  let feature_ids := g.feature_ids
  let feature_layers := feature_ids.map g.layer_of
  let sel_idx :=
    match layer_whitelist with
    | some wl =>
      (List.range feature_ids.length).filter fun i =>
        match feature_layers.getD i none with
        | some L => wl.contains L
        | none => false
    | none => List.range feature_ids.length
  let sel_fids := sel_idx.map fun i => feature_ids.getD i ""
  let sel_layers := sel_idx.map fun i => feature_layers.getD i none
  let adjacency : FPResult :=
    let colIds := if g.logit_ids.length = 0 then g.token_ids else g.logit_ids
    let X0 := sel_fids.map (adjacencyRow g colIds)
    { fids := sel_fids
      X := if normalize_fingerprints then ν X0 else X0
      layers := sel_layers }
  if fingerprint_source = "delta_logit" then
    match delta_logit_vectors_from_meta g with
    | none => adjacency
    | some Xfull =>
      let X0 := sel_idx.map fun i => Xfull.getD i []
      { fids := sel_fids
        X := if normalize_fingerprints then ν X0 else X0
        layers := sel_layers }
  else adjacency

/-! ### `pipeline.py`: the run orchestrator -/

/-- `pipeline._similarity_matrix`: dispatch on the metric name, raising
`ValueError` (modelled as `Except.error`) on anything else. -/
def similarity_matrix (ν : List (List ℚ) → List (List ℚ)) (X : List (List ℚ))
    (metric : String) : Except String (ℕ → ℕ → ℚ) :=
  if metric = "cosine" then .ok (cosine_similarity_matrix ν X)
  else if metric = "dot" then .ok (dot_similarity_matrix X)
  else .error ("Unknown similarity metric: " ++ metric)

/-- `pipeline._group_by_layer`: indices grouped by layer key (`-1` for `None`),
in first-occurrence order (Python dict insertion order). -/
def group_by_layer (layers : List (Option ℤ)) : List (ℤ × List ℕ) :=
  (List.range layers.length).foldl
    (fun m i =>
      let key : ℤ :=
        match layers.getD i none with
        | none => -1
        | some L => L
      upsert m key i)
    []

/-- `pipeline._apply_gates`: placeholder deterministic gating from
`stable_pair_hash` (the unused `score` and `layer` arguments of the source are
kept).  The float constants `0.9`, `0.1`, `0.02` are modelled exactly. -/
def apply_gates (u v : String) (score : ℚ) (layer : ℤ) (seed : ℤ)
    (alpha beta : ℚ) : Option (ℚ × ℚ) :=
  let h := stable_pair_hash u v seed
  let mean_corr := 9 / 10 + 1 / 10 * h
  let ce_gap := 2 / 100 * (1 - h)
  if alpha ≤ mean_corr ∧ ce_gap ≤ beta then some (mean_corr, ce_gap) else none

/-- The id-pair string `f"{u}|{v}"` used as deterministic sort tie-breaker. -/
def pairKeyStr (fids : List String) (idxs : List ℕ) (t : ℕ × ℕ × ℚ) : String :=
  fids.getD (idxs.getD t.1 0) "" ++ "|" ++ fids.getD (idxs.getD t.2.1 0) ""

/-- The sort order of `pairs.sort(key=lambda t: (-t[2], f"{u}|{v}"))`:
descending score, ties by the Python string order of the id pair. -/
def pairLe (fids : List String) (idxs : List ℕ) (a b : ℕ × ℕ × ℚ) : Bool :=
  if a.2.2 = b.2.2 then pyStrLe (pairKeyStr fids idxs a) (pairKeyStr fids idxs b)
  else decide (b.2.2 ≤ a.2.2)

/-- The mutable state of the merge phase: the DSU, the merge log, and the
parent snapshots taken after each accepted merge. -/
structure MPhase where
  dsu : DSU
  merge_log : List MergeEvent
  parent_snapshots : List (List ℕ)
  deriving Repr

/-- The inner candidate loop of `run_pipeline` (lines 117–142): skip pairs that
are already joined, gate, union, and append merge event and snapshot, stopping
early when `max_merges` is reached. -/
def mergePairs (req : RunRequest) (fids : List String) (idxs : List ℕ) (L : ℤ) :
    List (ℕ × ℕ × ℚ) → MPhase → MPhase
  | [], st => st
  | t :: rest, st =>
    let u := fids.getD (idxs.getD t.1 0) ""
    let v := fids.getD (idxs.getD t.2.1 0) ""
    let f1 := st.dsu.find (st.dsu.toIndex u)
    let f2 := f1.1.find (f1.1.toIndex v)
    let d2 := f2.1
    if f1.2 = f2.2 then mergePairs req fids idxs L rest { st with dsu := d2 }
    else
      let gate :=
        if req.gate_enabled then apply_gates u v t.2.2 L req.seed req.alpha req.beta
        else some (1, 0)
      match gate with
      | none => mergePairs req fids idxs L rest { st with dsu := d2 }
      | some mc =>
        let un := d2.union (d2.toIndex u) (d2.toIndex v)
        if un.2 then
          let snap := un.1.snapshotM
          let st' : MPhase :=
            { dsu := snap.1
              merge_log := st.merge_log ++
                [{ u := u, v := v, score := t.2.2, layer := L,
                   mean_corr := mc.1, ce_gap := mc.2 }]
              parent_snapshots := st.parent_snapshots ++ [snap.2] }
          if 0 < req.max_merges ∧ req.max_merges ≤ (st'.merge_log.length : ℤ) then st'
          else mergePairs req fids idxs L rest st'
        else mergePairs req fids idxs L rest { st with dsu := un.1 }

/-- One iteration of the per-layer loop of `run_pipeline` (lines 97–142):
skip layers with fewer than two members, build the similarity matrix
(the diagonal fill with `-inf` is irrelevant: the selector only reads
columns `j > i`), select candidates, cap them, sort them, and run the merge
loop.  Returns the new phase state and this layer's candidate count. -/
def processLayer (ν : List (List ℚ) → List (List ℚ)) (req : RunRequest)
    (fids : List String) (X : List (List ℚ)) (Li : ℤ × List ℕ) (st : MPhase) :
    Except String (MPhase × ℕ) :=
  let idxs := Li.2
  if idxs.length < 2 then .ok (st, 0)
  else
    let Xl := idxs.map fun i => X.getD i []
    match similarity_matrix ν Xl req.similarity_metric with
    | .error e => .error e
    | .ok S =>
      let pairs0 := select_topk_above_threshold S idxs.length req.tau_sim
        req.topk_candidates_per_node
      let pairs1 :=
        if 0 < req.max_pairs_per_layer then pairs0.take req.max_pairs_per_layer.toNat
        else pairs0
      let pairs2 := stableSort (pairLe fids idxs) pairs1
      .ok (mergePairs req fids idxs Li.1 pairs2 st, pairs1.length)

/-- The per-layer loop of `run_pipeline` with its early exit once `max_merges`
is reached; accumulates the total candidate count. -/
def runLayers (ν : List (List ℚ) → List (List ℚ)) (req : RunRequest)
    (fids : List String) (X : List (List ℚ)) :
    List (ℤ × List ℕ) → MPhase → ℕ → Except String (MPhase × ℕ)
  | [], st, cands => .ok (st, cands)
  | Li :: rest, st, cands =>
    match processLayer ν req fids X Li st with
    | .error e => .error e
    | .ok stc =>
      if 0 < req.max_merges ∧ req.max_merges ≤ (stc.1.merge_log.length : ℤ) then
        .ok (stc.1, cands + stc.2)
      else runLayers ν req fids X rest stc.1 (cands + stc.2)

/-- `pipeline.RunState`. -/
structure RunState where
  graph : Graph
  params : RunRequest
  feature_ids : List String
  feature_layers : List (Option ℤ)
  X : List (List ℚ)
  dsu : DSU
  layer_to_indices : List (ℤ × List ℕ)
  candidates_count : ℕ
  merge_log : List MergeEvent
  parent_snapshots : List (List ℕ)
  deriving Repr

/-- `pipeline.run_pipeline`: build fingerprints, group by layer, and run the
per-layer candidate/gate/merge loop; a `ValueError` from the similarity
dispatch aborts the run (`Except.error`).  The final `groups()` call of the
stats block mutates the DSU by path compression, which is threaded here. -/
def run_pipeline (ν : List (List ℚ) → List (List ℚ)) (g : Graph)
    (req : RunRequest) : Except String RunState :=
  let fp := build_fingerprints ν g req.fingerprint_source
    req.normalize_fingerprints req.layer_whitelist
  let l2i := group_by_layer fp.layers
  let st0 : MPhase :=
    { dsu := DSU.init fp.fids, merge_log := [], parent_snapshots := [] }
  match runLayers ν req fp.fids fp.X l2i st0 0 with
  | .error e => .error e
  | .ok stc =>
    let gm := stc.1.dsu.groupsM
    .ok { graph := g, params := req, feature_ids := fp.fids,
          feature_layers := fp.layers, X := fp.X, dsu := gm.1,
          layer_to_indices := l2i, candidates_count := stc.2,
          merge_log := stc.1.merge_log,
          parent_snapshots := stc.1.parent_snapshots }

/-- The module-global `_CURRENT_RUN` discipline of `pipeline.py`: the run state
is published only after a successful run (line 164); an aborted run leaves the
previously published state in place. -/
def run_pipeline_pub (ν : List (List ℚ) → List (List ℚ)) (g : Graph)
    (req : RunRequest) (prev : Option RunState) :
    Except String RunState × Option RunState :=
  match run_pipeline ν g req with
  | .ok st => (.ok st, some st)
  | .error e => (.error e, prev)

/-! ### `pipeline.py`: the replay/snapshot builder -/

/-- `schemas.SnapshotEdge`. -/
structure SnapshotEdge where
  source : String
  target : String
  weight : ℚ
  deriving Repr, DecidableEq

/-- `schemas.SnapshotNode`. -/
structure SnapshotNode where
  id : String
  members : List String
  layer : ℤ
  size : ℕ
  deriving Repr, DecidableEq

/-- `schemas.SnapshotMetrics`. -/
structure SnapshotMetrics where
  mean_group_size : ℚ
  num_groups : ℕ
  deriving Repr, DecidableEq

/-- `schemas.Snapshot`; `groups` holds the `(id, size, layer)` records. -/
structure Snapshot where
  step : ℤ
  cr : ℚ
  nodes : List SnapshotNode
  edges : List SnapshotEdge
  groups : List (String × ℕ × ℤ)
  metrics : SnapshotMetrics
  deriving Repr, DecidableEq

/-- `pipeline._build_groups_from_parents`: members keyed by their parent entry
directly, in index order. -/
def build_groups_from_parents (parents : List ℕ) : List (ℕ × List ℕ) :=
  (List.range parents.length).foldl (fun d i => upsert d (parents.getD i 0) i) []

/-- The set `{layers[i] for i in members if layers[i] is not None}` in
first-occurrence order.  (Python set iteration order is interpreter-internal;
on every state produced by `run_pipeline` this set has at most one element
because merges are intra-layer, so the choice of order is immaterial.) -/
def groupLayersDedup (layers : List (Option ℤ)) (members : List ℕ) : List ℤ :=
  (members.filterMap fun i => layers.getD i none).dedup

/-- `pipeline._aggregate_edges_to_logits`: sum the outgoing weights of member
features into their logit targets (dict insertion order) and keep the sums
meeting the opacity threshold. -/
def aggregate_edges_to_logits (st : RunState) (groups : List (ℕ × List ℕ))
    (edge_threshold : ℚ) : List SnapshotEdge :=
  groups.foldl
    (fun acc gm =>
      let L := (groupLayersDedup st.feature_layers gm.2).headD (-1)
      let sid := "super|" ++ toString L ++ "|" ++ toString gm.1
      let accd := gm.2.foldl
        (fun a i =>
          let fid := st.feature_ids.getD i ""
          (st.graph.outgoing fid).foldl
            (fun a2 e =>
              if st.graph.logit_ids.contains e.target then
                match a2.lookup e.target with
                | some w => a2.map fun tw => if tw.1 = e.target then (tw.1, w + e.weight) else tw
                | none => a2 ++ [(e.target, e.weight)]
              else a2)
            a)
        ([] : List (String × ℚ))
      acc ++ (accd.filter fun tw => edge_threshold ≤ |tw.2|).map
        fun tw => SnapshotEdge.mk sid tw.1 tw.2)
    []

/-- `pipeline.snapshot`: reconstruct the grouping at `step` (identity parents
at `step ≤ 0`, the last snapshot at `step ≥ len`, else the snapshot after
merge number `step`), then build nodes, aggregated edges and metrics.
`parent_snapshots[-1]` on an empty snapshot list raises `IndexError` in the
source; this is modelled as `none`. -/
def snapshot (st : RunState) (step : ℤ) (edge_opacity_threshold : ℚ) :
    Option Snapshot :=
  let parentsOpt : Option (List ℕ) :=
    if step ≤ 0 then some (List.range st.feature_ids.length)
    else if (st.parent_snapshots.length : ℤ) ≤ step then st.parent_snapshots.getLast?
    else some ((st.parent_snapshots.getD (step - 1).toNat []))
  match parentsOpt with
  | none => none
  | some parents =>
    let groups := build_groups_from_parents parents
    let nodes := groups.map fun gm =>
      let member_ids := gm.2.map fun i => st.feature_ids.getD i ""
      let L := (groupLayersDedup st.feature_layers gm.2).headD (-1)
      SnapshotNode.mk ("super|" ++ toString L ++ "|" ++ toString gm.1)
        member_ids L gm.2.length
    let group_records := groups.map fun gm =>
      let L := (groupLayersDedup st.feature_layers gm.2).headD (-1)
      ("super|" ++ toString L ++ "|" ++ toString gm.1, gm.2.length, L)
    let total_size := (groups.map fun gm => gm.2.length).sum
    let num_groups := groups.length
    let mean_group_size : ℚ :=
      if 0 < num_groups then (total_size : ℚ) / (num_groups : ℚ) else 0
    let cr : ℚ :=
      if 0 < num_groups then (st.feature_ids.length : ℚ) / (num_groups : ℚ) else 1
    let edges := aggregate_edges_to_logits st groups edge_opacity_threshold
    some { step := step, cr := cr, nodes := nodes, edges := edges,
           groups := group_records,
           metrics := { mean_group_size := mean_group_size,
                        num_groups := num_groups } }

/-! ### `services/supernode_reconstruction.py`: candidate proposal and gate -/

/-- `supernode_reconstruction.NodeFingerprint` (the fields the candidate and
gate stages read); `layer` is the string key `str(fp.layer)`. -/
structure NodeFingerprint where
  node_id : String
  layer : String
  fingerprint : List ℚ
  original_influence : ℚ
  deriving Repr, DecidableEq

/-- `supernode_reconstruction.MergeCandidate`. -/
structure MergeCandidate where
  node1_id : String
  node2_id : String
  similarity : ℚ
  layer : String
  deriving Repr, DecidableEq

/-- The configuration fields of `ReconstructionConfig` read by the candidate
and gate stages. -/
structure SRConfig where
  tau_sim : ℚ
  alpha : ℚ
  beta : ℚ
  intra_layer_only : Bool
  max_duplicate_group_size : ℕ
  deriving Repr

/-- Sum of a rational vector. -/
def sumQ (l : List ℚ) : ℚ := l.sum

/-- Mean of a rational vector (`np.mean`; division by a zero length yields 0
in `ℚ`, and every use below is on vectors of length ≥ 2). -/
def meanQ (l : List ℚ) : ℚ := l.sum / (l.length : ℚ)

/-- `np.var`: population variance. -/
def varQ (l : List ℚ) : ℚ :=
  ((l.map fun x => (x - meanQ l) ^ 2).sum) / (l.length : ℚ)

/-- Sum of squares (`np.linalg.norm(v) == 0` iff this is 0). -/
def sumSq (l : List ℚ) : ℚ := (l.map fun x => x ^ 2).sum

/-- Centered second moment `Σ (xᵢ - mean x)²`; `np.corrcoef`'s normalisation
cancels, so the Pearson correlation is `sxy/√(sxx·syy)` over these sums. -/
def sxx (x : List ℚ) : ℚ := (x.map fun a => (a - meanQ x) ^ 2).sum

/-- Centered cross moment `Σ (xᵢ - mean x)(yᵢ - mean y)`. -/
def sxy (x y : List ℚ) : ℚ :=
  ((x.zip y).map fun ab => (ab.1 - meanQ x) * (ab.2 - meanQ y)).sum

/-- The informative-vector filter of `propose_candidates`: dimension ≥ 2,
nonzero norm, variance at least `1e-10` (the float literal modelled exactly). -/
def informative (fp : NodeFingerprint) : Bool :=
  decide (2 ≤ fp.fingerprint.length) && !decide (sumSq fp.fingerprint = 0) &&
    !decide (varQ fp.fingerprint < 1 / 10000000000)

/-- The duplicate-fingerprint exclusion of `propose_candidates`: group the
informative vectors by exact equality (`hash(arr.tobytes())` keys equal float
arrays) and, when some group has more than one member, drop every member of
each group larger than `max_duplicate_group_size`. -/
def propose_valid (cfg : SRConfig) (items : List NodeFingerprint) :
    List NodeFingerprint :=
  let valid := items.filter informative
  let fph := valid.foldl
    (fun acc fp => upsert acc fp.fingerprint fp.node_id)
    ([] : List (List ℚ × List String))
  let hasDup := fph.any fun kn => 1 < kn.2.length
  if hasDup then
    fph.foldl
      (fun v kn =>
        if cfg.max_duplicate_group_size < kn.2.length then
          v.filter fun fp => !kn.2.contains fp.node_id
        else v)
      valid
  else valid

/-- The comparison groups of `propose_candidates`: per string layer key in
first-occurrence order when `intra_layer_only`, otherwise one global group. -/
def propose_groups (cfg : SRConfig) (valid : List NodeFingerprint) :
    List (List NodeFingerprint) :=
  if cfg.intra_layer_only then
    (valid.foldl
      (fun m fp => upsert m fp.layer fp)
      ([] : List (String × List NodeFingerprint))).map Prod.snd
  else [valid]

/-- Candidates of one comparison group.  The main path stacks the vectors
(possible exactly when all dimensions agree), computes `S = X @ X.T`, and emits
the above-threshold upper-triangle pairs in row-major order.  The degenerate
path falls back to a pair loop whose `1 - cosine` value involves square roots;
it is abstracted by the parameter `cosSim`, with `none` standing for an
exception or non-finite similarity (skipped); every claim proved about this
function holds for all `cosSim`. -/
def group_candidates (cosSim : List ℚ → List ℚ → Option ℚ) (cfg : SRConfig)
    (group : List NodeFingerprint) : List MergeCandidate :=
  let n := group.length
  if n < 2 then []
  else
    let dim := (group.headD ⟨"", "", [], 0⟩).fingerprint.length
    let sameDim := group.all fun fp => fp.fingerprint.length = dim
    if sameDim ∧ 2 ≤ dim then
      let S := fun a b =>
        dotQ ((group.getD a ⟨"", "", [], 0⟩).fingerprint)
          ((group.getD b ⟨"", "", [], 0⟩).fingerprint)
      ((List.range n).map fun a =>
        (((List.range n).filter fun b => decide (a < b) && decide (cfg.tau_sim ≤ S a b)).map
          fun b =>
            MergeCandidate.mk (group.getD a ⟨"", "", [], 0⟩).node_id
              (group.getD b ⟨"", "", [], 0⟩).node_id (S a b)
              (group.getD a ⟨"", "", [], 0⟩).layer)).flatten
    else
      ((List.range n).map fun i =>
        (((List.range n).filter fun j => decide (i < j)).filterMap fun j =>
          let fp1 := group.getD i ⟨"", "", [], 0⟩
          let fp2 := group.getD j ⟨"", "", [], 0⟩
          if fp1.fingerprint.length ≠ fp2.fingerprint.length ∨
              fp1.fingerprint.length < 2 then none
          else
            match cosSim fp1.fingerprint fp2.fingerprint with
            | none => none
            | some sim =>
              if cfg.tau_sim ≤ sim then
                some (MergeCandidate.mk fp1.node_id fp2.node_id sim fp1.layer)
              else none)).flatten

/-- `SupernodeReconstructor.propose_candidates` over the fingerprint dict's
values in insertion order: filter to informative vectors, drop oversized
duplicate groups, split into comparison groups, and collect each group's
above-threshold pairs. -/
def propose_candidates (cosSim : List ℚ → List ℚ → Option ℚ) (cfg : SRConfig)
    (items : List NodeFingerprint) : List MergeCandidate :=
  ((propose_groups cfg (propose_valid cfg items)).map
    (group_candidates cosSim cfg)).flatten

/-- `np.allclose` with its default tolerances `rtol=1e-5`, `atol=1e-8`. -/
def allcloseQ (x y : List ℚ) : Bool :=
  decide (x.length = y.length) &&
    (x.zip y).all fun ab => decide (|ab.1 - ab.2| ≤ 1 / 100000000 + 1 / 100000 * |ab.2|)

/-- Exact decision of `correlation >= alpha` where `correlation` is the
Pearson correlation `sxy/√(sxx·syy)` (used only under the positive-variance
guard, where the denominator is positive): the square root is eliminated by
sign analysis and squaring, proved below to agree with the real-valued
inequality. -/
def corrGeB (x y : List ℚ) (alpha : ℚ) : Bool :=
  let c := sxy x y
  if 0 ≤ c then
    decide (alpha ≤ 0) || decide (alpha ^ 2 * (sxx x * sxx y) ≤ c ^ 2)
  else
    decide (alpha ≤ 0) && decide (c ^ 2 ≤ alpha ^ 2 * (sxx x * sxx y))

/-- The correlation test of `SupernodeReconstructor.fidelity_gate`, decided
exactly: equal dimensions ≥ 2 and positive variances use the Pearson
correlation (`np.corrcoef`; its `NaN` guard is dead under the variance checks,
proved below); a zero variance compares `1` (when `np.allclose`) or `0`
against `alpha`; a dimension mismatch compares `0`. -/
def gate_corr_pass (cfg : SRConfig) (fp1 fp2 : NodeFingerprint) : Bool :=
  if fp1.fingerprint.length = fp2.fingerprint.length ∧ 2 ≤ fp1.fingerprint.length then
    if 0 < varQ fp1.fingerprint ∧ 0 < varQ fp2.fingerprint then
      corrGeB fp1.fingerprint fp2.fingerprint cfg.alpha
    else if allcloseQ fp1.fingerprint fp2.fingerprint then decide (cfg.alpha ≤ 1)
    else decide (cfg.alpha ≤ 0)
  else decide (cfg.alpha ≤ 0)

/-- The CE-gap metric of `fidelity_gate`: absolute difference of the two
original influence values. -/
def gate_ce_gap (fp1 fp2 : NodeFingerprint) : ℚ :=
  |fp1.original_influence - fp2.original_influence|

/-- `SupernodeReconstructor.fidelity_gate`: keep the candidates passing both
the correlation bound `alpha` and the CE-gap bound `beta`.  `fps` is the
fingerprint dict `self.fingerprints` (whose candidates always index into it). -/
def fidelity_gate (cfg : SRConfig) (fps : String → NodeFingerprint)
    (cands : List MergeCandidate) : List MergeCandidate :=
  cands.filter fun c =>
    gate_corr_pass cfg (fps c.node1_id) (fps c.node2_id) &&
      decide (gate_ce_gap (fps c.node1_id) (fps c.node2_id) ≤ cfg.beta)

/-- The real-valued correlation metric computed by `fidelity_gate` (the
quantity whose comparison against `alpha` the Boolean gate decides): Pearson
on the positive-variance path, the `allclose` constants on the zero-variance
path, `0` on dimension mismatch. -/
noncomputable def corrMetric (fp1 fp2 : NodeFingerprint) : ℝ :=
  if fp1.fingerprint.length = fp2.fingerprint.length ∧ 2 ≤ fp1.fingerprint.length then
    if 0 < varQ fp1.fingerprint ∧ 0 < varQ fp2.fingerprint then
      (sxy fp1.fingerprint fp2.fingerprint : ℝ) /
        Real.sqrt ((sxx fp1.fingerprint : ℝ) * (sxx fp2.fingerprint : ℝ))
    else if allcloseQ fp1.fingerprint fp2.fingerprint then 1
    else 0
  else 0

/-! ### Concrete inputs used by witnesses and counterexamples -/

/-- A graph with one logit and two features, each sending weight 1 to the
logit: adjacency fingerprints are the one-dimensional vectors `[1]`. -/
def c7_graph : Graph :=
  { nodes := [{ id := "L", type := "logit" },
              { id := "a", type := "feature", layer := some 0 },
              { id := "b", type := "feature", layer := some 0 }]
    edges := [{ source := "a", target := "L", weight := 1 },
              { source := "b", target := "L", weight := 1 }] }

/-- Dot-metric, unnormalised, gate-off request (all values legal per
`schemas.RunRequest`). -/
def c7_req : RunRequest :=
  { similarity_metric := "dot", normalize_fingerprints := false,
    gate_enabled := false }

/-- The same two-feature graph for the C10 gate comparison. -/
def c10_graph : Graph :=
  { nodes := [{ id := "L", type := "logit" },
              { id := "a", type := "feature", layer := some 0 },
              { id := "b", type := "feature", layer := some 0 }]
    edges := [{ source := "a", target := "L", weight := 1 },
              { source := "b", target := "L", weight := 1 }] }

/-- Gate enabled at the default bounds `alpha = 0.90`, `beta = 0.05`,
`seed = 123`. -/
def c10_req_on : RunRequest :=
  { similarity_metric := "dot", normalize_fingerprints := false,
    gate_enabled := true }

/-- The identical request with the gate disabled. -/
def c10_req_off : RunRequest :=
  { similarity_metric := "dot", normalize_fingerprints := false,
    gate_enabled := false }

/-- A single-feature graph: every layer group is smaller than two, so a run
completes with an empty merge log. -/
def c4_graph : Graph :=
  { nodes := [{ id := "a", type := "feature", layer := some 0 }], edges := [] }

/-- A valid request for the single-feature run. -/
def c4_req : RunRequest :=
  { similarity_metric := "dot", normalize_fingerprints := false,
    gate_enabled := false }

/-- The single-feature graph again, for the C8 counterexample run. -/
def c8_graph_small : Graph :=
  { nodes := [{ id := "a", type := "feature", layer := some 0 }], edges := [] }

/-- A request whose similarity metric is neither `cosine` nor `dot`. -/
def c8_req_bad : RunRequest :=
  { similarity_metric := "foo", normalize_fingerprints := false,
    gate_enabled := false }

/-- A two-feature graph whose only layer group has two members, so a run with
an unknown metric reaches the similarity dispatch. -/
def c8_graph_big : Graph :=
  { nodes := [{ id := "L", type := "logit" },
              { id := "a", type := "feature", layer := some 0 },
              { id := "b", type := "feature", layer := some 0 }]
    edges := [{ source := "a", target := "L", weight := 1 },
              { source := "b", target := "L", weight := 1 }] }

/-- The two-feature graph for the C9 witness run (one accepted merge). -/
def c9_graph : Graph :=
  { nodes := [{ id := "L", type := "logit" },
              { id := "a", type := "feature", layer := some 0 },
              { id := "b", type := "feature", layer := some 0 }]
    edges := [{ source := "a", target := "L", weight := 1 },
              { source := "b", target := "L", weight := 1 }] }

/-- Dot-metric, unnormalised, gate-off request for the C9 witness run. -/
def c9_req : RunRequest :=
  { similarity_metric := "dot", normalize_fingerprints := false,
    gate_enabled := false }

/-- The C1 witness graph (same two-feature shape). -/
def c1_graph : Graph :=
  { nodes := [{ id := "L", type := "logit" },
              { id := "a", type := "feature", layer := some 0 },
              { id := "b", type := "feature", layer := some 0 }]
    edges := [{ source := "a", target := "L", weight := 1 },
              { source := "b", target := "L", weight := 1 }] }

/-- Constant-zero fingerprint: zero variance. -/
def c6_fp1 : NodeFingerprint :=
  { node_id := "n1", layer := "0", fingerprint := [0, 0],
    original_influence := 0 }

/-- Constant `1e-9` fingerprint: zero variance, `np.allclose` to `c6_fp1` but
not identical to it. -/
def c6_fp2 : NodeFingerprint :=
  { node_id := "n2", layer := "0", fingerprint := [1 / 1000000000, 1 / 1000000000],
    original_influence := 0 }

/-- The fingerprint dict for the C6 counterexample. -/
def c6_fps : String → NodeFingerprint :=
  fun s => if s = "n1" then c6_fp1 else c6_fp2

/-- A gate configuration with the default bounds. -/
def c6_cfg : SRConfig :=
  { tau_sim := 98 / 100, alpha := 90 / 100, beta := 5 / 100,
    intra_layer_only := true, max_duplicate_group_size := 10 }

/-- The candidate joining the two near-identical constant vectors. -/
def c6_cand : MergeCandidate :=
  { node1_id := "n1", node2_id := "n2", similarity := 1, layer := "0" }

/-- A concrete 3×3 similarity matrix for the C5 witness. -/
def c5_S : ℕ → ℕ → ℚ :=
  fun i j => (([[0, 1, 1 / 2], [1, 0, 3 / 4], [1 / 2, 3 / 4, 0]] :
    List (List ℚ)).getD i []).getD j 0

/-- Membership in the value lists of an insertion-ordered association map. -/
def memVals {κ α : Type} (m : List (κ × List α)) (x : α) : Prop :=
  ∃ kv ∈ m, x ∈ kv.2

/-- The gate-independent part of a merge event: everything but the logged
`mean_corr`/`ce_gap` metrics. -/
def eventKey (e : MergeEvent) : String × String × ℚ × ℤ :=
  (e.u, e.v, e.score, e.layer)

/-- The gate-independent part of a completed run state: everything but the
request parameters and the logged per-merge metrics. -/
def runKey (st : RunState) : Graph × List String × List (Option ℤ) ×
    List (List ℚ) × DSU × List (ℤ × List ℕ) × ℕ ×
    List (String × String × ℚ × ℤ) × List (List ℕ) :=
  (st.graph, st.feature_ids, st.feature_layers, st.X, st.dsu,
   st.layer_to_indices, st.candidates_count, st.merge_log.map eventKey,
   st.parent_snapshots)

/-- The gate-independent part of a merge-phase state. -/
def phaseKey (st : MPhase) :
    DSU × List (String × String × ℚ × ℤ) × List (List ℕ) :=
  (st.dsu, st.merge_log.map eventKey, st.parent_snapshots)

/-- Dot-metric, unnormalised, gate-off request for the C1 witness run. -/
def c1_req : RunRequest :=
  { similarity_metric := "dot", normalize_fingerprints := false,
    gate_enabled := false }

/-- The merge-phase invariant behind the replay-monotonicity claim: a
well-formed DSU over the tracked features, each accepted merge decreasing the
root count by one, and the `k`-th parent snapshot fully resolved with exactly
`n - (k + 1)` distinct entries. -/
def MInv (fids : List String) (st : MPhase) : Prop :=
  st.dsu.WF ∧ st.dsu.items = fids ∧
  rootCount st.dsu.parent + st.merge_log.length = fids.length ∧
  st.parent_snapshots.length = st.merge_log.length ∧
  ∀ k < st.parent_snapshots.length,
    (st.parent_snapshots.getD k []).length = fids.length ∧
    ((List.range fids.length).map fun i =>
      (st.parent_snapshots.getD k []).getD i 0).toFinset.card =
      fids.length - (k + 1)

/-! ## Theory of the embedded DSU

The lemmas below develop the contract of the path-halving union-find: the
fuel-`n` `find` loop computes the spec-level representative `rootP`, preserves
the partition, and keeps the state well-formed; `union` merges exactly the two
argument classes. -/

theorem getD_self_of_len_le {p : List ℕ} {i : ℕ} (h : p.length ≤ i) :
    p.getD i i = i :=
  List.getD_eq_default p i h

theorem isRootP_of_len_le {p : List ℕ} {i : ℕ} (h : p.length ≤ i) :
    isRootP p i := getD_self_of_len_le h

theorem iterP_add (p : List ℕ) (a b i : ℕ) :
    iterP p (a + b) i = iterP p b (iterP p a i) := by
  induction a generalizing i with
  | zero => simp [iterP]
  | succ a ih =>
    have : a + 1 + b = (a + b) + 1 := by omega
    rw [this]
    show iterP p (a + b) (p.getD i i) = iterP p b (iterP p a (p.getD i i))
    exact ih (p.getD i i)

theorem iterP_succ_back (p : List ℕ) (k i : ℕ) :
    iterP p (k + 1) i = p.getD (iterP p k i) (iterP p k i) := by
  have h := iterP_add p k 1 i
  rw [h]
  rfl

theorem iterP_of_isRootP {p : List ℕ} {j : ℕ} (h : isRootP p j) (k : ℕ) :
    iterP p k j = j := by
  induction k with
  | zero => rfl
  | succ k ih =>
    show iterP p k (p.getD j j) = j
    rw [h]
    exact ih

theorem reach_mono {p : List ℕ} {k m i : ℕ} (h : Reach p k i) (hkm : k ≤ m) :
    iterP p m i = iterP p k i ∧ Reach p m i := by
  obtain ⟨c, rfl⟩ := Nat.exists_eq_add_of_le hkm
  have he : iterP p (k + c) i = iterP p c (iterP p k i) := iterP_add p k c i
  have hr : iterP p c (iterP p k i) = iterP p k i := iterP_of_isRootP h c
  refine ⟨he.trans hr, ?_⟩
  unfold Reach
  rw [he, hr]
  exact h

theorem iterP_lt {p : List ℕ}
    (hb : ∀ j < p.length, p.getD j j < p.length) {i : ℕ} (hi : i < p.length)
    (k : ℕ) : iterP p k i < p.length := by
  induction k generalizing i with
  | zero => exact hi
  | succ k ih =>
    show iterP p k (p.getD i i) < p.length
    exact ih (hb i hi)

theorem wf_reach_all {p : List ℕ} (hwf : WFp p) (i : ℕ) :
    Reach p p.length i := by
  by_cases hi : i < p.length
  · exact hwf.2 i hi
  · push_neg at hi
    have hr : isRootP p i := isRootP_of_len_le hi
    unfold Reach
    rw [iterP_of_isRootP hr]
    exact hr

theorem rootP_isRoot {p : List ℕ} (hwf : WFp p) (i : ℕ) :
    isRootP p (rootP p i) := wf_reach_all hwf i

theorem rootP_of_isRoot {p : List ℕ} {i : ℕ} (h : isRootP p i) :
    rootP p i = i := iterP_of_isRootP h p.length

theorem rootP_eq_self_iff {p : List ℕ} (hwf : WFp p) (i : ℕ) :
    rootP p i = i ↔ isRootP p i := by
  constructor
  · intro h
    have := rootP_isRoot hwf i
    rwa [h] at this
  · exact rootP_of_isRoot

theorem rootP_lt {p : List ℕ} (hwf : WFp p) {i : ℕ} (hi : i < p.length) :
    rootP p i < p.length := iterP_lt hwf.1 hi p.length

theorem rootP_getD {p : List ℕ} (hwf : WFp p) {i : ℕ} (hni : ¬ isRootP p i) :
    rootP p (p.getD i i) = rootP p i := by
  have hi : i < p.length := by
    by_contra hle
    push_neg at hle
    exact hni (isRootP_of_len_le hle)
  have hn1 : 1 ≤ p.length := Nat.one_le_iff_ne_zero.mpr (by omega)
  obtain ⟨m, hm⟩ : ∃ m, p.length = m + 1 := ⟨p.length - 1, by omega⟩
  have hunf : rootP p i = iterP p m (p.getD i i) := by
    unfold rootP
    rw [hm]
    rfl
  have hreach : Reach p m (p.getD i i) := by
    unfold Reach
    rw [← hunf]
    exact rootP_isRoot hwf i
  have := reach_mono hreach (show m ≤ p.length by omega)
  unfold rootP
  rw [this.1, ← hunf]
  rfl

theorem rootP_iterP {p : List ℕ} (hwf : WFp p) (k i : ℕ) :
    rootP p (iterP p k i) = rootP p i := by
  induction k generalizing i with
  | zero => rfl
  | succ k ih =>
    show rootP p (iterP p k (p.getD i i)) = rootP p i
    rw [ih (p.getD i i)]
    by_cases hr : isRootP p i
    · rw [hr]
    · exact rootP_getD hwf hr

theorem rootP_idem {p : List ℕ} (hwf : WFp p) (i : ℕ) :
    rootP p (rootP p i) = rootP p i := rootP_iterP hwf p.length i

theorem iter_cycle_root_below {p : List ℕ} {x a b m : ℕ} (hab : a < b)
    (heq : iterP p a x = iterP p b x) (hm : b ≤ m)
    (hroot : isRootP p (iterP p m x)) :
    ∃ s, s < b ∧ isRootP p (iterP p s x) := by
  have hper : ∀ c, iterP p (a + c) x = iterP p (b + c) x := by
    intro c
    rw [iterP_add, iterP_add, heq]
  have hdesc : ∀ s, a ≤ s → ∃ t, t < b ∧ iterP p t x = iterP p s x := by
    intro s
    induction s using Nat.strong_induction_on with
    | _ s ih =>
      intro has
      by_cases hsb : s < b
      · exact ⟨s, hsb, rfl⟩
      · push_neg at hsb
        have h2 : iterP p s x = iterP p (a + (s - b)) x := by
          calc iterP p s x = iterP p (b + (s - b)) x := by
                congr 1
                omega
          _ = iterP p (a + (s - b)) x := (hper (s - b)).symm
        obtain ⟨t, htb, hteq⟩ := ih (a + (s - b)) (by omega) (by omega)
        exact ⟨t, htb, by rw [hteq, ← h2]⟩
  obtain ⟨t, htb, hteq⟩ := hdesc m (by omega)
  refine ⟨t, htb, ?_⟩
  rw [hteq]
  exact hroot

theorem reach_len {p : List ℕ}
    (hb : ∀ j < p.length, p.getD j j < p.length) {m x : ℕ}
    (h : Reach p m x) : Reach p p.length x := by
  by_cases hex : ∃ k, k ≤ p.length ∧ isRootP p (iterP p k x)
  · obtain ⟨k, hk, hr⟩ := hex
    exact (reach_mono hr hk).2
  · push_neg at hex
    exfalso
    have hmn : p.length < m := by
      by_contra hle
      push_neg at hle
      exact hex m hle h
    have hx : x < p.length := by
      by_contra hge
      push_neg at hge
      exact hex 0 (by omega) (isRootP_of_len_le hge)
    have hlt : ∀ k, iterP p k x < p.length := fun k => iterP_lt hb hx k
    have hmap : ∀ k ∈ Finset.range (p.length + 1),
        iterP p k x ∈ Finset.range p.length :=
      fun k _ => Finset.mem_range.mpr (hlt k)
    have hcard : (Finset.range p.length).card < (Finset.range (p.length + 1)).card := by
      simp
    obtain ⟨a, ha, b, hbm, hab, heq⟩ :=
      Finset.exists_ne_map_eq_of_card_lt_of_maps_to hcard hmap
    have hbn : b ≤ p.length := by
      have := Finset.mem_range.mp hbm
      omega
    have han : a ≤ p.length := by
      have := Finset.mem_range.mp ha
      omega
    rcases Nat.lt_or_ge a b with hlt2 | hge2
    · obtain ⟨s, hsb, hsr⟩ := iter_cycle_root_below hlt2 heq (by omega) h
      exact hex s (by omega) hsr
    · have hba : b < a := by omega
      obtain ⟨s, hsb, hsr⟩ := iter_cycle_root_below hba heq.symm (by omega) h
      exact hex s (by omega) hsr

theorem reach_len_iter {p : List ℕ}
    (hb : ∀ j < p.length, p.getD j j < p.length) {m x : ℕ}
    (h : Reach p m x) : iterP p p.length x = iterP p m x := by
  have h2 := reach_len hb h
  rcases Nat.le_total m p.length with hle | hle
  · exact (reach_mono h hle).1
  · exact ((reach_mono h2 hle).1).symm

theorem getD_set_self' {p : List ℕ} {i v : ℕ} (h : i < p.length) :
    (p.set i v).getD i i = v := by
  have hl : i < (p.set i v).length := by
    rw [List.length_set]
    exact h
  rw [List.getD_eq_getElem _ _ hl, List.getElem_set_self]

theorem getD_set_other {p : List ℕ} {i v x : ℕ} (h : x ≠ i) :
    (p.set i v).getD x x = p.getD x x := by
  by_cases hx : x < p.length
  · have hl : x < (p.set i v).length := by
      rw [List.length_set]
      exact hx
    rw [List.getD_eq_getElem _ _ hl, List.getD_eq_getElem _ _ hx]
    exact List.getElem_set_ne (Ne.symm h) _
  · push_neg at hx
    rw [List.getD_eq_default p _ hx, List.getD_eq_default]
    rw [List.length_set]
    exact hx

theorem no_two_cycle {p : List ℕ} (hwf : WFp p) {i : ℕ} (hni : ¬ isRootP p i)
    (hcyc : p.getD (p.getD i i) (p.getD i i) = i) : False := by
  have hij : p.getD i i ≠ i := hni
  have hnj : ¬ isRootP p (p.getD i i) := by
    unfold isRootP
    rw [hcyc]
    exact fun h => hij h.symm
  have hcl : ∀ k, (iterP p k i = i ∨ iterP p k i = p.getD i i) ∧
      (iterP p k (p.getD i i) = i ∨ iterP p k (p.getD i i) = p.getD i i) := by
    intro k
    induction k with
    | zero => exact ⟨Or.inl rfl, Or.inr rfl⟩
    | succ k ih =>
      constructor
      · show iterP p k (p.getD i i) = i ∨ iterP p k (p.getD i i) = p.getD i i
        exact ih.2
      · show iterP p k (p.getD (p.getD i i) (p.getD i i)) = i ∨
            iterP p k (p.getD (p.getD i i) (p.getD i i)) = p.getD i i
        rw [hcyc]
        exact ih.1
  have hr : isRootP p (iterP p p.length i) := wf_reach_all hwf i
  rcases (hcl p.length).1 with h | h
  · rw [h] at hr
    exact hni hr
  · rw [h] at hr
    exact hnj hr

theorem reach_two_step {p : List ℕ} {i k : ℕ}
    (hrj' : ¬ isRootP p i) (h : Reach p (k + 1) i) :
    Reach p k (p.getD (p.getD i i) (p.getD i i)) := by
  by_cases hrj : isRootP p (p.getD i i)
  · unfold Reach
    unfold isRootP at hrj
    rw [hrj, iterP_of_isRootP hrj]
    exact hrj
  · have hh : isRootP p (iterP p k (p.getD i i)) := h
    cases k with
    | zero => exact absurd hh hrj
    | succ k' =>
      have he : iterP p (k' + 1) (p.getD i i) =
          iterP p k' (p.getD (p.getD i i) (p.getD i i)) := rfl
      rw [he] at hh
      exact (reach_mono hh (Nat.le_succ k')).2

theorem halve_iter {p : List ℕ} (hwf : WFp p) {i : ℕ} (hni : ¬ isRootP p i) :
    ∀ k x, Reach p k x →
      iterP (p.set i (p.getD (p.getD i i) (p.getD i i))) k x = rootP p x := by
  have hi : i < p.length := by
    by_contra hle
    push_neg at hle
    exact hni (isRootP_of_len_le hle)
  have hqd_i : (p.set i (p.getD (p.getD i i) (p.getD i i))).getD i i =
      p.getD (p.getD i i) (p.getD i i) := getD_set_self' hi
  have hqd_ne : ∀ x, x ≠ i →
      (p.set i (p.getD (p.getD i i) (p.getD i i))).getD x x = p.getD x x :=
    fun _ hx => getD_set_other hx
  have hrootg : rootP p (p.getD (p.getD i i) (p.getD i i)) = rootP p i := by
    by_cases hrj : isRootP p (p.getD i i)
    · unfold isRootP at hrj
      rw [hrj]
      exact rootP_getD hwf hni
    · rw [rootP_getD hwf hrj, rootP_getD hwf hni]
  intro k
  induction k with
  | zero =>
    intro x hx
    have hxr : isRootP p x := hx
    show x = rootP p x
    exact (rootP_of_isRoot hxr).symm
  | succ k ih =>
    intro x hx
    by_cases hxr : isRootP p x
    · have hxi : x ≠ i := fun h => hni (h ▸ hxr)
      have hqr : isRootP (p.set i (p.getD (p.getD i i) (p.getD i i))) x := by
        unfold isRootP
        rw [hqd_ne x hxi]
        exact hxr
      rw [iterP_of_isRootP hqr, rootP_of_isRoot hxr]
    · by_cases hxi : x = i
      · subst hxi
        show iterP _ k ((p.set x _).getD x x) = rootP p x
        rw [hqd_i]
        have hreachg := reach_two_step hxr hx
        rw [ih _ hreachg, hrootg]
      · show iterP _ k ((p.set i _).getD x x) = rootP p x
        rw [hqd_ne x hxi]
        have hreach : Reach p k (p.getD x x) := hx
        rw [ih _ hreach, rootP_getD hwf hxr]

theorem halve_root {p : List ℕ} (hwf : WFp p) {i : ℕ} (hni : ¬ isRootP p i) :
    ∀ x, rootP (p.set i (p.getD (p.getD i i) (p.getD i i))) x = rootP p x := by
  intro x
  have hq := halve_iter hwf hni p.length x (wf_reach_all hwf x)
  unfold rootP
  rw [List.length_set]
  exact hq

theorem halve_isRoot {p : List ℕ} (hwf : WFp p) {i : ℕ} (hni : ¬ isRootP p i) :
    ∀ x, isRootP (p.set i (p.getD (p.getD i i) (p.getD i i))) x ↔ isRootP p x := by
  intro x
  have hi : i < p.length := by
    by_contra hle
    push_neg at hle
    exact hni (isRootP_of_len_le hle)
  by_cases hxi : x = i
  · subst hxi
    have hgi : p.getD (p.getD x x) (p.getD x x) ≠ x :=
      fun h => no_two_cycle hwf hni h
    constructor
    · intro h
      unfold isRootP at h
      rw [getD_set_self' hi] at h
      exact absurd h hgi
    · intro h
      exact absurd h hni
  · unfold isRootP
    rw [getD_set_other hxi]

theorem rootP_two_step {p : List ℕ} (hwf : WFp p) {i : ℕ}
    (hni : ¬ isRootP p i) :
    rootP p (p.getD (p.getD i i) (p.getD i i)) = rootP p i := by
  by_cases hrj : isRootP p (p.getD i i)
  · unfold isRootP at hrj
    rw [hrj]
    exact rootP_getD hwf hni
  · rw [rootP_getD hwf hrj, rootP_getD hwf hni]

theorem halve_WFp {p : List ℕ} (hwf : WFp p) {i : ℕ} (hni : ¬ isRootP p i) :
    WFp (p.set i (p.getD (p.getD i i) (p.getD i i))) := by
  have hi : i < p.length := by
    by_contra hle
    push_neg at hle
    exact hni (isRootP_of_len_le hle)
  constructor
  · intro y hy
    rw [List.length_set] at hy
    rw [List.length_set]
    by_cases hyi : y = i
    · subst hyi
      rw [getD_set_self' hi]
      exact hwf.1 _ (hwf.1 _ hi)
    · rw [getD_set_other hyi]
      exact hwf.1 y hy
  · intro y hy
    unfold Reach
    have hlen : (p.set i (p.getD (p.getD i i) (p.getD i i))).length = p.length :=
      List.length_set p i _
    rw [hlen]
    rw [halve_iter hwf hni p.length y (wf_reach_all hwf y)]
    exact (halve_isRoot hwf hni _).mpr (rootP_isRoot hwf y)

theorem findAux_spec : ∀ (fuel : ℕ) (p : List ℕ) (i : ℕ), WFp p →
    Reach p fuel i →
    (findAux p i fuel).2 = rootP p i ∧ WFp (findAux p i fuel).1 ∧
    (findAux p i fuel).1.length = p.length ∧
    (∀ x, rootP (findAux p i fuel).1 x = rootP p x) ∧
    (∀ x, isRootP (findAux p i fuel).1 x ↔ isRootP p x) := by
  intro fuel
  induction fuel with
  | zero =>
    intro p i hwf hre
    have hr : isRootP p i := hre
    exact ⟨(rootP_of_isRoot hr).symm, hwf, rfl, fun _ => rfl, fun _ => Iff.rfl⟩
  | succ fuel ih =>
    intro p i hwf hre
    have hunf : findAux p i (fuel + 1) =
        if p.getD i i = i then (p, i)
        else findAux (p.set i (p.getD (p.getD i i) (p.getD i i)))
          (p.getD (p.getD i i) (p.getD i i)) fuel := rfl
    by_cases hroot : p.getD i i = i
    · have hfa : findAux p i (fuel + 1) = (p, i) := by
        rw [hunf, if_pos hroot]
      rw [hfa]
      exact ⟨(rootP_of_isRoot hroot).symm, hwf, rfl, fun _ => rfl, fun _ => Iff.rfl⟩
    · have hni : ¬ isRootP p i := hroot
      have hfa : findAux p i (fuel + 1) =
          findAux (p.set i (p.getD (p.getD i i) (p.getD i i)))
            (p.getD (p.getD i i) (p.getD i i)) fuel := by
        rw [hunf, if_neg hroot]
      have hq_wf := halve_WFp hwf hni
      have hq_root := halve_root hwf hni
      have hq_isRoot := halve_isRoot hwf hni
      have hq_len : (p.set i (p.getD (p.getD i i) (p.getD i i))).length = p.length :=
        List.length_set p i _
      have hreachg : Reach p fuel (p.getD (p.getD i i) (p.getD i i)) :=
        reach_two_step hni hre
      have hreachq : Reach (p.set i (p.getD (p.getD i i) (p.getD i i))) fuel
          (p.getD (p.getD i i) (p.getD i i)) := by
        unfold Reach
        rw [halve_iter hwf hni fuel _ hreachg]
        exact (hq_isRoot _).mpr (rootP_isRoot hwf _)
      obtain ⟨h1, h2, h3, h4, h5⟩ := ih _ _ hq_wf hreachq
      rw [hfa]
      refine ⟨?_, h2, h3.trans hq_len, fun x => (h4 x).trans (hq_root x),
        fun x => (h5 x).trans (hq_isRoot x)⟩
      rw [h1, hq_root _, rootP_two_step hwf hni]

theorem DSU.find_spec (d : DSU) (hwf : d.WF) (i : ℕ) :
    (d.find i).2 = rootP d.parent i ∧ ((d.find i).1).WF ∧
    (d.find i).1.items = d.items ∧ (d.find i).1.size = d.size ∧
    (d.find i).1.parent.length = d.parent.length ∧
    (∀ x, rootP (d.find i).1.parent x = rootP d.parent x) ∧
    (∀ x, isRootP (d.find i).1.parent x ↔ isRootP d.parent x) := by
  obtain ⟨hwfp, hlen1, hlen2⟩ := hwf
  have hre : Reach d.parent d.parent.length i := wf_reach_all hwfp i
  obtain ⟨h1, h2, h3, h4, h5⟩ := findAux_spec d.parent.length d.parent i hwfp hre
  refine ⟨h1, ⟨h2, ?_, ?_⟩, rfl, rfl, h3, h4, h5⟩
  · show (findAux d.parent i d.parent.length).1.length = d.items.length
    rw [h3, hlen1]
  · exact hlen2

theorem link_iter {p : List ℕ} (hwf : WFp p) {ra rb : ℕ}
    (hra : isRootP p ra) (hrb : isRootP p rb) (hne : ra ≠ rb)
    (hrbl : rb < p.length) :
    ∀ k x, Reach p k x →
      iterP (p.set rb ra) (k + 1) x =
        (if rootP p x = rb then ra else rootP p x) := by
  have hqd_rb : (p.set rb ra).getD rb rb = ra := getD_set_self' hrbl
  have hqd_ne : ∀ x, x ≠ rb → (p.set rb ra).getD x x = p.getD x x :=
    fun _ h => getD_set_other h
  have hqroot_ra : isRootP (p.set rb ra) ra := by
    unfold isRootP
    rw [hqd_ne ra hne]
    exact hra
  intro k
  induction k with
  | zero =>
    intro x hx
    have hxr : isRootP p x := hx
    show iterP (p.set rb ra) 0 ((p.set rb ra).getD x x) = _
    by_cases hxrb : x = rb
    · rw [hxrb, hqd_rb, rootP_of_isRoot hrb, if_pos rfl]
      rfl
    · rw [hqd_ne x hxrb, hxr, rootP_of_isRoot hxr, if_neg hxrb]
      rfl
  | succ k ih =>
    intro x hx
    by_cases hxr : isRootP p x
    · by_cases hxrb : x = rb
      · show iterP (p.set rb ra) (k + 1) ((p.set rb ra).getD x x) = _
        rw [hxrb, hqd_rb, iterP_of_isRootP hqroot_ra, rootP_of_isRoot hrb,
          if_pos rfl]
      · have hq : isRootP (p.set rb ra) x := by
          unfold isRootP
          rw [hqd_ne x hxrb]
          exact hxr
        rw [iterP_of_isRootP hq, rootP_of_isRoot hxr, if_neg hxrb]
    · have hxrb : x ≠ rb := fun h => hxr (h ▸ hrb)
      show iterP (p.set rb ra) (k + 1) ((p.set rb ra).getD x x) = _
      rw [hqd_ne x hxrb]
      have hre : Reach p k (p.getD x x) := hx
      rw [ih _ hre, rootP_getD hwf hxr]

theorem link_spec {p : List ℕ} (hwf : WFp p) {ra rb : ℕ}
    (hra : isRootP p ra) (hrb : isRootP p rb) (hne : ra ≠ rb)
    (hral : ra < p.length) (hrbl : rb < p.length) :
    WFp (p.set rb ra) ∧
    (∀ x, rootP (p.set rb ra) x = if rootP p x = rb then ra else rootP p x) ∧
    (∀ x, isRootP (p.set rb ra) x ↔ (isRootP p x ∧ x ≠ rb)) := by
  have hqd_rb : (p.set rb ra).getD rb rb = ra := getD_set_self' hrbl
  have hqd_ne : ∀ x, x ≠ rb → (p.set rb ra).getD x x = p.getD x x :=
    fun _ h => getD_set_other h
  have hlen : (p.set rb ra).length = p.length := List.length_set p rb ra
  have hbounds : ∀ y, y < (p.set rb ra).length →
      (p.set rb ra).getD y y < (p.set rb ra).length := by
    intro y hy
    rw [hlen] at hy ⊢
    by_cases hyrb : y = rb
    · rw [hyrb, hqd_rb]
      exact hral
    · rw [hqd_ne y hyrb]
      exact hwf.1 y hy
  have hisroot : ∀ x, isRootP (p.set rb ra) x ↔ (isRootP p x ∧ x ≠ rb) := by
    intro x
    by_cases hxrb : x = rb
    · subst hxrb
      constructor
      · intro h
        unfold isRootP at h
        rw [hqd_rb] at h
        exact absurd h hne
      · intro h
        exact absurd rfl h.2
    · unfold isRootP
      rw [hqd_ne x hxrb]
      exact ⟨fun h => ⟨h, hxrb⟩, fun h => h.1⟩
  have htgt_root : ∀ x,
      isRootP (p.set rb ra) (if rootP p x = rb then ra else rootP p x) := by
    intro x
    by_cases hc : rootP p x = rb
    · rw [if_pos hc]
      exact (hisroot ra).mpr ⟨hra, hne⟩
    · rw [if_neg hc]
      exact (hisroot _).mpr ⟨rootP_isRoot hwf x, hc⟩
  have hiter : ∀ x, iterP (p.set rb ra) (p.set rb ra).length x =
      (if rootP p x = rb then ra else rootP p x) := by
    intro x
    have h1 := link_iter hwf hra hrb hne hrbl p.length x (wf_reach_all hwf x)
    have hreach : Reach (p.set rb ra) (p.length + 1) x := by
      unfold Reach
      rw [h1]
      exact htgt_root x
    have h2 := reach_len_iter hbounds hreach
    rw [h2, h1]
  refine ⟨⟨hbounds, ?_⟩, ?_, hisroot⟩
  · intro y hy
    unfold Reach
    rw [hiter y]
    exact htgt_root y
  · intro x
    unfold rootP
    exact hiter x

theorem DSU.union_false_spec (d : DSU) (hwf : d.WF) (a b : ℕ)
    (hc : rootP d.parent a = rootP d.parent b) :
    (d.union a b).2 = false ∧ (d.union a b).1.items = d.items ∧
    ((d.union a b).1).WF ∧ (d.union a b).1.size = d.size ∧
    (d.union a b).1.parent.length = d.parent.length ∧
    (∀ x, rootP (d.union a b).1.parent x = rootP d.parent x) ∧
    (∀ x, isRootP (d.union a b).1.parent x ↔ isRootP d.parent x) := by
  obtain ⟨f1root, f1wf, f1items, f1size, f1len, f1roots, f1isr⟩ :=
    DSU.find_spec d hwf a
  obtain ⟨f2root, f2wf, f2items, f2size, f2len, f2roots, f2isr⟩ :=
    DSU.find_spec (d.find a).1 f1wf b
  have hcond : (d.find a).2 = ((d.find a).1.find b).2 := by
    rw [f1root, f2root, f1roots b]
    exact hc
  have hunion : d.union a b = (((d.find a).1.find b).1, false) := by
    simp only [DSU.union]
    rw [if_pos hcond]
  rw [hunion]
  refine ⟨rfl, f2items.trans f1items, f2wf, f2size.trans f1size,
    f2len.trans f1len, ?_, ?_⟩
  · intro x
    rw [f2roots x, f1roots x]
  · intro x
    rw [f2isr x, f1isr x]

theorem DSU.union_true_spec (d : DSU) (hwf : d.WF) (a b : ℕ)
    (ha : a < d.items.length) (hb : b < d.items.length)
    (hne : rootP d.parent a ≠ rootP d.parent b) :
    (d.union a b).2 = true ∧ (d.union a b).1.items = d.items ∧
    ((d.union a b).1).WF ∧
    (d.union a b).1.parent.length = d.parent.length ∧
    d.size.getD (unionLoser d a b) 0 ≤ d.size.getD (unionWinner d a b) 0 ∧
    (d.union a b).1.parent.getD (unionLoser d a b) (unionLoser d a b) =
      unionWinner d a b ∧
    (d.union a b).1.size = d.size.set (unionWinner d a b)
      (d.size.getD (unionWinner d a b) 0 + d.size.getD (unionLoser d a b) 0) ∧
    (∀ x, rootP (d.union a b).1.parent x =
      (if rootP d.parent x = unionLoser d a b then unionWinner d a b
       else rootP d.parent x)) ∧
    (∀ x, isRootP (d.union a b).1.parent x ↔
      (isRootP d.parent x ∧ x ≠ unionLoser d a b)) := by
  obtain ⟨f1root, f1wf, f1items, f1size, f1len, f1roots, f1isr⟩ :=
    DSU.find_spec d hwf a
  obtain ⟨f2root, f2wf, f2items, f2size, f2len, f2roots, f2isr⟩ :=
    DSU.find_spec (d.find a).1 f1wf b
  have hpa : d.parent.length = d.items.length := hwf.2.1
  have hra : ((d.find a).1.find b).2 = rootP d.parent b := by
    rw [f2root, f1roots b]
  have hcond : ¬ ((d.find a).2 = ((d.find a).1.find b).2) := by
    rw [f1root, hra]
    exact hne
  have hsz2 : ((d.find a).1.find b).1.size = d.size := f2size.trans f1size
  have hunion : d.union a b =
      (if ((d.find a).1.find b).1.size.getD (d.find a).2 0 <
          ((d.find a).1.find b).1.size.getD (((d.find a).1.find b).2) 0 then
        ({ ((d.find a).1.find b).1 with
            parent := ((d.find a).1.find b).1.parent.set (d.find a).2
              (((d.find a).1.find b).2)
            size := ((d.find a).1.find b).1.size.set (((d.find a).1.find b).2)
              (((d.find a).1.find b).1.size.getD (((d.find a).1.find b).2) 0 +
                ((d.find a).1.find b).1.size.getD ((d.find a).2) 0) }, true)
      else
        ({ ((d.find a).1.find b).1 with
            parent := ((d.find a).1.find b).1.parent.set (((d.find a).1.find b).2)
              ((d.find a).2)
            size := ((d.find a).1.find b).1.size.set ((d.find a).2)
              (((d.find a).1.find b).1.size.getD ((d.find a).2) 0 +
                ((d.find a).1.find b).1.size.getD (((d.find a).1.find b).2) 0) },
          true)) := by
    simp only [DSU.union]
    rw [if_neg hcond]
    by_cases hlt : ((d.find a).1.find b).1.size.getD (d.find a).2 0 <
        ((d.find a).1.find b).1.size.getD (((d.find a).1.find b).2) 0
    · rw [if_pos hlt, if_pos hlt, if_pos hlt]
    · rw [if_neg hlt, if_neg hlt, if_neg hlt]
  have hlen2 : ((d.find a).1.find b).1.parent.length = d.parent.length :=
    f2len.trans f1len
  have hroots2 : ∀ x, rootP ((d.find a).1.find b).1.parent x = rootP d.parent x :=
    fun x => (f2roots x).trans (f1roots x)
  have hisr2 : ∀ x, isRootP ((d.find a).1.find b).1.parent x ↔ isRootP d.parent x :=
    fun x => (f2isr x).trans (f1isr x)
  have hitems2 : ((d.find a).1.find b).1.items = d.items := f2items.trans f1items
  have hRAroot : isRootP ((d.find a).1.find b).1.parent (rootP d.parent a) :=
    (hisr2 _).mpr (rootP_isRoot hwf.1 a)
  have hRBroot : isRootP ((d.find a).1.find b).1.parent (rootP d.parent b) :=
    (hisr2 _).mpr (rootP_isRoot hwf.1 b)
  have hRAlt : rootP d.parent a < ((d.find a).1.find b).1.parent.length := by
    rw [hlen2]
    exact rootP_lt hwf.1 (by rw [hpa]; exact ha)
  have hRBlt : rootP d.parent b < ((d.find a).1.find b).1.parent.length := by
    rw [hlen2]
    exact rootP_lt hwf.1 (by rw [hpa]; exact hb)
  rw [hunion, f1root, hra, hsz2]
  by_cases hlt : d.size.getD (rootP d.parent a) 0 < d.size.getD (rootP d.parent b) 0
  · -- winner is root of b, loser is root of a
    have hwin : unionWinner d a b = rootP d.parent b := by
      unfold unionWinner
      rw [if_pos hlt]
    have hlose : unionLoser d a b = rootP d.parent a := by
      unfold unionLoser
      rw [if_pos hlt]
    rw [if_pos hlt]
    obtain ⟨lwf, lroots, lisr⟩ := link_spec f2wf.1 hRBroot hRAroot
      (fun h => hne h.symm) hRBlt hRAlt
    refine ⟨rfl, hitems2, ⟨lwf, ?_, ?_⟩, ?_, ?_, ?_, ?_, ?_, ?_⟩
    · show (((d.find a).1.find b).1.parent.set (rootP d.parent a)
        (rootP d.parent b)).length = d.items.length
      rw [List.length_set, hlen2, hpa]
    · show (d.size.set (rootP d.parent b) _).length = d.items.length
      rw [List.length_set]
      rw [hitems2] at f2items
      exact hwf.2.2
    · show (((d.find a).1.find b).1.parent.set _ _).length = d.parent.length
      rw [List.length_set, hlen2]
    · rw [hwin, hlose]
      omega
    · rw [hwin, hlose]
      exact getD_set_self' hRAlt
    · rw [hwin, hlose]
    · intro x
      rw [hwin, hlose]
      show rootP (((d.find a).1.find b).1.parent.set (rootP d.parent a)
        (rootP d.parent b)) x = _
      rw [lroots x, hroots2 x]
    · intro x
      rw [hlose]
      show isRootP (((d.find a).1.find b).1.parent.set (rootP d.parent a)
        (rootP d.parent b)) x ↔ _
      rw [lisr x, hisr2 x]
  · -- winner is root of a, loser is root of b
    have hwin : unionWinner d a b = rootP d.parent a := by
      unfold unionWinner
      rw [if_neg hlt]
    have hlose : unionLoser d a b = rootP d.parent b := by
      unfold unionLoser
      rw [if_neg hlt]
    rw [if_neg hlt]
    obtain ⟨lwf, lroots, lisr⟩ := link_spec f2wf.1 hRAroot hRBroot hne hRAlt hRBlt
    refine ⟨rfl, hitems2, ⟨lwf, ?_, ?_⟩, ?_, ?_, ?_, ?_, ?_, ?_⟩
    · show (((d.find a).1.find b).1.parent.set (rootP d.parent b)
        (rootP d.parent a)).length = d.items.length
      rw [List.length_set, hlen2, hpa]
    · show (d.size.set (rootP d.parent a) _).length = d.items.length
      rw [List.length_set]
      exact hwf.2.2
    · show (((d.find a).1.find b).1.parent.set _ _).length = d.parent.length
      rw [List.length_set, hlen2]
    · rw [hwin, hlose]
      omega
    · rw [hwin, hlose]
      exact getD_set_self' hRBlt
    · rw [hwin, hlose]
    · intro x
      rw [hwin, hlose]
      show rootP (((d.find a).1.find b).1.parent.set (rootP d.parent b)
        (rootP d.parent a)) x = _
      rw [lroots x, hroots2 x]
    · intro x
      rw [hlose]
      show isRootP (((d.find a).1.find b).1.parent.set (rootP d.parent b)
        (rootP d.parent a)) x ↔ _
      rw [lisr x, hisr2 x]

theorem getD_range (n i : ℕ) : (List.range n).getD i i = i := by
  by_cases h : i < n
  · have hl : i < (List.range n).length := by simpa using h
    rw [List.getD_eq_getElem _ _ hl]
    exact List.getElem_range i hl
  · rw [List.getD_eq_default]
    simpa using h

theorem init_WF (items : List String) : (DSU.init items).WF := by
  have hp : (DSU.init items).parent = List.range items.length := rfl
  refine ⟨⟨?_, ?_⟩, ?_, ?_⟩
  · intro i hi
    rw [hp] at hi ⊢
    rw [getD_range]
    simpa using hi
  · intro i hi
    unfold Reach
    rw [hp]
    rw [iterP_of_isRootP (getD_range _ i)]
    exact getD_range _ i
  · rw [hp]
    simp [DSU.init]
  · simp [DSU.init]

theorem init_rootP (items : List String) (i : ℕ) :
    rootP (DSU.init items).parent i = i :=
  rootP_of_isRoot (getD_range _ i)

theorem reachable_WF {d : DSU} (h : d.Reachable) : d.WF := by
  induction h with
  | init items => exact init_WF items
  | unionStep d a b hr ha hb ih =>
    by_cases hc : rootP d.parent a = rootP d.parent b
    · exact (DSU.union_false_spec d ih a b hc).2.2.1
    · exact (DSU.union_true_spec d ih a b ha hb hc).2.2.1

theorem rootCount_congr {p q : List ℕ} (hlen : q.length = p.length)
    (h : ∀ x, isRootP q x ↔ isRootP p x) : rootCount q = rootCount p := by
  unfold rootCount
  rw [hlen]
  refine List.countP_congr ?_
  intro x _
  simp only [decide_eq_true_eq]
  exact h x

theorem countP_remove_one {l : List ℕ} {pred : ℕ → Bool} {r : ℕ}
    (hmem : r ∈ l) (hnd : l.Nodup) (hr : pred r = true) :
    l.countP (fun i => pred i && !(i == r)) + 1 = l.countP pred := by
  induction l with
  | nil => cases hmem
  | cons x xs ih =>
    rw [List.countP_cons, List.countP_cons]
    by_cases hxr : x = r
    · subst hxr
      have hnotin : x ∉ xs := (List.nodup_cons.mp hnd).1
      have hcong : xs.countP (fun i => pred i && !(i == x)) = xs.countP pred := by
        refine List.countP_congr ?_
        intro y hy
        have hyx : y ≠ x := fun h => hnotin (h ▸ hy)
        simp [hyx]
      simp only [hcong, hr]
      simp
    · have hmem' : r ∈ xs := by
        rcases List.mem_cons.mp hmem with h | h
        · exact absurd h.symm hxr
        · exact h
      have hnd' := (List.nodup_cons.mp hnd).2
      have hih := ih hmem' hnd'
      have hx : (pred x && !(x == r)) = pred x := by
        simp [hxr]
      rw [hx]
      omega

theorem rootCount_link {p q : List ℕ} (hlen : q.length = p.length)
    {lose : ℕ} (hlu : lose < p.length) (hlr : isRootP p lose)
    (h : ∀ x, isRootP q x ↔ (isRootP p x ∧ x ≠ lose)) :
    rootCount q + 1 = rootCount p := by
  unfold rootCount
  rw [hlen]
  have hcong : (List.range p.length).countP (fun i => decide (isRootP q i)) =
      (List.range p.length).countP
        (fun i => decide (isRootP p i) && !(i == lose)) := by
    refine List.countP_congr ?_
    intro x _
    simp only [decide_eq_true_eq, Bool.and_eq_true, Bool.not_eq_true',
      beq_eq_false_iff_ne]
    exact h x
  rw [hcong]
  exact countP_remove_one (by simpa using hlu) (List.nodup_range _)
    (by simpa using hlr)

theorem setCount_congr {p q : List ℕ} (hlen : q.length = p.length)
    (hroots : ∀ x, rootP q x = rootP p x) (r : ℕ) :
    setCount q r = setCount p r := by
  unfold setCount
  rw [hlen]
  refine List.countP_congr ?_
  intro x _
  simp only [decide_eq_true_eq]
  rw [hroots x]

theorem countP_or_disjoint {l : List ℕ} {A B : ℕ → Bool}
    (h : ∀ i ∈ l, ¬(A i = true ∧ B i = true)) :
    l.countP (fun i => A i || B i) = l.countP A + l.countP B := by
  induction l with
  | nil => rfl
  | cons x xs ih =>
    rw [List.countP_cons, List.countP_cons, List.countP_cons]
    have hx := h x (List.mem_cons_self x xs)
    have hih := ih fun i hi => h i (List.mem_cons_of_mem x hi)
    rcases hA : A x with hf | ht <;> rcases hB : B x with hf2 | ht2 <;>
      simp_all <;> omega

theorem sizeOK_init (items : List String) : SizeOK (DSU.init items) := by
  intro r hrl hr
  have hp : (DSU.init items).parent = List.range items.length := rfl
  have hs : (DSU.init items).size = List.replicate items.length 1 := rfl
  rw [hp] at hrl
  simp only [List.length_range] at hrl
  have hget : (List.replicate items.length (1 : ℕ)).getD r 0 = 1 := by
    rw [List.getD_eq_getElem _ _ (by simpa using hrl)]
    exact List.getElem_replicate _ _
  rw [hs, hget]
  unfold setCount
  rw [hp]
  simp only [List.length_range]
  have hfun : (fun x => decide (rootP (List.range items.length) x = r)) =
      (fun x => x == r) := by
    funext x
    have hx : rootP (List.range items.length) x = x :=
      rootP_of_isRoot (getD_range _ _)
    rw [hx]
    by_cases h : x = r <;> simp [h]
  rw [hfun]
  exact (List.count_eq_one_of_mem (List.nodup_range _) (by simpa using hrl)).symm

theorem sizeOK_congr {d d' : DSU} (hsz : d'.size = d.size)
    (hlen : d'.parent.length = d.parent.length)
    (hroots : ∀ x, rootP d'.parent x = rootP d.parent x)
    (hisr : ∀ x, isRootP d'.parent x ↔ isRootP d.parent x)
    (h : SizeOK d) : SizeOK d' := by
  intro r hrl hr
  rw [hsz, setCount_congr hlen hroots r]
  rw [hlen] at hrl
  exact h r hrl ((hisr r).mp hr)

theorem setCount_link {p q : List ℕ} (hwf : WFp p)
    (hlen : q.length = p.length) {win lose : ℕ} (hwl : win ≠ lose)
    (hroots : ∀ x, rootP q x =
      (if rootP p x = lose then win else rootP p x)) :
    (setCount q win = setCount p win + setCount p lose ∧
      ∀ r, r ≠ win → r ≠ lose → setCount q r = setCount p r) := by
  constructor
  · unfold setCount
    rw [hlen]
    have hcong : (List.range p.length).countP (fun i => decide (rootP q i = win)) =
        (List.range p.length).countP
          (fun i => decide (rootP p i = win) || decide (rootP p i = lose)) := by
      refine List.countP_congr ?_
      intro x _
      rw [hroots x]
      by_cases hc : rootP p x = lose
      · simp [hc, if_pos]
      · simp [hc]
    rw [hcong]
    refine countP_or_disjoint ?_
    intro i _
    simp only [decide_eq_true_eq]
    intro hcontra
    rw [hcontra.1] at hcontra
    exact hwl (hcontra.2 ▸ rfl)
  · intro r hrw hrl
    unfold setCount
    rw [hlen]
    refine List.countP_congr ?_
    intro x _
    simp only [decide_eq_true_eq]
    rw [hroots x]
    by_cases hc : rootP p x = lose
    · rw [if_pos hc, hc]
      constructor
      · intro h
        exact absurd h.symm hrw
      · intro h
        exact absurd h.symm hrl
    · rw [if_neg hc]

theorem getD_set_val {l : List ℕ} {i v j : ℕ} (hi : i < l.length) :
    (l.set i v).getD j 0 = if j = i then v else l.getD j 0 := by
  by_cases hj : j = i
  · subst hj
    rw [if_pos rfl]
    have hl : j < (l.set j v).length := by
      rw [List.length_set]
      exact hi
    rw [List.getD_eq_getElem _ _ hl, List.getElem_set_self]
  · rw [if_neg hj]
    by_cases hjl : j < l.length
    · have hl : j < (l.set i v).length := by
        rw [List.length_set]
        exact hjl
      rw [List.getD_eq_getElem _ _ hl, List.getD_eq_getElem _ _ hjl]
      exact List.getElem_set_ne (fun h => hj h.symm) _
    · push_neg at hjl
      rw [List.getD_eq_default _ _ hjl, List.getD_eq_default]
      rw [List.length_set]
      exact hjl

theorem sizeOK_union {d : DSU} (hwf : d.WF) (hsz : SizeOK d) (a b : ℕ)
    (ha : a < d.items.length) (hb : b < d.items.length) :
    SizeOK (d.union a b).1 := by
  by_cases hc : rootP d.parent a = rootP d.parent b
  · obtain ⟨_, _, hwf', hsize, hlen, hroots, hisr⟩ :=
      DSU.union_false_spec d hwf a b hc
    exact sizeOK_congr hsize hlen hroots hisr hsz
  · obtain ⟨_, hitems, hwf', hlen, hord, hpar, hsize, hroots, hisr⟩ :=
      DSU.union_true_spec d hwf a b ha hb hc
    intro r hrl hr
    have hwl : unionWinner d a b ≠ unionLoser d a b := by
      unfold unionWinner unionLoser
      by_cases hlt : d.size.getD (rootP d.parent a) 0 <
          d.size.getD (rootP d.parent b) 0
      · rw [if_pos hlt, if_pos hlt]
        exact fun h => hc h.symm
      · rw [if_neg hlt, if_neg hlt]
        exact hc
    obtain ⟨hcw, hcother⟩ := setCount_link hwf.1 hlen hwl hroots
    have hrlose : r ≠ unionLoser d a b := ((hisr r).mp hr).2
    have hwin_lt : unionWinner d a b < d.size.length := by
      have : unionWinner d a b < d.parent.length := by
        unfold unionWinner
        by_cases hlt : d.size.getD (rootP d.parent a) 0 <
            d.size.getD (rootP d.parent b) 0
        · rw [if_pos hlt]
          exact rootP_lt hwf.1 (by rw [hwf.2.1]; exact hb)
        · rw [if_neg hlt]
          exact rootP_lt hwf.1 (by rw [hwf.2.1]; exact ha)
      rw [hwf.2.2, ← hwf.2.1]
      exact this
    rw [hsize, getD_set_val hwin_lt]
    by_cases hrw : r = unionWinner d a b
    · rw [if_pos hrw, hrw, hcw]
      have hwroot : isRootP d.parent (unionWinner d a b) := by
        unfold unionWinner
        by_cases hlt : d.size.getD (rootP d.parent a) 0 <
            d.size.getD (rootP d.parent b) 0
        · rw [if_pos hlt]
          exact rootP_isRoot hwf.1 b
        · rw [if_neg hlt]
          exact rootP_isRoot hwf.1 a
      have hlroot : isRootP d.parent (unionLoser d a b) := by
        unfold unionLoser
        by_cases hlt : d.size.getD (rootP d.parent a) 0 <
            d.size.getD (rootP d.parent b) 0
        · rw [if_pos hlt]
          exact rootP_isRoot hwf.1 a
        · rw [if_neg hlt]
          exact rootP_isRoot hwf.1 b
      have hlose_lt : unionLoser d a b < d.parent.length := by
        unfold unionLoser
        by_cases hlt : d.size.getD (rootP d.parent a) 0 <
            d.size.getD (rootP d.parent b) 0
        · rw [if_pos hlt]
          exact rootP_lt hwf.1 (by rw [hwf.2.1]; exact ha)
        · rw [if_neg hlt]
          exact rootP_lt hwf.1 (by rw [hwf.2.1]; exact hb)
      have hwin_lt' : unionWinner d a b < d.parent.length := by
        rw [hwf.2.1]
        rw [hwf.2.2] at hwin_lt
        exact hwin_lt
      rw [hsz _ hwin_lt' hwroot, hsz _ hlose_lt hlroot]
    · rw [if_neg hrw, hcother r hrw hrlose]
      have hrl' : r < d.parent.length := by
        rw [← hlen]
        exact hrl
      exact hsz r hrl' ((hisr r).mp hr).1

theorem reachable_good {d : DSU} (h : d.Reachable) : d.WF ∧ SizeOK d := by
  induction h with
  | init items => exact ⟨init_WF items, sizeOK_init items⟩
  | unionStep d a b hr ha hb ih =>
    refine ⟨reachable_WF (DSU.Reachable.unionStep d a b hr ha hb), ?_⟩
    exact sizeOK_union ih.1 ih.2 a b ha hb

theorem snapshotAux_spec : ∀ (l : List ℕ) (d : DSU) (acc : List ℕ), d.WF →
    (snapshotAux d l acc).2 = acc ++ l.map (rootP d.parent) ∧
    ((snapshotAux d l acc).1).WF ∧
    (snapshotAux d l acc).1.items = d.items ∧
    (snapshotAux d l acc).1.size = d.size ∧
    (snapshotAux d l acc).1.parent.length = d.parent.length ∧
    (∀ x, rootP (snapshotAux d l acc).1.parent x = rootP d.parent x) ∧
    (∀ x, isRootP (snapshotAux d l acc).1.parent x ↔ isRootP d.parent x) := by
  intro l
  induction l with
  | nil =>
    intro d acc hwf
    exact ⟨by simp [snapshotAux], hwf, rfl, rfl, rfl, fun _ => rfl,
      fun _ => Iff.rfl⟩
  | cons i rest ih =>
    intro d acc hwf
    obtain ⟨f1, f2, f3, f4, f5, f6, f7⟩ := DSU.find_spec d hwf i
    have hunf : snapshotAux d (i :: rest) acc =
        snapshotAux (d.find i).1 rest (acc ++ [(d.find i).2]) := rfl
    rw [hunf]
    obtain ⟨g1, g2, g3, g4, g5, g6, g7⟩ := ih (d.find i).1 (acc ++ [(d.find i).2]) f2
    refine ⟨?_, g2, g3.trans f3, g4.trans f4, g5.trans f5,
      fun x => (g6 x).trans (f6 x), fun x => (g7 x).trans (f7 x)⟩
    rw [g1, f1]
    have hmap : rest.map (rootP (d.find i).1.parent) = rest.map (rootP d.parent) :=
      List.map_congr_left fun x _ => f6 x
    rw [hmap]
    simp

theorem DSU.snapshotM_spec (d : DSU) (hwf : d.WF) :
    d.snapshotM.2 = (List.range d.items.length).map (rootP d.parent) ∧
    (d.snapshotM.1).WF ∧ d.snapshotM.1.items = d.items ∧
    d.snapshotM.1.size = d.size ∧
    d.snapshotM.1.parent.length = d.parent.length ∧
    (∀ x, rootP d.snapshotM.1.parent x = rootP d.parent x) ∧
    (∀ x, isRootP d.snapshotM.1.parent x ↔ isRootP d.parent x) := by
  obtain ⟨h1, h2, h3, h4, h5, h6, h7⟩ :=
    snapshotAux_spec (List.range d.items.length) d [] hwf
  exact ⟨by rw [show d.snapshotM = snapshotAux d (List.range d.items.length) [] from rfl, h1]; simp,
    h2, h3, h4, h5, h6, h7⟩

theorem groupsAux_spec : ∀ (l : List ℕ) (d : DSU) (acc : List (ℕ × List ℕ)),
    d.WF →
    (groupsAux d l acc).2 =
      l.foldl (fun a i => upsert a (rootP d.parent i) i) acc ∧
    ((groupsAux d l acc).1).WF ∧
    (groupsAux d l acc).1.items = d.items ∧
    (groupsAux d l acc).1.size = d.size ∧
    (∀ x, rootP (groupsAux d l acc).1.parent x = rootP d.parent x) := by
  intro l
  induction l with
  | nil =>
    intro d acc hwf
    exact ⟨rfl, hwf, rfl, rfl, fun _ => rfl⟩
  | cons i rest ih =>
    intro d acc hwf
    obtain ⟨f1, f2, f3, f4, f5, f6, f7⟩ := DSU.find_spec d hwf i
    have hunf : groupsAux d (i :: rest) acc =
        groupsAux (d.find i).1 rest (upsert acc (d.find i).2 i) := rfl
    rw [hunf]
    obtain ⟨g1, g2, g3, g4, g5⟩ := ih (d.find i).1 (upsert acc (d.find i).2 i) f2
    refine ⟨?_, g2, g3.trans f3, g4.trans f4, fun x => (g5 x).trans (f6 x)⟩
    rw [g1, f1]
    have hfun : (fun a j => upsert a (rootP (d.find i).1.parent j) j) =
        (fun a j => upsert a (rootP d.parent j) j) := by
      funext a j
      rw [f6 j]
    rw [hfun]
    rfl

theorem DSU.groups_spec (d : DSU) (hwf : d.WF) :
    d.groups = groupsSpec (rootP d.parent) (List.range d.items.length) := by
  obtain ⟨h1, _, _, _, _⟩ := groupsAux_spec (List.range d.items.length) d [] hwf
  exact h1

theorem snapArr_facts (d : DSU) (hwf : d.WF) :
    WFp ((List.range d.items.length).map (rootP d.parent)) ∧
    ((List.range d.items.length).map (rootP d.parent)).length = d.items.length ∧
    (∀ x, rootP ((List.range d.items.length).map (rootP d.parent)) x =
      rootP d.parent x) := by
  have hplen : d.parent.length = d.items.length := hwf.2.1
  have hlen : ((List.range d.items.length).map (rootP d.parent)).length =
      d.items.length := by
    simp
  have hget : ∀ j, j < d.items.length →
      ((List.range d.items.length).map (rootP d.parent)).getD j j =
        rootP d.parent j := by
    intro j hj
    have hl : j < ((List.range d.items.length).map (rootP d.parent)).length := by
      rw [hlen]
      exact hj
    rw [List.getD_eq_getElem _ _ hl, List.getElem_map, List.getElem_range]
  have hgetout : ∀ j, d.items.length ≤ j →
      ((List.range d.items.length).map (rootP d.parent)).getD j j = j := by
    intro j hj
    rw [List.getD_eq_default]
    rw [hlen]
    exact hj
  have hrootlt : ∀ j, j < d.items.length → rootP d.parent j < d.items.length := by
    intro j hj
    rw [← hplen]
    exact rootP_lt hwf.1 (by rw [hplen]; exact hj)
  have hrootfix : ∀ j, j < d.items.length →
      ((List.range d.items.length).map (rootP d.parent)).getD
        (rootP d.parent j) (rootP d.parent j) = rootP d.parent j := by
    intro j hj
    rw [hget _ (hrootlt j hj)]
    exact rootP_idem hwf.1 j
  have hiter : ∀ x, iterP ((List.range d.items.length).map (rootP d.parent))
      ((List.range d.items.length).map (rootP d.parent)).length x =
      rootP d.parent x := by
    intro x
    by_cases hx : x < d.items.length
    · obtain ⟨m, hm⟩ : ∃ m, ((List.range d.items.length).map (rootP d.parent)).length = m + 1 := by
        rw [hlen]
        exact ⟨d.items.length - 1, by omega⟩
      rw [hm]
      show iterP _ m (((List.range d.items.length).map (rootP d.parent)).getD x x) = _
      rw [hget x hx]
      exact iterP_of_isRootP (hrootfix x hx) m
    · push_neg at hx
      rw [iterP_of_isRootP (hgetout x hx)]
      have : d.parent.length ≤ x := by
        rw [hplen]
        exact hx
      rw [rootP_of_isRoot (isRootP_of_len_le this)]
  refine ⟨⟨?_, ?_⟩, hlen, ?_⟩
  · intro j hj
    rw [hlen] at hj
    rw [hget j hj, hlen]
    exact hrootlt j hj
  · intro j hj
    unfold Reach
    rw [hiter j]
    rw [hlen] at hj
    unfold isRootP
    exact hrootfix j hj
  · intro x
    unfold rootP
    exact hiter x

theorem foldl_size_length : ∀ (l : List ℕ) (sz : List ℕ) (parents : List ℕ),
    (l.foldl (fun sz i =>
      let pi := parents.getD i i
      if pi ≠ i then sz.set pi (sz.getD pi 0 + 1) else sz) sz).length =
      sz.length := by
  intro l
  induction l with
  | nil => intro sz parents; rfl
  | cons x xs ih =>
    intro sz parents
    show (List.foldl
        (fun sz i =>
          let pi := parents.getD i i
          if pi ≠ i then sz.set pi (sz.getD pi 0 + 1) else sz)
        (if parents.getD x x ≠ x then
          sz.set (parents.getD x x) (sz.getD (parents.getD x x) 0 + 1)
        else sz) xs).length = sz.length
    by_cases hc : parents.getD x x ≠ x
    · rw [if_pos hc, ih, List.length_set]
    · rw [if_neg hc]
      exact ih sz parents

theorem DSU.restore_spec (d : DSU) (hwf : d.WF) :
    ((d.restore ((List.range d.items.length).map (rootP d.parent)))).WF ∧
    (d.restore ((List.range d.items.length).map (rootP d.parent))).items =
      d.items ∧
    (∀ x, rootP (d.restore
      ((List.range d.items.length).map (rootP d.parent))).parent x =
      rootP d.parent x) := by
  obtain ⟨hwfq, hlen, hroots⟩ := snapArr_facts d hwf
  refine ⟨⟨hwfq, hlen, ?_⟩, rfl, hroots⟩
  have hsz : (d.restore ((List.range d.items.length).map (rootP d.parent))).size =
      (List.range d.items.length).foldl
        (fun sz i =>
          let pi := ((List.range d.items.length).map (rootP d.parent)).getD i i
          if pi ≠ i then sz.set pi (sz.getD pi 0 + 1) else sz)
        (List.replicate d.items.length 1) := rfl
  rw [hsz, foldl_size_length, List.length_replicate]
  rfl

/-! ## Claim C2: the union contract -/

/-- C2: on every DSU state reached by a sequence of unions, and elements
`a`, `b` of the universe, `union(a, b)` returns `False` exactly when `a` and
`b` already share a representative, and then leaves the partition
(`groups()`) unchanged; otherwise it returns `True`, links the smaller set's
root (`unionLoser`, measured by actual member count `setCount`) below the
larger set's root (`unionWinner`), stores the sum of both set sizes at the
surviving root, after which `find(a) == find(b)` and an immediately repeated
`union(a, b)` returns `False`. -/
theorem c2_union_contract (d : DSU) (hreach : d.Reachable) (a b : ℕ)
    (ha : a < d.items.length) (hb : b < d.items.length) :
    ((d.union a b).2 = false ↔ rootP d.parent a = rootP d.parent b) ∧
    ((d.union a b).2 = false → (d.union a b).1.groups = d.groups) ∧
    ((d.union a b).2 = true →
      setCount d.parent (unionLoser d a b) ≤
        setCount d.parent (unionWinner d a b) ∧
      (d.union a b).1.parent.getD (unionLoser d a b) (unionLoser d a b) =
        unionWinner d a b ∧
      (d.union a b).1.size.getD (unionWinner d a b) 0 =
        setCount d.parent (unionWinner d a b) +
          setCount d.parent (unionLoser d a b) ∧
      (((d.union a b).1.find a).2 = (((d.union a b).1.find a).1.find b).2) ∧
      ((d.union a b).1.union a b).2 = false) := by
  obtain ⟨hwf, hsok⟩ := reachable_good hreach
  have hplen : d.parent.length = d.items.length := hwf.2.1
  by_cases hc : rootP d.parent a = rootP d.parent b
  · obtain ⟨hfalse, hitems, hwf', hsize, hlen, hroots, hisr⟩ :=
      DSU.union_false_spec d hwf a b hc
    refine ⟨⟨fun _ => hc, fun _ => hfalse⟩, fun _ => ?_, fun htrue => ?_⟩
    · rw [DSU.groups_spec _ hwf', DSU.groups_spec _ hwf, hitems]
      have hfun : rootP (d.union a b).1.parent = rootP d.parent := funext hroots
      rw [hfun]
    · rw [htrue] at hfalse
      cases hfalse
  · obtain ⟨htrue, hitems, hwf', hlen, hord, hpar, hsize, hroots, hisr⟩ :=
      DSU.union_true_spec d hwf a b ha hb hc
    have hraroot : isRootP d.parent (rootP d.parent a) := rootP_isRoot hwf.1 a
    have hrbroot : isRootP d.parent (rootP d.parent b) := rootP_isRoot hwf.1 b
    have hralt : rootP d.parent a < d.parent.length :=
      rootP_lt hwf.1 (by rw [hplen]; exact ha)
    have hrblt : rootP d.parent b < d.parent.length :=
      rootP_lt hwf.1 (by rw [hplen]; exact hb)
    have hwin_cases : (unionWinner d a b = rootP d.parent a ∧
        unionLoser d a b = rootP d.parent b) ∨
        (unionWinner d a b = rootP d.parent b ∧
          unionLoser d a b = rootP d.parent a) := by
      unfold unionWinner unionLoser
      by_cases hlt : d.size.getD (rootP d.parent a) 0 <
          d.size.getD (rootP d.parent b) 0
      · rw [if_pos hlt, if_pos hlt]
        exact Or.inr ⟨rfl, rfl⟩
      · rw [if_neg hlt, if_neg hlt]
        exact Or.inl ⟨rfl, rfl⟩
    have hwroot : isRootP d.parent (unionWinner d a b) := by
      rcases hwin_cases with ⟨hw, _⟩ | ⟨hw, _⟩ <;> rw [hw]
      · exact hraroot
      · exact hrbroot
    have hlroot : isRootP d.parent (unionLoser d a b) := by
      rcases hwin_cases with ⟨_, hl⟩ | ⟨_, hl⟩ <;> rw [hl]
      · exact hrbroot
      · exact hraroot
    have hwlt : unionWinner d a b < d.parent.length := by
      rcases hwin_cases with ⟨hw, _⟩ | ⟨hw, _⟩ <;> rw [hw]
      · exact hralt
      · exact hrblt
    have hllt : unionLoser d a b < d.parent.length := by
      rcases hwin_cases with ⟨_, hl⟩ | ⟨_, hl⟩ <;> rw [hl]
      · exact hrblt
      · exact hralt
    have hszw : d.size.getD (unionWinner d a b) 0 =
        setCount d.parent (unionWinner d a b) := hsok _ hwlt hwroot
    have hszl : d.size.getD (unionLoser d a b) 0 =
        setCount d.parent (unionLoser d a b) := hsok _ hllt hlroot
    have hwl : unionWinner d a b ≠ unionLoser d a b := by
      rcases hwin_cases with ⟨hw, hl⟩ | ⟨hw, hl⟩ <;> rw [hw, hl]
      · exact hc
      · exact fun h => hc h.symm
    have hru : rootP (d.union a b).1.parent a = unionWinner d a b ∧
        rootP (d.union a b).1.parent b = unionWinner d a b := by
      rcases hwin_cases with ⟨hw, hl⟩ | ⟨hw, hl⟩
      · constructor
        · rw [hroots a, hl, if_neg hc, hw]
        · rw [hroots b, hl, if_pos rfl]
      · constructor
        · rw [hroots a, hl, if_pos rfl]
        · rw [hroots b, hl, if_neg (fun h => hc h.symm), hw]
    constructor
    · constructor
      · intro hfa
        rw [htrue] at hfa
        cases hfa
      · intro h
        exact absurd h hc
    constructor
    · intro hfa
      rw [htrue] at hfa
      cases hfa
    · intro _
      refine ⟨?_, hpar, ?_, ?_, ?_⟩
      · rw [← hszw, ← hszl]
        exact hord
      · rw [hsize, getD_set_val (by rw [hwf.2.2, ← hplen]; exact hwlt),
          if_pos rfl, hszw, hszl]
      · obtain ⟨u1, _, _, _, _, u6, _⟩ := DSU.find_spec (d.union a b).1 hwf' a
        obtain ⟨v1, _, _, _, _, v6, _⟩ :=
          DSU.find_spec ((d.union a b).1.find a).1
            (DSU.find_spec (d.union a b).1 hwf' a).2.1 b
        rw [u1, v1, u6 b, hru.1, hru.2]
      · have heq : rootP (d.union a b).1.parent a =
            rootP (d.union a b).1.parent b := by
          rw [hru.1, hru.2]
        exact (DSU.union_false_spec (d.union a b).1 hwf' a b heq).1

/-- Witness for C2 at a concrete reachable state: on `DSU(["x","y","z"])`
after `union(0,1)`, a fresh `union(0,2)` returns `True` (its roots differ),
and a repeated `union(0,2)` afterwards returns `False`. -/
theorem c2_union_contract_witness :
    ((((DSU.init ["x", "y", "z"]).union 0 1).1.union 0 2).2 = true ∧
      (((((DSU.init ["x", "y", "z"]).union 0 1).1.union 0 2).1.union 0 2).2 =
        false)) := by
  have hreach : (((DSU.init ["x", "y", "z"]).union 0 1).1).Reachable :=
    DSU.Reachable.unionStep _ 0 1 (DSU.Reachable.init _) (by decide) (by decide)
  have h := c2_union_contract (((DSU.init ["x", "y", "z"]).union 0 1).1)
    hreach 0 2 (by decide) (by decide)
  have hne : ¬ (rootP (((DSU.init ["x", "y", "z"]).union 0 1).1).parent 0 =
      rootP (((DSU.init ["x", "y", "z"]).union 0 1).1).parent 2) := by decide
  have htrue : ((((DSU.init ["x", "y", "z"]).union 0 1).1).union 0 2).2 = true := by
    rcases hb : ((((DSU.init ["x", "y", "z"]).union 0 1).1).union 0 2).2 with _ | _
    · exact absurd (h.1.mp hb) hne
    · rfl
  exact ⟨htrue, (h.2.2 htrue).2.2.2.2⟩

/-! ## Claim C3: snapshot/restore round trip -/

/-- C3: on every DSU state reached by a sequence of unions, `snapshot()`
returns the parent array fully resolved to final representatives (entry `i` is
the representative of `i`, itself a fixpoint), and `restore()` of that array
reproduces a state whose `groups()` output equals the original's. -/
theorem c3_snapshot_restore (d : DSU) (hreach : d.Reachable) :
    (∀ i, i < d.items.length →
      d.snapshot.getD i 0 = rootP d.parent i ∧
      isRootP d.parent (d.snapshot.getD i 0)) ∧
    (d.snapshotM.1.restore d.snapshot).groups = d.groups := by
  obtain ⟨hwf, _⟩ := reachable_good hreach
  obtain ⟨s1, s2, s3, s4, s5, s6, s7⟩ := DSU.snapshotM_spec d hwf
  have hsnap : d.snapshot = (List.range d.items.length).map (rootP d.parent) := s1
  have hget : ∀ i, i < d.items.length → d.snapshot.getD i 0 = rootP d.parent i := by
    intro i hi
    rw [hsnap]
    have hl : i < ((List.range d.items.length).map (rootP d.parent)).length := by
      simpa using hi
    rw [List.getD_eq_getElem _ _ hl, List.getElem_map, List.getElem_range]
  refine ⟨fun i hi => ⟨hget i hi, ?_⟩, ?_⟩
  · rw [hget i hi]
    exact rootP_isRoot hwf.1 i
  · have hmapc : (List.range d.snapshotM.1.items.length).map
        (rootP d.snapshotM.1.parent) =
        (List.range d.items.length).map (rootP d.parent) := by
      rw [s3]
      exact List.map_congr_left fun x _ => s6 x
    obtain ⟨rwf, ritems, rroots⟩ := DSU.restore_spec d.snapshotM.1 s2
    rw [hmapc, ← hsnap] at rwf ritems rroots
    rw [DSU.groups_spec _ rwf, DSU.groups_spec _ hwf]
    have hri : (d.snapshotM.1.restore d.snapshot).items = d.items :=
      ritems.trans s3
    rw [hri]
    have hfun : rootP (d.snapshotM.1.restore d.snapshot).parent =
        rootP d.parent := funext fun x => (rroots x).trans (s6 x)
    rw [hfun]

/-- Witness for C3 on a concrete reachable state with one merge applied. -/
theorem c3_snapshot_restore_witness :
    ((((DSU.init ["x", "y", "z"]).union 1 2).1.snapshotM.1.restore
      (((DSU.init ["x", "y", "z"]).union 1 2).1.snapshot)).groups =
      (((DSU.init ["x", "y", "z"]).union 1 2).1).groups) := by
  have hreach : (((DSU.init ["x", "y", "z"]).union 1 2).1).Reachable :=
    DSU.Reachable.unionStep _ 1 2 (DSU.Reachable.init _) (by decide) (by decide)
  exact (c3_snapshot_restore _ hreach).2

/-! ## Stable sort lemmas -/

theorem insertSorted_perm {α : Type} (le : α → α → Bool) (x : α) (l : List α) :
    (insertSorted le x l).Perm (x :: l) := by
  induction l with
  | nil => exact List.Perm.refl _
  | cons y ys ih =>
    unfold insertSorted
    by_cases h : le x y
    · rw [if_pos h]
    · rw [if_neg h]
      exact (ih.cons y).trans (List.Perm.swap x y ys)

theorem stableSort_perm {α : Type} (le : α → α → Bool) (l : List α) :
    (stableSort le l).Perm l := by
  induction l with
  | nil => exact List.Perm.refl _
  | cons x xs ih =>
    exact (insertSorted_perm le x (stableSort le xs)).trans (ih.cons x)

theorem insertSorted_pairwise {α : Type} {le : α → α → Bool}
    (htrans : ∀ a b c, le a b = true → le b c = true → le a c = true)
    (htot : ∀ a b, le a b = true ∨ le b a = true) (x : α) {l : List α}
    (hl : List.Pairwise (fun a b => le a b = true) l) :
    List.Pairwise (fun a b => le a b = true) (insertSorted le x l) := by
  induction l with
  | nil => exact List.pairwise_singleton _ _
  | cons y ys ih =>
    obtain ⟨hy, hys⟩ := List.pairwise_cons.mp hl
    unfold insertSorted
    by_cases h : le x y
    · rw [if_pos h]
      refine List.pairwise_cons.mpr ⟨?_, hl⟩
      intro z hz
      rcases List.mem_cons.mp hz with hz | hz
      · rw [hz]
        exact h
      · exact htrans x y z h (hy z hz)
    · rw [if_neg h]
      have hyx : le y x = true := by
        rcases htot x y with h1 | h1
        · exact absurd h1 h
        · exact h1
      refine List.pairwise_cons.mpr ⟨?_, ih hys⟩
      intro z hz
      have hz2 : z ∈ x :: ys := (insertSorted_perm le x ys).subset hz
      rcases List.mem_cons.mp hz2 with hz2 | hz2
      · rw [hz2]
        exact hyx
      · exact hy z hz2

theorem stableSort_pairwise {α : Type} {le : α → α → Bool}
    (htrans : ∀ a b c, le a b = true → le b c = true → le a c = true)
    (htot : ∀ a b, le a b = true ∨ le b a = true) (l : List α) :
    List.Pairwise (fun a b => le a b = true) (stableSort le l) := by
  induction l with
  | nil => exact List.Pairwise.nil
  | cons x xs ih => exact insertSorted_pairwise htrans htot x ih

/-! ## Claim C5: candidate selector boundary -/

theorem mem_of_mem_if_take {α : Type} {l : List α} {k : ℕ} {c : Prop}
    [Decidable c] {x : α} (h : x ∈ (if c then l.take k else l)) : x ∈ l := by
  by_cases hc : c
  · rw [if_pos hc] at h
    exact List.mem_of_mem_take h
  · rw [if_neg hc] at h
    exact h

theorem sublist_if_take {α : Type} (l : List α) (k : ℕ) (c : Prop)
    [Decidable c] : (if c then l.take k else l).Sublist l := by
  by_cases hc : c
  · rw [if_pos hc]
    exact List.take_sublist k l
  · rw [if_neg hc]

theorem selectRow_mem {S : ℕ → ℕ → ℚ} {n : ℕ} {tau : ℚ} {topk : ℤ} {i : ℕ}
    {t : ℕ × ℕ × ℚ} (h : t ∈ selectRow S n tau topk i) :
    t.1 = i ∧ i < t.2.1 ∧ t.2.1 < n ∧ t.2.2 = S i t.2.1 ∧ tau ≤ t.2.2 := by
  simp only [selectRow] at h
  obtain ⟨p, hp, rfl⟩ := List.mem_map.mp h
  have hp1 : p ∈ stableSort (fun a b => decide (b.2 ≤ a.2))
      (((List.range n).filter fun j =>
        decide (i < j) && decide (tau ≤ S i j)).map fun j => (j, S i j)) :=
    mem_of_mem_if_take hp
  have hp2 : p ∈ ((List.range n).filter fun j =>
      decide (i < j) && decide (tau ≤ S i j)).map fun j => (j, S i j) :=
    (stableSort_perm _ _).subset hp1
  obtain ⟨j, hj, rfl⟩ := List.mem_map.mp hp2
  obtain ⟨hjr, hjp⟩ := List.mem_filter.mp hj
  simp only [Bool.and_eq_true, decide_eq_true_eq] at hjp
  exact ⟨rfl, hjp.1, by simpa using hjr, rfl, hjp.2⟩

theorem selectRow_length_le {S : ℕ → ℕ → ℚ} {n : ℕ} {tau : ℚ} {topk : ℤ}
    {i : ℕ} (h : 0 < topk) :
    ((selectRow S n tau topk i).length : ℤ) ≤ topk := by
  simp only [selectRow, List.length_map]
  by_cases hc : 0 < topk ∧ topk < ((stableSort (fun a b => decide (b.2 ≤ a.2))
      (((List.range n).filter fun j =>
        decide (i < j) && decide (tau ≤ S i j)).map
          fun j => (j, S i j))).length : ℤ)
  · rw [if_pos hc, List.length_take]
    have h2 := hc.2
    omega
  · rw [if_neg hc]
    push_neg at hc
    have h2 := hc h
    omega

theorem selectRow_firsts_nodup {S : ℕ → ℕ → ℚ} {n : ℕ} {tau : ℚ} {topk : ℤ}
    {i : ℕ} :
    ((selectRow S n tau topk i).map (fun t => (t.1, t.2.1))).Nodup := by
  simp only [selectRow, List.map_map]
  have hcomp : ((fun t : ℕ × ℕ × ℚ => (t.1, t.2.1)) ∘
      (fun p : ℕ × ℚ => (i, p.1, p.2))) = (fun j : ℕ => (i, j)) ∘ Prod.fst := by
    funext p
    rfl
  rw [hcomp, ← List.map_map]
  refine List.Nodup.map (fun a b hab => congrArg Prod.snd hab) ?_
  have hjnd : ((List.range n).filter fun j =>
      decide (i < j) && decide (tau ≤ S i j)).Nodup :=
    List.Nodup.filter _ (List.nodup_range n)
  have hid : (((List.range n).filter fun j =>
      decide (i < j) && decide (tau ≤ S i j)).map
        (fun j => (j, S i j))).map Prod.fst =
      ((List.range n).filter fun j =>
        decide (i < j) && decide (tau ≤ S i j)) := by
    rw [List.map_map]
    have : (Prod.fst ∘ fun j : ℕ => (j, S i j)) = id := by
      funext j
      rfl
    rw [this, List.map_id]
  have hsortfst : ((stableSort (fun a b => decide (b.2 ≤ a.2))
      (((List.range n).filter fun j =>
        decide (i < j) && decide (tau ≤ S i j)).map
          (fun j => (j, S i j)))).map Prod.fst).Nodup := by
    have hperm := (stableSort_perm (fun a b : ℕ × ℚ => decide (b.2 ≤ a.2))
      (((List.range n).filter fun j =>
        decide (i < j) && decide (tau ≤ S i j)).map (fun j => (j, S i j)))).map
        Prod.fst
    rw [hid] at hperm
    exact hperm.symm.nodup hjnd
  exact ((sublist_if_take _ topk.toNat _).map Prod.fst).nodup hsortfst

theorem filter_first_eq_nil {S : ℕ → ℕ → ℚ} {n : ℕ} {tau : ℚ} {topk : ℤ}
    {i r : ℕ} (hne : r ≠ i) :
    (selectRow S n tau topk r).filter (fun t => t.1 == i) = [] := by
  rw [List.filter_eq_nil_iff]
  intro t ht
  have h1 := (selectRow_mem ht).1
  simp [h1, hne]

theorem select_row_count_aux {S : ℕ → ℕ → ℚ} {n : ℕ} {tau : ℚ} {topk : ℤ}
    {i : ℕ} : ∀ rows : List ℕ, rows.Nodup →
    ((rows.map (selectRow S n tau topk)).flatten.filter
      (fun t => t.1 == i)).length ≤ (selectRow S n tau topk i).length := by
  intro rows
  induction rows with
  | nil =>
    intro _
    simp
  | cons r rest ih =>
    intro hnd
    obtain ⟨hnotin, hnd'⟩ := List.nodup_cons.mp hnd
    rw [List.map_cons, List.flatten_cons, List.filter_append, List.length_append]
    by_cases hri : r = i
    · subst hri
      have hrest : ((rest.map (selectRow S n tau topk)).flatten.filter
          (fun t => t.1 == r)) = [] := by
        rw [List.filter_eq_nil_iff]
        intro t ht
        obtain ⟨l, hl, htl⟩ := List.mem_flatten.mp ht
        obtain ⟨r', hr', rfl⟩ := List.mem_map.mp hl
        have h1 := (selectRow_mem htl).1
        have hne : r' ≠ r := fun h => hnotin (h ▸ hr')
        simp [h1, hne]
      rw [hrest]
      simp only [List.length_nil, Nat.add_zero]
      exact List.length_filter_le _ _
    · rw [filter_first_eq_nil hri]
      simp only [List.length_nil, Nat.zero_add]
      exact ih hnd'

/-- C5: the candidate selector returns only pairs `(i, j)` with `i < j` (in
particular never a self-pair) and `S[i,j] ≥ τ`, never repeats an unordered pair
(all pairs satisfy `i < j`, and the `(i, j)` projections are pairwise
distinct), and under a per-row cap `topk > 0` no matrix row `i` selects more
than `topk` partners. -/
theorem c5_selector_boundary (S : ℕ → ℕ → ℚ) (n : ℕ) (tau : ℚ) (topk : ℤ) :
    (∀ t ∈ select_topk_above_threshold S n tau topk,
      t.1 < t.2.1 ∧ t.1 ≠ t.2.1 ∧ t.2.1 < n ∧ t.2.2 = S t.1 t.2.1 ∧
        tau ≤ t.2.2) ∧
    ((select_topk_above_threshold S n tau topk).map
      (fun t => (t.1, t.2.1))).Nodup ∧
    (0 < topk → ∀ i, (((select_topk_above_threshold S n tau topk).filter
      (fun t => t.1 == i)).length : ℤ) ≤ topk) := by
  refine ⟨?_, ?_, ?_⟩
  · intro t ht
    unfold select_topk_above_threshold at ht
    obtain ⟨l, hl, htl⟩ := List.mem_flatten.mp ht
    obtain ⟨r, hr, rfl⟩ := List.mem_map.mp hl
    obtain ⟨h1, h2, h3, h4, h5⟩ := selectRow_mem htl
    rw [← h1] at h2 h4
    exact ⟨h2, Nat.ne_of_lt h2, h3, h4, h5⟩
  · unfold select_topk_above_threshold
    rw [List.map_flatten, List.map_map]
    rw [List.nodup_flatten]
    constructor
    · intro l hl
      obtain ⟨r, hr, rfl⟩ := List.mem_map.mp hl
      exact selectRow_firsts_nodup
    · rw [List.pairwise_map]
      have hnd : List.Pairwise (· ≠ ·) (List.range n) := List.nodup_range n
      refine hnd.imp ?_
      intro a b hab x hxa hxb
      obtain ⟨t, hta, rfl⟩ := List.mem_map.mp hxa
      obtain ⟨u, hub, hu⟩ := List.mem_map.mp hxb
      have h1 := (selectRow_mem hta).1
      have h2 := (selectRow_mem hub).1
      apply hab
      rw [← h1, ← h2]
      exact (congrArg Prod.fst hu).symm
  · intro h i
    unfold select_topk_above_threshold
    have h1 := @select_row_count_aux S n tau topk i (List.range n)
      (List.nodup_range n)
    have h2 := @selectRow_length_le S n tau topk i h
    have h1' : ((((List.range n).map (selectRow S n tau topk)).flatten.filter
        (fun t => t.1 == i)).length : ℤ) ≤
        ((selectRow S n tau topk i).length : ℤ) := by
      exact_mod_cast h1
    exact le_trans h1' h2

-- Witness for C5 on the concrete matrix `c5_S` with `τ = 1/2`, `topk = 1`:
-- the pair `(0, 1)` with score 1 is selected, satisfies the boundary facts,
-- and row 0 selects at most one partner.
unseal Rat.inv Rat.mul Rat.add Rat.sub in
theorem c5_selector_boundary_witness :
    ((0, 1, (1 : ℚ)) ∈ select_topk_above_threshold c5_S 3 (1 / 2) 1 ∧
      (0 : ℤ) < 1) ∧
    ((0 : ℕ) < 1 ∧ (0 : ℕ) ≠ 1 ∧ 1 < 3 ∧ (1 : ℚ) = c5_S 0 1 ∧
      (1 / 2 : ℚ) ≤ 1) ∧
    (((select_topk_above_threshold c5_S 3 (1 / 2) 1).filter
      (fun t => t.1 == 0)).length : ℤ) ≤ 1 := by
  have hc := c5_selector_boundary c5_S 3 (1 / 2) 1
  have hmem : (0, 1, (1 : ℚ)) ∈ select_topk_above_threshold c5_S 3 (1 / 2) 1 := by
    decide
  refine ⟨⟨hmem, by decide⟩, ?_, hc.2.2 (by decide) 0⟩
  exact hc.1 _ hmem

/-! ## Claim C7: degenerate-vector exclusion -/

theorem memVals_upsert {κ α : Type} [DecidableEq κ] {m : List (κ × List α)}
    {k : κ} {v x : α} (h : memVals (upsert m k v) x) : memVals m x ∨ x = v := by
  induction m with
  | nil =>
    obtain ⟨kv, hkv, hx⟩ := h
    rcases List.mem_singleton.mp hkv with rfl
    rcases List.mem_singleton.mp hx with rfl
    exact Or.inr rfl
  | cons p rest ih =>
    obtain ⟨k0, vs⟩ := p
    obtain ⟨kv, hkv, hx⟩ := h
    by_cases hk : k0 = k
    · have he : upsert ((k0, vs) :: rest) k v = (k0, vs ++ [v]) :: rest :=
        if_pos hk
      rw [he] at hkv
      rcases List.mem_cons.mp hkv with rfl | hkv2
      · rcases List.mem_append.mp hx with hx2 | hx2
        · exact Or.inl ⟨(k0, vs), List.mem_cons_self _ _, hx2⟩
        · exact Or.inr (List.mem_singleton.mp hx2)
      · exact Or.inl ⟨kv, List.mem_cons_of_mem _ hkv2, hx⟩
    · have he : upsert ((k0, vs) :: rest) k v = (k0, vs) :: upsert rest k v :=
        if_neg hk
      rw [he] at hkv
      rcases List.mem_cons.mp hkv with rfl | hkv2
      · exact Or.inl ⟨(k0, vs), by simp, hx⟩
      · rcases ih ⟨kv, hkv2, hx⟩ with h2 | h2
        · obtain ⟨kv2, hkv3, hx3⟩ := h2
          exact Or.inl ⟨kv2, List.mem_cons_of_mem _ hkv3, hx3⟩
        · exact Or.inr h2

theorem memVals_fold_layer {x : NodeFingerprint} :
    ∀ (l : List NodeFingerprint) (acc : List (String × List NodeFingerprint)),
    memVals (l.foldl (fun m fp => upsert m fp.layer fp) acc) x →
    memVals acc x ∨ x ∈ l := by
  intro l
  induction l with
  | nil =>
    intro acc h
    exact Or.inl h
  | cons fp rest ih =>
    intro acc h
    rcases ih (upsert acc fp.layer fp) h with h2 | h2
    · rcases memVals_upsert h2 with h3 | h3
      · exact Or.inl h3
      · exact Or.inr (by rw [h3]; exact List.mem_cons_self _ _)
    · exact Or.inr (List.mem_cons_of_mem _ h2)

theorem foldl_filter_subset {α : Type} {β : Type} :
    ∀ (l : List β) (v : List α) (f : β → α → Bool) (c : β → Prop)
    [DecidablePred c] {x : α},
    x ∈ l.foldl (fun v kn => if c kn then v.filter (f kn) else v) v → x ∈ v := by
  intro l
  induction l with
  | nil =>
    intro v f c _ x h
    exact h
  | cons kn rest ih =>
    intro v f c _ x h
    have h2 := ih (if c kn then v.filter (f kn) else v) f c h
    by_cases hc : c kn
    · rw [if_pos hc] at h2
      exact List.mem_of_mem_filter h2
    · rw [if_neg hc] at h2
      exact h2

theorem propose_valid_subset {cfg : SRConfig} {items : List NodeFingerprint}
    {fp : NodeFingerprint} (h : fp ∈ propose_valid cfg items) :
    fp ∈ items ∧ informative fp = true := by
  have hval : fp ∈ items.filter informative := by
    simp only [propose_valid] at h
    split at h
    · exact foldl_filter_subset _ _
        (fun (kn : List ℚ × List String) (fp : NodeFingerprint) =>
          !kn.2.contains fp.node_id)
        (fun (kn : List ℚ × List String) =>
          cfg.max_duplicate_group_size < kn.2.length) h
    · exact h
  exact ⟨List.mem_of_mem_filter hval, List.of_mem_filter hval⟩

theorem propose_groups_mem {cfg : SRConfig} {valid : List NodeFingerprint}
    {group : List NodeFingerprint} (hg : group ∈ propose_groups cfg valid)
    {fp : NodeFingerprint} (hfp : fp ∈ group) : fp ∈ valid := by
  simp only [propose_groups] at hg
  by_cases hil : cfg.intra_layer_only
  · rw [if_pos hil] at hg
    obtain ⟨kv, hkv, rfl⟩ := List.mem_map.mp hg
    have hmv : memVals (valid.foldl (fun m fp => upsert m fp.layer fp) []) fp :=
      ⟨kv, hkv, hfp⟩
    rcases memVals_fold_layer valid _ hmv with h2 | h2
    · obtain ⟨kv2, hkv2, _⟩ := h2
      cases hkv2
    · exact h2
  · rw [if_neg hil] at hg
    rcases List.mem_singleton.mp hg with rfl
    exact hfp

theorem getD_mem_of_lt {α : Type} {l : List α} {i : ℕ} {dflt : α}
    (h : i < l.length) : l.getD i dflt ∈ l := by
  rw [List.getD_eq_getElem _ _ h]
  exact List.getElem_mem h

theorem group_candidates_mem {cosSim : List ℚ → List ℚ → Option ℚ}
    {cfg : SRConfig} {group : List NodeFingerprint} {c : MergeCandidate}
    (hc : c ∈ group_candidates cosSim cfg group) :
    ∃ fp1 ∈ group, fp1.node_id = c.node1_id ∧
      ∃ fp2 ∈ group, fp2.node_id = c.node2_id := by
  simp only [group_candidates] at hc
  split at hc
  · cases hc
  split at hc
  · obtain ⟨l, hl, hcl⟩ := List.mem_flatten.mp hc
    obtain ⟨a, har, rfl⟩ := List.mem_map.mp hl
    obtain ⟨b, hbr, rfl⟩ := List.mem_map.mp hcl
    obtain ⟨hbrange, _⟩ := List.mem_filter.mp hbr
    have han : a < group.length := List.mem_range.mp har
    have hbn : b < group.length := List.mem_range.mp hbrange
    exact ⟨_, getD_mem_of_lt han, rfl, _, getD_mem_of_lt hbn, rfl⟩
  · obtain ⟨l, hl, hcl⟩ := List.mem_flatten.mp hc
    obtain ⟨i, hir, rfl⟩ := List.mem_map.mp hl
    obtain ⟨j, hjf, hj⟩ := List.mem_filterMap.mp hcl
    obtain ⟨hjrange, _⟩ := List.mem_filter.mp hjf
    have hin : i < group.length := List.mem_range.mp hir
    have hjn : j < group.length := List.mem_range.mp hjrange
    split at hj
    · cases hj
    · split at hj
      · cases hj
      · split at hj
        · have := Option.some_injective _ hj
          refine ⟨group.getD i ⟨"", "", [], 0⟩, getD_mem_of_lt hin, ?_,
            group.getD j ⟨"", "", [], 0⟩, getD_mem_of_lt hjn, ?_⟩
          · rw [← this]
          · rw [← this]
        · cases hj

/-- C7 (amended): in the reconstruction service's `propose_candidates`, every
fingerprint with dimension < 2, zero norm, or variance below `1e-10` is
excluded from the comparison set before any similarity matrix is built, so
both nodes of every proposed candidate carry an informative vector (dimension
≥ 2, nonzero norm, variance ≥ `1e-10`).  The claim's universal form is false:
`pipeline.run_pipeline` performs no such exclusion and proposes pairs of
one-dimensional vectors (see the counterexample). -/
theorem c7_degenerate_exclusion (cosSim : List ℚ → List ℚ → Option ℚ)
    (cfg : SRConfig) (items : List NodeFingerprint) (c : MergeCandidate)
    (hc : c ∈ propose_candidates cosSim cfg items) :
    ∃ fp1 ∈ items, fp1.node_id = c.node1_id ∧
      2 ≤ fp1.fingerprint.length ∧ sumSq fp1.fingerprint ≠ 0 ∧
      ¬ varQ fp1.fingerprint < 1 / 10000000000 ∧
    ∃ fp2 ∈ items, fp2.node_id = c.node2_id ∧
      2 ≤ fp2.fingerprint.length ∧ sumSq fp2.fingerprint ≠ 0 ∧
      ¬ varQ fp2.fingerprint < 1 / 10000000000 := by
  simp only [propose_candidates] at hc
  obtain ⟨l, hl, hcl⟩ := List.mem_flatten.mp hc
  obtain ⟨group, hgrp, rfl⟩ := List.mem_map.mp hl
  obtain ⟨fp1, hfp1, hid1, fp2, hfp2, hid2⟩ := group_candidates_mem hcl
  have h1 := propose_valid_subset (propose_groups_mem hgrp hfp1)
  have h2 := propose_valid_subset (propose_groups_mem hgrp hfp2)
  have hinf1 := h1.2
  have hinf2 := h2.2
  simp only [informative, Bool.and_eq_true, decide_eq_true_eq,
    Bool.not_eq_true', decide_eq_false_iff_not] at hinf1 hinf2
  exact ⟨fp1, h1.1, hid1, hinf1.1.1, hinf1.1.2, hinf1.2, fp2, h2.1, hid2,
    hinf2.1.1, hinf2.1.2, hinf2.2⟩

-- C7 counterexample: `run_pipeline` on a one-logit graph (`dot` metric,
-- unnormalised, gate off) proposes and merges the pair (a, b) even though both
-- fingerprints are the one-dimensional vector [1] (dimension < 2): the
-- claimed exclusion does not happen on this path.
unseal Rat.inv Rat.mul Rat.add Rat.sub in
theorem c7_counterexample :
    (run_pipeline id c7_graph c7_req).map
      (fun st => (st.merge_log, st.X, st.candidates_count)) =
      .ok ([{ u := "a", v := "b", score := 1, layer := 0, mean_corr := 1,
              ce_gap := 0 }], [[1], [1]], 1) ∧
    (([1] : List ℚ).length < 2) := by
  exact ⟨by decide, by decide⟩

-- Witness for the amended C7 on a concrete fingerprint set: the informative
-- pair is proposed and both its vectors pass the informativeness checks.
unseal Rat.inv Rat.mul Rat.add Rat.sub in
theorem c7_degenerate_exclusion_witness :
    ∃ fp1 ∈ [(⟨"p", "0", [1, 0], (0 : ℚ)⟩ : NodeFingerprint),
        ⟨"q", "0", [1, 1 / 100], 0⟩, ⟨"z", "0", [0, 0], 0⟩],
      fp1.node_id = "p" ∧ 2 ≤ fp1.fingerprint.length ∧
        sumSq fp1.fingerprint ≠ 0 ∧
        ¬ varQ fp1.fingerprint < 1 / 10000000000 ∧
      ∃ fp2 ∈ [(⟨"p", "0", [1, 0], (0 : ℚ)⟩ : NodeFingerprint),
          ⟨"q", "0", [1, 1 / 100], 0⟩, ⟨"z", "0", [0, 0], 0⟩],
        fp2.node_id = "q" ∧ 2 ≤ fp2.fingerprint.length ∧
          sumSq fp2.fingerprint ≠ 0 ∧
          ¬ varQ fp2.fingerprint < 1 / 10000000000 :=
  c7_degenerate_exclusion (fun _ _ => none)
    ⟨1 / 2, 9 / 10, 5 / 100, true, 10⟩
    [⟨"p", "0", [1, 0], 0⟩, ⟨"q", "0", [1, 1 / 100], 0⟩, ⟨"z", "0", [0, 0], 0⟩]
    ⟨"p", "q", 1, "0"⟩ (by decide)

/-! ## Claim C8: unknown-metric rejection -/

theorem similarity_matrix_err {ν : List (List ℚ) → List (List ℚ)}
    {X : List (List ℚ)} {metric : String} (h1 : metric ≠ "cosine")
    (h2 : metric ≠ "dot") :
    similarity_matrix ν X metric =
      .error ("Unknown similarity metric: " ++ metric) := by
  simp only [similarity_matrix, if_neg h1, if_neg h2]

theorem processLayer_err {ν : List (List ℚ) → List (List ℚ)}
    {req : RunRequest} {fids : List String} {X : List (List ℚ)}
    {Li : ℤ × List ℕ} {st : MPhase} (h2 : ¬ Li.2.length < 2)
    (hc : req.similarity_metric ≠ "cosine")
    (hd : req.similarity_metric ≠ "dot") :
    processLayer ν req fids X Li st =
      .error ("Unknown similarity metric: " ++ req.similarity_metric) := by
  simp only [processLayer, if_neg h2, similarity_matrix_err hc hd]

theorem runLayers_err (ν : List (List ℚ) → List (List ℚ)) (req : RunRequest)
    (fids : List String) (X : List (List ℚ))
    (hc : req.similarity_metric ≠ "cosine")
    (hd : req.similarity_metric ≠ "dot") :
    ∀ (l2i : List (ℤ × List ℕ)) (st : MPhase) (cands : ℕ),
    st.merge_log = [] → (∃ Li ∈ l2i, 2 ≤ Li.2.length) →
    runLayers ν req fids X l2i st cands =
      .error ("Unknown similarity metric: " ++ req.similarity_metric) := by
  intro l2i
  induction l2i with
  | nil =>
    intro st cands _ hex
    obtain ⟨Li, hLi, _⟩ := hex
    cases hLi
  | cons Li rest ih =>
    intro st cands hlog hex
    have hstep : runLayers ν req fids X (Li :: rest) st cands =
        match processLayer ν req fids X Li st with
        | .error e => .error e
        | .ok stc =>
          if 0 < req.max_merges ∧ req.max_merges ≤ (stc.1.merge_log.length : ℤ)
          then .ok (stc.1, cands + stc.2)
          else runLayers ν req fids X rest stc.1 (cands + stc.2) := rfl
    by_cases h2 : Li.2.length < 2
    · have hpl : processLayer ν req fids X Li st = .ok (st, 0) := by
        simp only [processLayer, if_pos h2]
      have hrest : ∃ L ∈ rest, 2 ≤ L.2.length := by
        obtain ⟨L, hL, hlen⟩ := hex
        rcases List.mem_cons.mp hL with rfl | hL2
        · omega
        · exact ⟨L, hL2, hlen⟩
      have hcond : ¬ (0 < req.max_merges ∧
          req.max_merges ≤ ((st.merge_log.length : ℤ))) := by
        rw [hlog]
        simp only [List.length_nil, Nat.cast_zero]
        omega
      rw [hstep, hpl]
      show (if 0 < req.max_merges ∧
          req.max_merges ≤ ((st.merge_log.length : ℤ)) then
            Except.ok (st, cands + 0)
          else runLayers ν req fids X rest st (cands + 0)) = _
      rw [if_neg hcond]
      exact ih st (cands + 0) hlog hrest
    · rw [hstep, processLayer_err h2 hc hd]

/-- C8 (amended): a run whose similarity metric is neither `cosine` nor `dot`
is rejected with the descriptive error `Unknown similarity metric: <metric>`
and the previously published current-run state is left unchanged — but only
when some layer group of the built fingerprints has at least two members,
because the dispatch sits inside the per-layer loop rather than at run start.
A bad-metric run on a graph whose layer groups all have fewer than two members
completes and publishes (see the counterexample). -/
theorem c8_unknown_metric (ν : List (List ℚ) → List (List ℚ)) (g : Graph)
    (req : RunRequest) (prev : Option RunState)
    (hc : req.similarity_metric ≠ "cosine")
    (hd : req.similarity_metric ≠ "dot")
    (hex : ∃ Li ∈ group_by_layer (build_fingerprints ν g
        req.fingerprint_source req.normalize_fingerprints
        req.layer_whitelist).layers, 2 ≤ Li.2.length) :
    run_pipeline ν g req =
      .error ("Unknown similarity metric: " ++ req.similarity_metric) ∧
    (run_pipeline_pub ν g req prev).2 = prev := by
  have herr : run_pipeline ν g req =
      .error ("Unknown similarity metric: " ++ req.similarity_metric) := by
    simp only [run_pipeline]
    rw [runLayers_err ν req _ _ hc hd _ _ 0 rfl hex]
  refine ⟨herr, ?_⟩
  simp only [run_pipeline_pub]
  rw [herr]

-- C8 counterexample: with the unknown metric `foo` on a graph whose only
-- layer group is a singleton, the dispatch is never reached: the run
-- completes successfully and the current-run pointer is replaced.
unseal Rat.inv Rat.mul Rat.add Rat.sub in
theorem c8_counterexample :
    c8_req_bad.similarity_metric ≠ "cosine" ∧
    c8_req_bad.similarity_metric ≠ "dot" ∧
    (run_pipeline id c8_graph_small c8_req_bad).toOption.isSome = true ∧
    (run_pipeline_pub id c8_graph_small c8_req_bad none).2.isSome = true := by
  exact ⟨by decide, by decide, by decide, by decide⟩

-- Witness for the amended C8: on a graph with a two-member layer group, the
-- `foo`-metric run aborts with the descriptive error and a previously
-- published state (here `none`) survives.
unseal Rat.inv Rat.mul Rat.add Rat.sub in
theorem c8_unknown_metric_witness :
    run_pipeline id c8_graph_big c8_req_bad =
      .error ("Unknown similarity metric: " ++
        c8_req_bad.similarity_metric) ∧
    (run_pipeline_pub id c8_graph_big c8_req_bad none).2 = none :=
  c8_unknown_metric id c8_graph_big c8_req_bad none (by decide) (by decide)
    (by decide)

/-! ## Claim C4: replay step semantics -/

unseal Rat.inv Rat.mul Rat.add Rat.sub in
theorem c4_eval_aux :
    (run_pipeline id c4_graph c4_req).map
      (fun st => st.merge_log.length) = .ok 0 ∧
    (run_pipeline id c4_graph c4_req).map
      (fun st => st.parent_snapshots) = .ok [] ∧
    (run_pipeline id c4_graph c4_req).map
      (fun st => snapshot st 1 (1 / 10)) = .ok none ∧
    (run_pipeline id c4_graph c4_req).map
      (fun st => (snapshot st 0 (1 / 10)).map Snapshot.groups) =
      .ok (some [("super|0|0", 1, 0)]) := by
  exact ⟨by decide, by decide, by decide, by decide⟩

/-- C4 (failing evaluation): a completed single-feature run has an empty merge
log and no parent snapshots; replay at step 0 yields the singleton grouping as
specified, but at step `1 ≥ len(log) = 0` the builder reads
`parent_snapshots[-1]` of an empty list (modelled `getLast? = none`) and
raises `IndexError` instead of returning the final grouping, contradicting the
"step ≥ len(log) → final grouping" contract. -/
theorem c4_failing_eval :
    (run_pipeline id c4_graph c4_req).map
      (fun st => st.merge_log.length) = .ok 0 ∧
    (run_pipeline id c4_graph c4_req).map
      (fun st => st.parent_snapshots) = .ok [] ∧
    (run_pipeline id c4_graph c4_req).map
      (fun st => snapshot st 1 (1 / 10)) = .ok none ∧
    (run_pipeline id c4_graph c4_req).map
      (fun st => (snapshot st 0 (1 / 10)).map Snapshot.groups) =
      .ok (some [("super|0|0", 1, 0)]) :=
  c4_eval_aux

/-! ## Claim C10: the placeholder gate at default bounds -/

theorem mkRat_mod12_bounds (n : ℕ) :
    0 ≤ mkRat ((n % 1000000000000 : ℕ) : ℤ) 1000000000000 ∧
    mkRat ((n % 1000000000000 : ℕ) : ℤ) 1000000000000 < 1 := by
  rw [Rat.mkRat_eq_div]
  constructor
  · apply div_nonneg _ (by norm_num)
    exact_mod_cast Nat.zero_le _
  · rw [div_lt_one (by norm_num)]
    exact_mod_cast Nat.mod_lt _ (by norm_num)

theorem stable_pair_hash_bounds (u v : String) (seed : ℤ) :
    0 ≤ stable_pair_hash u v seed ∧ stable_pair_hash u v seed < 1 := by
  unfold stable_pair_hash
  exact mkRat_mod12_bounds _

theorem apply_gates_defaults (u v : String) (score : ℚ) (layer seed : ℤ) :
    ∃ mc : ℚ × ℚ,
      apply_gates u v score layer seed (90 / 100) (5 / 100) = some mc ∧
      9 / 10 ≤ mc.1 ∧ mc.1 < 1 ∧ 0 < mc.2 ∧ mc.2 ≤ 1 / 50 := by
  obtain ⟨h0, h1⟩ := stable_pair_hash_bounds u v seed
  have hc : (90 : ℚ) / 100 ≤ 9 / 10 + 1 / 10 * stable_pair_hash u v seed ∧
      2 / 100 * (1 - stable_pair_hash u v seed) ≤ 5 / 100 :=
    ⟨by linarith, by linarith⟩
  refine ⟨(9 / 10 + 1 / 10 * stable_pair_hash u v seed,
           2 / 100 * (1 - stable_pair_hash u v seed)), ?_, by linarith,
           by linarith, by linarith, by linarith⟩
  simp only [apply_gates]
  rw [if_pos hc]

theorem mergePairs_gate {req1 req2 : RunRequest}
    (hmm : req1.max_merges = req2.max_merges)
    (hα : req1.alpha = 90 / 100) (hβ : req1.beta = 5 / 100)
    (hg1 : req1.gate_enabled = true) (hg2 : req2.gate_enabled = false)
    (fids : List String) (idxs : List ℕ) (L : ℤ) :
    ∀ (pairs : List (ℕ × ℕ × ℚ)) (d : DSU) (ml1 ml2 : List MergeEvent)
    (ps : List (List ℕ)), ml1.map eventKey = ml2.map eventKey →
    phaseKey (mergePairs req1 fids idxs L pairs ⟨d, ml1, ps⟩) =
      phaseKey (mergePairs req2 fids idxs L pairs ⟨d, ml2, ps⟩) := by
  intro pairs
  induction pairs with
  | nil =>
    intro d ml1 ml2 ps hml
    simp only [mergePairs, phaseKey]
    rw [hml]
  | cons t rest ih =>
    intro d ml1 ml2 ps hml
    have hlen : ml1.length = ml2.length := by
      simpa using congrArg List.length hml
    simp only [mergePairs, hg1, hg2, Bool.false_eq_true, eq_self_iff_true,
      if_true, if_false]
    split
    next hskip =>
      exact ih _ ml1 ml2 ps hml
    next hskip =>
      rw [hα, hβ]
      obtain ⟨mc, hmc, hb1, hb2, hb3, hb4⟩ :=
        apply_gates_defaults (fids.getD (idxs.getD t.1 0) "")
          (fids.getD (idxs.getD t.2.1 0) "") t.2.2 L req1.seed
      rw [hmc]
      dsimp only
      split
      next hun =>
        simp only [List.length_append, List.length_cons, List.length_nil,
          hlen, ← hmm]
        split
        next hbr =>
          simp only [phaseKey, List.map_append, List.map_cons, List.map_nil,
            hml, eventKey]
        next hbr =>
          apply ih
          simp only [List.map_append, List.map_cons, List.map_nil, hml,
            eventKey]
      next hun =>
        exact ih _ ml1 ml2 ps hml

theorem processLayer_gate {req1 req2 : RunRequest}
    (hmm : req1.max_merges = req2.max_merges)
    (hα : req1.alpha = 90 / 100) (hβ : req1.beta = 5 / 100)
    (hg1 : req1.gate_enabled = true) (hg2 : req2.gate_enabled = false)
    (hsim : req1.similarity_metric = req2.similarity_metric)
    (htau : req1.tau_sim = req2.tau_sim)
    (htopk : req1.topk_candidates_per_node = req2.topk_candidates_per_node)
    (hmp : req1.max_pairs_per_layer = req2.max_pairs_per_layer)
    (ν : List (List ℚ) → List (List ℚ)) (fids : List String)
    (X : List (List ℚ)) (Li : ℤ × List ℕ) (d : DSU)
    (ml1 ml2 : List MergeEvent) (ps : List (List ℕ))
    (hml : ml1.map eventKey = ml2.map eventKey) :
    (processLayer ν req1 fids X Li ⟨d, ml1, ps⟩).map
      (fun sc => (phaseKey sc.1, sc.2)) =
    (processLayer ν req2 fids X Li ⟨d, ml2, ps⟩).map
      (fun sc => (phaseKey sc.1, sc.2)) := by
  simp only [processLayer]
  split
  · simp only [Except.map, phaseKey, hml]
  · rw [hsim, htau, htopk, hmp]
    split
    · rfl
    · simp only [Except.map]
      rw [mergePairs_gate hmm hα hβ hg1 hg2 fids Li.2 Li.1 _ d ml1 ml2 ps hml]

theorem runLayers_gate {req1 req2 : RunRequest}
    (hmm : req1.max_merges = req2.max_merges)
    (hα : req1.alpha = 90 / 100) (hβ : req1.beta = 5 / 100)
    (hg1 : req1.gate_enabled = true) (hg2 : req2.gate_enabled = false)
    (hsim : req1.similarity_metric = req2.similarity_metric)
    (htau : req1.tau_sim = req2.tau_sim)
    (htopk : req1.topk_candidates_per_node = req2.topk_candidates_per_node)
    (hmp : req1.max_pairs_per_layer = req2.max_pairs_per_layer)
    (ν : List (List ℚ) → List (List ℚ)) (fids : List String)
    (X : List (List ℚ)) :
    ∀ (l2i : List (ℤ × List ℕ)) (d : DSU) (ml1 ml2 : List MergeEvent)
    (ps : List (List ℕ)) (cands : ℕ),
    ml1.map eventKey = ml2.map eventKey →
    (runLayers ν req1 fids X l2i ⟨d, ml1, ps⟩ cands).map
      (fun sc => (phaseKey sc.1, sc.2)) =
    (runLayers ν req2 fids X l2i ⟨d, ml2, ps⟩ cands).map
      (fun sc => (phaseKey sc.1, sc.2)) := by
  intro l2i
  induction l2i with
  | nil =>
    intro d ml1 ml2 ps cands hml
    simp only [runLayers, Except.map, phaseKey, hml]
  | cons Li rest ih =>
    intro d ml1 ml2 ps cands hml
    have hpl := processLayer_gate hmm hα hβ hg1 hg2 hsim htau htopk hmp
      ν fids X Li d ml1 ml2 ps hml
    simp only [runLayers]
    rcases h1 : processLayer ν req1 fids X Li ⟨d, ml1, ps⟩ with e1 | sc1 <;>
      rcases h2 : processLayer ν req2 fids X Li ⟨d, ml2, ps⟩ with e2 | sc2 <;>
      rw [h1, h2] at hpl <;> simp only [Except.map] at hpl
    · cases hpl
      rfl
    · cases hpl
    · cases hpl
    · obtain ⟨st1, n1⟩ := sc1
      obtain ⟨sd1, sl1, sp1⟩ := st1
      obtain ⟨st2, n2⟩ := sc2
      obtain ⟨sd2, sl2, sp2⟩ := st2
      simp only [phaseKey, Except.ok.injEq, Prod.mk.injEq] at hpl
      obtain ⟨⟨hd, hmap, hp⟩, hn⟩ := hpl
      subst hd hp hn
      have hlen2 : sl1.length = sl2.length := by
        simpa using congrArg List.length hmap
      simp only [hlen2, ← hmm]
      split
      · simp only [Except.map, phaseKey, hmap]
      · exact ih sd1 sl1 sl2 sp1 (cands + n1) hmap

theorem run_pipeline_gate (ν : List (List ℚ) → List (List ℚ)) (g : Graph)
    {req1 req2 : RunRequest}
    (hmm : req1.max_merges = req2.max_merges)
    (hα : req1.alpha = 90 / 100) (hβ : req1.beta = 5 / 100)
    (hg1 : req1.gate_enabled = true) (hg2 : req2.gate_enabled = false)
    (hsim : req1.similarity_metric = req2.similarity_metric)
    (htau : req1.tau_sim = req2.tau_sim)
    (htopk : req1.topk_candidates_per_node = req2.topk_candidates_per_node)
    (hmp : req1.max_pairs_per_layer = req2.max_pairs_per_layer)
    (hfs : req1.fingerprint_source = req2.fingerprint_source)
    (hnf : req1.normalize_fingerprints = req2.normalize_fingerprints)
    (hwl : req1.layer_whitelist = req2.layer_whitelist) :
    (run_pipeline ν g req1).map runKey = (run_pipeline ν g req2).map runKey := by
  simp only [run_pipeline, hfs, hnf, hwl]
  have hrl := runLayers_gate hmm hα hβ hg1 hg2 hsim htau htopk hmp ν
    (build_fingerprints ν g req2.fingerprint_source req2.normalize_fingerprints
      req2.layer_whitelist).fids
    (build_fingerprints ν g req2.fingerprint_source req2.normalize_fingerprints
      req2.layer_whitelist).X
    (group_by_layer (build_fingerprints ν g req2.fingerprint_source
      req2.normalize_fingerprints req2.layer_whitelist).layers)
    (DSU.init (build_fingerprints ν g req2.fingerprint_source
      req2.normalize_fingerprints req2.layer_whitelist).fids) [] [] [] 0 rfl
  rcases h1 : runLayers ν req1
      (build_fingerprints ν g req2.fingerprint_source
        req2.normalize_fingerprints req2.layer_whitelist).fids
      (build_fingerprints ν g req2.fingerprint_source
        req2.normalize_fingerprints req2.layer_whitelist).X
      (group_by_layer (build_fingerprints ν g req2.fingerprint_source
        req2.normalize_fingerprints req2.layer_whitelist).layers)
      ⟨DSU.init (build_fingerprints ν g req2.fingerprint_source
        req2.normalize_fingerprints req2.layer_whitelist).fids, [], []⟩ 0
    with e1 | stc1 <;>
    rcases h2 : runLayers ν req2
      (build_fingerprints ν g req2.fingerprint_source
        req2.normalize_fingerprints req2.layer_whitelist).fids
      (build_fingerprints ν g req2.fingerprint_source
        req2.normalize_fingerprints req2.layer_whitelist).X
      (group_by_layer (build_fingerprints ν g req2.fingerprint_source
        req2.normalize_fingerprints req2.layer_whitelist).layers)
      ⟨DSU.init (build_fingerprints ν g req2.fingerprint_source
        req2.normalize_fingerprints req2.layer_whitelist).fids, [], []⟩ 0
    with e2 | stc2 <;>
    rw [h1, h2] at hrl <;> simp only [Except.map] at hrl
  · cases hrl
    rfl
  · cases hrl
  · cases hrl
  · obtain ⟨st1, n1⟩ := stc1
    obtain ⟨sd1, sl1, sp1⟩ := st1
    obtain ⟨st2, n2⟩ := stc2
    obtain ⟨sd2, sl2, sp2⟩ := st2
    simp only [phaseKey, Except.ok.injEq, Prod.mk.injEq] at hrl
    obtain ⟨⟨hd, hmap, hp⟩, hn⟩ := hrl
    subst hd hp hn
    simp only [Except.map, runKey, hmap]

/-- C10 (amended): the placeholder gate is total at the default bounds.  For
every id pair and seed the hash value `stable_pair_hash` lies in `[0, 1)`,
hence the derived mean correlation lies in `[0.9, 1)` and the divergence gap
in `(0, 0.02]`, so at `alpha = 0.90`, `beta = 0.05` the reject (`none`) branch
of `_apply_gates` is unreachable; consequently enabling the gate changes no
accepted merge, no snapshot, no candidate count, and no final grouping of any
run.  The claim's "enabling the gate changes nothing" is nevertheless false
verbatim: the gate changes the logged `mean_corr`/`ce_gap` metrics of the
merge events (see the counterexample). -/
theorem c10_placeholder_gate (ν : List (List ℚ) → List (List ℚ)) (g : Graph)
    (req : RunRequest) (hα : req.alpha = 90 / 100) (hβ : req.beta = 5 / 100)
    (u v : String) (score : ℚ) (layer seed : ℤ) :
    (0 ≤ stable_pair_hash u v seed ∧ stable_pair_hash u v seed < 1) ∧
    (∃ mc : ℚ × ℚ,
      apply_gates u v score layer seed req.alpha req.beta = some mc ∧
      9 / 10 ≤ mc.1 ∧ mc.1 < 1 ∧ 0 < mc.2 ∧ mc.2 ≤ 1 / 50) ∧
    (run_pipeline ν g { req with gate_enabled := true }).map runKey =
      (run_pipeline ν g { req with gate_enabled := false }).map runKey := by
  refine ⟨stable_pair_hash_bounds u v seed, ?_, ?_⟩
  · rw [hα, hβ]
    exact apply_gates_defaults u v score layer seed
  · exact run_pipeline_gate ν g rfl hα hβ rfl rfl rfl rfl rfl rfl rfl rfl rfl

-- C10 counterexample: the identical run with the gate enabled logs hash-
-- derived mean_corr/ce_gap values while the gate-off run logs the fixed
-- (1, 0), so "enabling the gate changes nothing" fails on the merge log.
unseal Rat.inv Rat.mul Rat.add Rat.sub in
set_option maxRecDepth 100000 in
theorem c10_counterexample :
    c10_req_on = { c10_req_off with gate_enabled := true } ∧
    (run_pipeline id c10_graph c10_req_on).map
      (fun st => st.merge_log.map fun e => (e.mean_corr, e.ce_gap)) =
      .ok [(4697848230691 / 5000000000000, 302151769309 / 25000000000000)] ∧
    (run_pipeline id c10_graph c10_req_off).map
      (fun st => st.merge_log.map fun e => (e.mean_corr, e.ce_gap)) =
      .ok [(1, 0)] := by
  exact ⟨rfl, by decide, by decide⟩

-- Witness for the amended C10 at the default request and seed.
theorem c10_placeholder_gate_witness :
    (0 ≤ stable_pair_hash "a" "b" 123 ∧ stable_pair_hash "a" "b" 123 < 1) ∧
    (∃ mc : ℚ × ℚ,
      apply_gates "a" "b" 1 0 123 c10_req_off.alpha c10_req_off.beta =
        some mc ∧
      9 / 10 ≤ mc.1 ∧ mc.1 < 1 ∧ 0 < mc.2 ∧ mc.2 ≤ 1 / 50) ∧
    (run_pipeline id c10_graph { c10_req_off with gate_enabled := true }).map
        runKey =
      (run_pipeline id c10_graph { c10_req_off with gate_enabled := false }).map
        runKey :=
  c10_placeholder_gate id c10_graph c10_req_off rfl rfl "a" "b" 1 0 123

/-! ## Claim C6: the fidelity-gate admission rule -/

theorem sxx_pos {l : List ℚ} (h : 0 < varQ l) : 0 < sxx l := by
  unfold varQ at h
  rcases div_pos_iff.mp h with ⟨hS, _⟩ | ⟨_, hn⟩
  · exact hS
  · exact absurd hn (not_lt.mpr (by positivity))

theorem corrGeB_iff {x y : List ℚ} (hx : 0 < sxx x) (hy : 0 < sxx y) (a : ℚ) :
    corrGeB x y a = true ↔
      (a : ℝ) ≤ (sxy x y : ℝ) / Real.sqrt ((sxx x : ℝ) * (sxx y : ℝ)) := by
  have hxR : (0 : ℝ) < (sxx x : ℝ) := by exact_mod_cast hx
  have hyR : (0 : ℝ) < (sxx y : ℝ) := by exact_mod_cast hy
  have hprod : (0 : ℝ) < (sxx x : ℝ) * (sxx y : ℝ) := mul_pos hxR hyR
  have hDpos : 0 < Real.sqrt ((sxx x : ℝ) * (sxx y : ℝ)) :=
    Real.sqrt_pos.mpr hprod
  have hD2 : Real.sqrt ((sxx x : ℝ) * (sxx y : ℝ)) ^ 2 =
      (sxx x : ℝ) * (sxx y : ℝ) := Real.sq_sqrt hprod.le
  rw [le_div_iff₀ hDpos]
  unfold corrGeB
  by_cases hc : 0 ≤ sxy x y
  · rw [if_pos hc]
    have hcR : (0 : ℝ) ≤ (sxy x y : ℝ) := by exact_mod_cast hc
    simp only [Bool.or_eq_true, decide_eq_true_eq]
    constructor
    · rintro (ha | hsq)
      · have haR : (a : ℝ) ≤ 0 := by exact_mod_cast ha
        nlinarith
      · by_cases ha : a ≤ 0
        · have haR : (a : ℝ) ≤ 0 := by exact_mod_cast ha
          nlinarith
        · push_neg at ha
          have haR : (0 : ℝ) < (a : ℝ) := by exact_mod_cast ha
          have hsqR : (a : ℝ) ^ 2 * ((sxx x : ℝ) * (sxx y : ℝ)) ≤
              (sxy x y : ℝ) ^ 2 := by exact_mod_cast hsq
          nlinarith [mul_pos haR hDpos]
    · intro h
      by_cases ha : a ≤ 0
      · exact Or.inl ha
      · push_neg at ha
        have haR : (0 : ℝ) < (a : ℝ) := by exact_mod_cast ha
        refine Or.inr ?_
        have hsqR : (a : ℝ) ^ 2 * ((sxx x : ℝ) * (sxx y : ℝ)) ≤
            (sxy x y : ℝ) ^ 2 := by nlinarith [mul_pos haR hDpos]
        exact_mod_cast hsqR
  · rw [if_neg hc]
    push_neg at hc
    have hcR : (sxy x y : ℝ) < 0 := by exact_mod_cast hc
    simp only [Bool.and_eq_true, decide_eq_true_eq]
    constructor
    · rintro ⟨ha, hsq⟩
      have haR : (a : ℝ) ≤ 0 := by exact_mod_cast ha
      have hsqR : (sxy x y : ℝ) ^ 2 ≤
          (a : ℝ) ^ 2 * ((sxx x : ℝ) * (sxx y : ℝ)) := by exact_mod_cast hsq
      nlinarith [mul_nonpos_of_nonpos_of_nonneg haR hDpos.le]
    · intro h
      have haD : (a : ℝ) * Real.sqrt ((sxx x : ℝ) * (sxx y : ℝ)) < 0 :=
        lt_of_le_of_lt h hcR
      have haR : (a : ℝ) ≤ 0 := by nlinarith
      constructor
      · exact_mod_cast haR
      · have hsqR : (sxy x y : ℝ) ^ 2 ≤
            (a : ℝ) ^ 2 * ((sxx x : ℝ) * (sxx y : ℝ)) := by nlinarith
        exact_mod_cast hsqR

theorem gate_corr_pass_iff (cfg : SRConfig) (fp1 fp2 : NodeFingerprint) :
    gate_corr_pass cfg fp1 fp2 = true ↔
      (cfg.alpha : ℝ) ≤ corrMetric fp1 fp2 := by
  unfold gate_corr_pass corrMetric
  by_cases h1 : fp1.fingerprint.length = fp2.fingerprint.length ∧
      2 ≤ fp1.fingerprint.length
  · rw [if_pos h1, if_pos h1]
    by_cases h2 : 0 < varQ fp1.fingerprint ∧ 0 < varQ fp2.fingerprint
    · rw [if_pos h2, if_pos h2]
      exact corrGeB_iff (sxx_pos h2.1) (sxx_pos h2.2) cfg.alpha
    · rw [if_neg h2, if_neg h2]
      by_cases h3 : allcloseQ fp1.fingerprint fp2.fingerprint = true
      · rw [if_pos h3, if_pos h3]
        rw [decide_eq_true_eq]
        exact_mod_cast Iff.rfl
      · rw [if_neg h3, if_neg h3]
        rw [decide_eq_true_eq]
        exact_mod_cast Iff.rfl
  · rw [if_neg h1, if_neg h1]
    rw [decide_eq_true_eq]
    exact_mod_cast Iff.rfl

/-- C6 (amended/corrected): `fidelity_gate` admits a candidate iff its
real-valued mean-correlation metric is ≥ `alpha` and its CE-gap metric is
≤ `beta`; on the degenerate paths the metric is the safe constant `0` or `1`
(no NaN or infinity is ever produced: under positive variances the Pearson
denominator is positive, and `np.corrcoef`'s NaN branch is dead); and when a
variance is zero the metric is `1` exactly when the vectors are *numerically
close* in the `np.allclose` sense — not, as the spec says, when they are
identical (see the counterexample). -/
theorem c6_gate_admission (cfg : SRConfig) (fps : String → NodeFingerprint)
    (cands : List MergeCandidate) (c : MergeCandidate) :
    (c ∈ fidelity_gate cfg fps cands ↔
      c ∈ cands ∧
        (cfg.alpha : ℝ) ≤ corrMetric (fps c.node1_id) (fps c.node2_id) ∧
        gate_ce_gap (fps c.node1_id) (fps c.node2_id) ≤ cfg.beta) ∧
    (∀ fp1 fp2 : NodeFingerprint,
      ¬ (0 < varQ fp1.fingerprint ∧ 0 < varQ fp2.fingerprint) →
      corrMetric fp1 fp2 = 0 ∨ corrMetric fp1 fp2 = 1) ∧
    (∀ fp1 fp2 : NodeFingerprint,
      fp1.fingerprint.length = fp2.fingerprint.length →
      2 ≤ fp1.fingerprint.length →
      ¬ (0 < varQ fp1.fingerprint ∧ 0 < varQ fp2.fingerprint) →
      (corrMetric fp1 fp2 = 1 ↔
        allcloseQ fp1.fingerprint fp2.fingerprint = true)) := by
  refine ⟨?_, ?_, ?_⟩
  · rw [fidelity_gate, List.mem_filter, Bool.and_eq_true, decide_eq_true_eq,
      gate_corr_pass_iff]
  · intro fp1 fp2 h2
    unfold corrMetric
    by_cases h1 : fp1.fingerprint.length = fp2.fingerprint.length ∧
        2 ≤ fp1.fingerprint.length
    · rw [if_pos h1, if_neg h2]
      by_cases h3 : allcloseQ fp1.fingerprint fp2.fingerprint = true
      · rw [if_pos h3]
        exact Or.inr rfl
      · rw [if_neg h3]
        exact Or.inl rfl
    · rw [if_neg h1]
      exact Or.inl rfl
  · intro fp1 fp2 hl hd h2
    unfold corrMetric
    rw [if_pos ⟨hl, hd⟩, if_neg h2]
    by_cases h3 : allcloseQ fp1.fingerprint fp2.fingerprint = true
    · rw [if_pos h3]
      simp [h3]
    · rw [if_neg h3]
      simp [h3]

-- C6 counterexample: two constant vectors `[0, 0]` and `[1e-9, 1e-9]` are
-- distinct, both have zero variance, and are np.allclose, so the gate treats
-- their correlation as 1 and admits the pair at `alpha = 0.9` — under the
-- spec's "identical" rule the correlation would be 0 and the pair rejected.
unseal Rat.inv Rat.mul Rat.add Rat.sub in
theorem c6_counterexample :
    c6_fp1.fingerprint ≠ c6_fp2.fingerprint ∧
    varQ c6_fp1.fingerprint = 0 ∧ varQ c6_fp2.fingerprint = 0 ∧
    allcloseQ c6_fp1.fingerprint c6_fp2.fingerprint = true ∧
    (0 : ℚ) < c6_cfg.alpha ∧
    fidelity_gate c6_cfg c6_fps [c6_cand] = [c6_cand] ∧
    corrMetric c6_fp1 c6_fp2 = 1 := by
  refine ⟨by decide, by decide, by decide, by decide, by decide, by decide, ?_⟩
  unfold corrMetric
  rw [if_pos (by decide), if_neg (by decide), if_pos (by decide)]

/-! ## Claim C1: determinism of a run -/

theorem charListLt_cons_nil (a : Char) (as : List Char) :
    charListLt (a :: as) [] = false := rfl

theorem charListLt_nil_cons (b : Char) (bs : List Char) :
    charListLt [] (b :: bs) = true := rfl

theorem charListLt_cons_cons (a b : Char) (as bs : List Char) :
    charListLt (a :: as) (b :: bs) =
      if a.toNat < b.toNat then true
      else if b.toNat < a.toNat then false
      else charListLt as bs := rfl

theorem charListLt_asymm : ∀ {x y : List Char},
    charListLt x y = true → charListLt y x = false := by
  intro x
  induction x with
  | nil =>
    intro y h
    cases y with
    | nil => exact absurd h (by decide)
    | cons b bs => rfl
  | cons a as ih =>
    intro y h
    cases y with
    | nil => rw [charListLt_cons_nil] at h; cases h
    | cons b bs =>
      rw [charListLt_cons_cons] at h
      rw [charListLt_cons_cons]
      by_cases h1 : a.toNat < b.toNat
      · rw [if_neg (by omega), if_pos h1]
      · rw [if_neg h1] at h
        by_cases h2 : b.toNat < a.toNat
        · rw [if_pos h2] at h
          cases h
        · rw [if_neg h2] at h
          rw [if_neg h2, if_neg h1]
          exact ih h

theorem charListLt_notLt_trans : ∀ {c b a : List Char},
    charListLt b a = false → charListLt c b = false →
    charListLt c a = false := by
  intro c
  induction c with
  | nil =>
    intro b a h1 h2
    cases b with
    | nil =>
      cases a with
      | nil => rfl
      | cons a0 as => exact absurd h1 (by simp [charListLt_nil_cons])
    | cons b0 bs => exact absurd h2 (by simp [charListLt_nil_cons])
  | cons c0 cs ih =>
    intro b a h1 h2
    cases a with
    | nil => rfl
    | cons a0 as =>
      cases b with
      | nil => exact absurd h1 (by simp [charListLt_nil_cons])
      | cons b0 bs =>
        rw [charListLt_cons_cons] at h1 h2 ⊢
        by_cases hba : b0.toNat < a0.toNat
        · rw [if_pos hba] at h1
          cases h1
        · by_cases hcb : c0.toNat < b0.toNat
          · rw [if_pos hcb] at h2
            cases h2
          · rw [if_neg hba] at h1
            rw [if_neg hcb] at h2
            rw [if_neg (by omega)]
            by_cases hac : a0.toNat < c0.toNat
            · rw [if_pos hac]
            · rw [if_neg hac]
              have hab : ¬ a0.toNat < b0.toNat := by omega
              have hbc : ¬ b0.toNat < c0.toNat := by omega
              rw [if_neg hab] at h1
              rw [if_neg hbc] at h2
              exact ih h1 h2

theorem char_eq_of_toNat_eq {a b : Char} (h : a.toNat = b.toNat) : a = b := by
  rw [← Char.ofNat_toNat a, ← Char.ofNat_toNat b, h]

theorem charListLt_eq : ∀ {x y : List Char},
    charListLt x y = false → charListLt y x = false → x = y := by
  intro x
  induction x with
  | nil =>
    intro y h1 h2
    cases y with
    | nil => rfl
    | cons b bs => exact absurd h1 (by simp [charListLt_nil_cons])
  | cons a as ih =>
    intro y h1 h2
    cases y with
    | nil => exact absurd h2 (by simp [charListLt_nil_cons])
    | cons b bs =>
      rw [charListLt_cons_cons] at h1 h2
      by_cases hab : a.toNat < b.toNat
      · rw [if_pos hab] at h1
        cases h1
      · by_cases hba : b.toNat < a.toNat
        · rw [if_pos hba] at h2
          cases h2
        · rw [if_neg hab, if_neg hba] at h1
          rw [if_neg hba, if_neg hab] at h2
          rw [char_eq_of_toNat_eq (by omega : a.toNat = b.toNat), ih h1 h2]

theorem pyStrLe_total (a b : String) : pyStrLe a b = true ∨ pyStrLe b a = true := by
  cases hcb : charListLt b.data a.data with
  | false =>
    left
    unfold pyStrLe pyStrLt
    rw [hcb]
    rfl
  | true =>
    right
    unfold pyStrLe pyStrLt
    rw [charListLt_asymm hcb]
    rfl

theorem pyStrLe_trans {a b c : String} (h1 : pyStrLe a b = true)
    (h2 : pyStrLe b c = true) : pyStrLe a c = true := by
  unfold pyStrLe pyStrLt at h1 h2 ⊢
  rw [Bool.not_eq_true'] at h1 h2 ⊢
  exact charListLt_notLt_trans h1 h2

theorem pyStrLe_antisymm {a b : String} (h1 : pyStrLe a b = true)
    (h2 : pyStrLe b a = true) : a = b := by
  unfold pyStrLe pyStrLt at h1 h2
  rw [Bool.not_eq_true'] at h1 h2
  have := charListLt_eq h2 h1
  cases a
  cases b
  congr 1

theorem pairLe_total (fids : List String) (idxs : List ℕ) (a b : ℕ × ℕ × ℚ) :
    pairLe fids idxs a b = true ∨ pairLe fids idxs b a = true := by
  unfold pairLe
  by_cases hs : a.2.2 = b.2.2
  · rw [if_pos hs, if_pos hs.symm]
    exact pyStrLe_total _ _
  · rw [if_neg hs, if_neg (Ne.symm hs)]
    rcases le_total b.2.2 a.2.2 with h | h
    · exact Or.inl (decide_eq_true h)
    · exact Or.inr (decide_eq_true h)

theorem pairLe_trans (fids : List String) (idxs : List ℕ) (a b c : ℕ × ℕ × ℚ)
    (h1 : pairLe fids idxs a b = true) (h2 : pairLe fids idxs b c = true) :
    pairLe fids idxs a c = true := by
  unfold pairLe at h1 h2 ⊢
  by_cases hab : a.2.2 = b.2.2 <;> by_cases hbc : b.2.2 = c.2.2
  · rw [if_pos hab] at h1
    rw [if_pos hbc] at h2
    rw [if_pos (hab.trans hbc)]
    exact pyStrLe_trans h1 h2
  · rw [if_neg hbc] at h2
    have hlt : c.2.2 < b.2.2 :=
      lt_of_le_of_ne (of_decide_eq_true h2) fun h => hbc h.symm
    rw [if_neg (show ¬ a.2.2 = c.2.2 from by rw [hab]; exact ne_of_gt hlt)]
    exact decide_eq_true (by rw [hab]; exact hlt.le)
  · rw [if_neg hab] at h1
    have hlt : b.2.2 < a.2.2 :=
      lt_of_le_of_ne (of_decide_eq_true h1) fun h => hab h.symm
    rw [if_neg (show ¬ a.2.2 = c.2.2 from by rw [← hbc]; exact ne_of_gt hlt)]
    exact decide_eq_true (by rw [← hbc]; exact hlt.le)
  · rw [if_neg hab] at h1
    rw [if_neg hbc] at h2
    have hlt1 : b.2.2 < a.2.2 :=
      lt_of_le_of_ne (of_decide_eq_true h1) fun h => hab h.symm
    have hlt2 : c.2.2 < b.2.2 :=
      lt_of_le_of_ne (of_decide_eq_true h2) fun h => hbc h.symm
    rw [if_neg (ne_of_gt (hlt2.trans hlt1))]
    exact decide_eq_true (hlt2.trans hlt1).le

theorem pairLe_antisymm_key (fids : List String) (idxs : List ℕ)
    {a b : ℕ × ℕ × ℚ} (h1 : pairLe fids idxs a b = true)
    (h2 : pairLe fids idxs b a = true) :
    pairKeyStr fids idxs a = pairKeyStr fids idxs b := by
  unfold pairLe at h1 h2
  by_cases hs : a.2.2 = b.2.2
  · rw [if_pos hs] at h1
    rw [if_pos hs.symm] at h2
    exact pyStrLe_antisymm h1 h2
  · rw [if_neg hs] at h1
    rw [if_neg (Ne.symm hs)] at h2
    exact absurd (le_antisymm (of_decide_eq_true h2) (of_decide_eq_true h1)) hs

theorem sorted_perm_eq {α : Type} {le : α → α → Bool} :
    ∀ {l1 l2 : List α}, l1.Perm l2 →
    List.Pairwise (fun a b => le a b = true) l1 →
    List.Pairwise (fun a b => le a b = true) l2 →
    (∀ a ∈ l1, ∀ b ∈ l1, le a b = true → le b a = true → a = b) →
    l1 = l2 := by
  intro l1
  induction l1 with
  | nil =>
    intro l2 hp _ _ _
    exact hp.nil_eq
  | cons a t1 ih =>
    intro l2 hp h1 h2 hanti
    cases l2 with
    | nil => exact absurd hp.symm.nil_eq (by simp)
    | cons b t2 =>
      by_cases hab : a = b
      · subst hab
        have hp' := hp.cons_inv
        obtain ⟨_, h1'⟩ := List.pairwise_cons.mp h1
        obtain ⟨_, h2'⟩ := List.pairwise_cons.mp h2
        rw [ih hp' h1' h2' fun x hx y hy =>
          hanti x (List.mem_cons_of_mem _ hx) y (List.mem_cons_of_mem _ hy)]
      · have ha2 : a ∈ t2 := by
          have hm := hp.subset (List.mem_cons_self a t1)
          rcases List.mem_cons.mp hm with h | h
          · exact absurd h hab
          · exact h
        have hb1m : b ∈ t1 := by
          have hm := hp.symm.subset (List.mem_cons_self b t2)
          rcases List.mem_cons.mp hm with h | h
          · exact absurd h.symm hab
          · exact h
        obtain ⟨ha1, _⟩ := List.pairwise_cons.mp h1
        obtain ⟨hb2, _⟩ := List.pairwise_cons.mp h2
        exact absurd (hanti a (List.mem_cons_self _ _) b
          (List.mem_cons_of_mem _ hb1m) (ha1 b hb1m) (hb2 a ha2)) hab

theorem stableSort_eq_of_perm {α : Type} {le : α → α → Bool}
    (htrans : ∀ a b c, le a b = true → le b c = true → le a c = true)
    (htot : ∀ a b, le a b = true ∨ le b a = true) {l l' : List α}
    (hp : l.Perm l')
    (hanti : ∀ a ∈ l, ∀ b ∈ l, le a b = true → le b a = true → a = b) :
    stableSort le l = stableSort le l' := by
  refine sorted_perm_eq
    ((stableSort_perm le l).trans (hp.trans (stableSort_perm le l').symm))
    (stableSort_pairwise htrans htot l) (stableSort_pairwise htrans htot l')
    fun a ha b hb hle1 hle2 =>
      hanti a ((stableSort_perm le l).subset ha) b
        ((stableSort_perm le l).subset hb) hle1 hle2

/-- C1: `run_pipeline` is a deterministic pure function of its inputs — two
executions with identical graph, configuration, and seed yield identical merge
logs and identical parent snapshots — and the candidate processing order is
pinned with no tie-break latitude: sorting by `(-score, "u|v")` under the
deterministic string tie-breaker gives the same sorted list for *any*
enumeration order (permutation) of the candidate set whose id-pair keys are
distinct, so no hash-table iteration order can influence the run. -/
theorem c1_determinism (ν : List (List ℚ) → List (List ℚ)) (g : Graph)
    (req : RunRequest) (fids : List String) (idxs : List ℕ)
    (pairs1 pairs2 : List (ℕ × ℕ × ℚ)) (hperm : pairs1.Perm pairs2)
    (hkeys : (pairs1.map (pairKeyStr fids idxs)).Nodup) :
    (∀ st st' : RunState, run_pipeline ν g req = .ok st →
        run_pipeline ν g req = .ok st' →
        st.merge_log = st'.merge_log ∧
        st.parent_snapshots = st'.parent_snapshots) ∧
    stableSort (pairLe fids idxs) pairs1 =
      stableSort (pairLe fids idxs) pairs2 := by
  constructor
  · intro st st' h1 h2
    rw [h1] at h2
    cases h2
    exact ⟨rfl, rfl⟩
  · exact stableSort_eq_of_perm (pairLe_trans fids idxs)
      (pairLe_total fids idxs) hperm fun a ha b hb hle1 hle2 =>
        List.inj_on_of_nodup_map hkeys ha hb
          (pairLe_antisymm_key fids idxs hle1 hle2)

-- Witness for C1 on a concrete run and a concretely permuted pair list.
theorem c1_determinism_witness :
    (∀ st st' : RunState, run_pipeline id c1_graph c1_req = .ok st →
        run_pipeline id c1_graph c1_req = .ok st' →
        st.merge_log = st'.merge_log ∧
        st.parent_snapshots = st'.parent_snapshots) ∧
    stableSort (pairLe ["a", "b"] [0, 1]) [(0, 1, (1 : ℚ)), (0, 0, 2)] =
      stableSort (pairLe ["a", "b"] [0, 1]) [(0, 0, (2 : ℚ)), (0, 1, 1)] :=
  c1_determinism id c1_graph c1_req ["a", "b"] [0, 1]
    [(0, 1, (1 : ℚ)), (0, 0, 2)] [(0, 0, (2 : ℚ)), (0, 1, 1)]
    (List.Perm.swap _ _ _) (by decide)

/-! ## Claim C9: monotonicity over replay steps -/

theorem upsert_keys {κ α : Type} [DecidableEq κ] (m : List (κ × List α))
    (k : κ) (v : α) :
    (upsert m k v).map Prod.fst =
      if k ∈ m.map Prod.fst then m.map Prod.fst
      else m.map Prod.fst ++ [k] := by
  induction m with
  | nil => simp [upsert]
  | cons p rest ih =>
    obtain ⟨k0, vs⟩ := p
    by_cases h : k0 = k
    · subst h
      have he : upsert ((k0, vs) :: rest) k0 v = (k0, vs ++ [v]) :: rest :=
        if_pos rfl
      rw [he]
      simp
    · have he : upsert ((k0, vs) :: rest) k v = (k0, vs) :: upsert rest k v :=
        if_neg h
      rw [he]
      simp only [List.map_cons, ih]
      by_cases hm : k ∈ rest.map Prod.fst
      · rw [if_pos hm, if_pos (by simp [hm])]
      · rw [if_neg hm, if_neg (by simp [hm, Ne.symm h])]
        rfl

theorem foldl_upsert_keys {κ : Type} [DecidableEq κ] (key : ℕ → κ) :
    ∀ (l : List ℕ) (m : List (κ × List ℕ)), (m.map Prod.fst).Nodup →
    ((l.foldl (fun d i => upsert d (key i) i) m).map Prod.fst).Nodup ∧
    ((l.foldl (fun d i => upsert d (key i) i) m).map Prod.fst).toFinset =
      (m.map Prod.fst).toFinset ∪ (l.map key).toFinset := by
  intro l
  induction l with
  | nil =>
    intro m hm
    simp [hm]
  | cons i rest ih =>
    intro m hm
    have hstep : (upsert m (key i) i).map Prod.fst =
        if key i ∈ m.map Prod.fst then m.map Prod.fst
        else m.map Prod.fst ++ [key i] := upsert_keys m (key i) i
    have hnodup : ((upsert m (key i) i).map Prod.fst).Nodup := by
      rw [hstep]
      by_cases h : key i ∈ m.map Prod.fst
      · rw [if_pos h]
        exact hm
      · rw [if_neg h]
        simp [List.nodup_append, hm, h]
    obtain ⟨h1, h2⟩ := ih (upsert m (key i) i) hnodup
    rw [List.foldl_cons]
    refine ⟨h1, ?_⟩
    rw [h2, hstep]
    by_cases h : key i ∈ m.map Prod.fst
    · rw [if_pos h]
      ext x
      simp only [Finset.mem_union, List.mem_toFinset, List.map_cons,
        List.mem_cons]
      constructor
      · rintro (hx | hx)
        · exact Or.inl hx
        · right
          right
          exact hx
      · rintro (hx | hx | hx)
        · exact Or.inl hx
        · subst hx
          exact Or.inl h
        · exact Or.inr hx
    · rw [if_neg h]
      ext x
      simp only [Finset.mem_union, List.mem_toFinset, List.mem_append,
        List.map_cons, List.mem_cons, List.not_mem_nil, or_false]
      constructor
      · rintro ((hx | hx) | hx)
        · exact Or.inl hx
        · right
          left
          exact hx
        · right
          right
          exact hx
      · rintro (hx | hx | hx)
        · exact Or.inl (Or.inl hx)
        · exact Or.inl (Or.inr hx)
        · exact Or.inr hx

theorem build_groups_length (parents : List ℕ) :
    (build_groups_from_parents parents).length =
      ((List.range parents.length).map fun i =>
        parents.getD i 0).toFinset.card := by
  obtain ⟨hnd, hset⟩ := foldl_upsert_keys (fun i => parents.getD i 0)
    (List.range parents.length) [] (by simp)
  unfold build_groups_from_parents
  rw [show (List.foldl (fun d i => upsert d (parents.getD i 0) i) []
        (List.range parents.length)).length =
      ((List.foldl (fun d i => upsert d (parents.getD i 0) i) []
        (List.range parents.length)).map Prod.fst).length by simp]
  rw [← List.toFinset_card_of_nodup hnd, hset]
  simp


theorem range_getD_image_card (n : ℕ) :
    ((List.range n).map fun i => (List.range n).getD i 0).toFinset.card = n := by
  have hmap : ((List.range n).map fun i => (List.range n).getD i 0) =
      List.range n := by
    apply List.ext_getElem (by simp)
    intro i h1 h2
    simp only [List.getElem_map]
    rw [List.getD_eq_getElem _ _ (by simpa using h2), List.getElem_range,
      List.getElem_range]
  rw [hmap, List.toFinset_card_of_nodup (List.nodup_range n)]
  exact List.length_range n

theorem rootP_image_card {p : List ℕ} (hwf : WFp p) :
    ((List.range p.length).map (rootP p)).toFinset.card = rootCount p := by
  have hset : ((List.range p.length).map (rootP p)).toFinset =
      ((List.range p.length).filter fun i => decide (isRootP p i)).toFinset := by
    ext x
    simp only [List.mem_toFinset, List.mem_map, List.mem_filter,
      List.mem_range, decide_eq_true_eq]
    constructor
    · rintro ⟨i, hi, rfl⟩
      exact ⟨rootP_lt hwf hi, rootP_isRoot hwf i⟩
    · rintro ⟨hx, hroot⟩
      exact ⟨x, hx, rootP_of_isRoot hroot⟩
  rw [hset, List.toFinset_card_of_nodup ((List.nodup_range _).filter _)]
  unfold rootCount
  rw [List.countP_eq_length_filter]

theorem rootCount_pos {p : List ℕ} (hwf : WFp p) (hn : 0 < p.length) :
    0 < rootCount p := by
  have hroot : isRootP p (rootP p 0) := rootP_isRoot hwf 0
  have hlt : rootP p 0 < p.length := rootP_lt hwf hn
  unfold rootCount
  rw [List.countP_eq_length_filter]
  exact List.length_pos_of_mem (List.mem_filter.mpr
    ⟨List.mem_range.mpr hlt, decide_eq_true hroot⟩)

theorem rootCount_range (n : ℕ) : rootCount (List.range n) = n := by
  have hall : ∀ i ∈ List.range n,
      (fun i => decide (isRootP (List.range n) i)) i = true := by
    intro i hi
    simp only [decide_eq_true_eq]
    unfold isRootP
    by_cases h : i < n
    · rw [List.getD_eq_getElem _ _ (by simpa using h), List.getElem_range]
    · rw [List.getD_eq_default _ _ (by simpa using h)]
  have h := List.countP_eq_length.mpr hall
  unfold rootCount
  rw [List.length_range, h, List.length_range]


theorem index_of_foldl_lt {items : List String} {x : String} :
    ∀ (l : List ℕ) (acc : Option ℕ),
    (∀ j, acc = some j → j < items.length) → (∀ i ∈ l, i < items.length) →
    ∀ j, l.foldl (fun acc i => if items.getD i "" = x then some i else acc)
      acc = some j → j < items.length := by
  intro l
  induction l with
  | nil =>
    intro acc hacc _ j hj
    exact hacc j hj
  | cons i rest ih =>
    intro acc hacc hl j hj
    rw [List.foldl_cons] at hj
    refine ih _ ?_ (fun i hi => hl i (List.mem_cons_of_mem _ hi)) j hj
    intro j' hj'
    by_cases h : items.getD i "" = x
    · rw [if_pos h] at hj'
      cases hj'
      exact hl i (List.mem_cons_self _ _)
    · rw [if_neg h] at hj'
      exact hacc j' hj'

theorem index_of_foldl_isSome {items : List String} {x : String} :
    ∀ (l : List ℕ) (acc : Option ℕ),
    (acc.isSome = true ∨ ∃ i ∈ l, items.getD i "" = x) →
    (l.foldl (fun acc i => if items.getD i "" = x then some i else acc)
      acc).isSome = true := by
  intro l
  induction l with
  | nil =>
    intro acc h
    rcases h with h | ⟨i, hi, _⟩
    · exact h
    · cases hi
  | cons i rest ih =>
    intro acc h
    rw [List.foldl_cons]
    by_cases hm : items.getD i "" = x
    · refine ih _ (Or.inl ?_)
      rw [if_pos hm]
      rfl
    · refine ih _ ?_
      rw [if_neg hm]
      rcases h with h | ⟨i', hi', hx'⟩
      · exact Or.inl h
      · rcases List.mem_cons.mp hi' with rfl | hi2
        · exact absurd hx' hm
        · exact Or.inr ⟨i', hi2, hx'⟩

theorem toIndex_lt (d : DSU) (x : String) (hx : x ∈ d.items) :
    d.toIndex x < d.items.length := by
  obtain ⟨i, hi, hget⟩ := List.mem_iff_getElem.mp hx
  have hsome : (index_of d.items x).isSome = true := by
    unfold index_of
    refine index_of_foldl_isSome _ none (Or.inr ⟨i, List.mem_range.mpr hi, ?_⟩)
    rw [List.getD_eq_getElem _ _ hi]
    exact hget
  obtain ⟨j, hj⟩ := Option.isSome_iff_exists.mp hsome
  have hjl : j < d.items.length := by
    unfold index_of at hj
    exact index_of_foldl_lt _ none (by intro j h; cases h)
      (fun i hi => List.mem_range.mp hi) j hj
  unfold DSU.toIndex
  rw [hj]
  exact hjl

theorem memVals_foldl_upsert {κ : Type} [DecidableEq κ] (keyf : ℕ → κ) :
    ∀ (l : List ℕ) (acc : List (κ × List ℕ)) (x : ℕ),
    memVals (l.foldl (fun m i => upsert m (keyf i) i) acc) x →
    memVals acc x ∨ x ∈ l := by
  intro l
  induction l with
  | nil =>
    intro acc x h
    exact Or.inl h
  | cons i rest ih =>
    intro acc x h
    rw [List.foldl_cons] at h
    rcases ih _ x h with h2 | h2
    · rcases memVals_upsert h2 with h3 | h3
      · exact Or.inl h3
      · exact Or.inr (by rw [h3]; exact List.mem_cons_self _ _)
    · exact Or.inr (List.mem_cons_of_mem _ h2)

theorem group_by_layer_mem_lt {layers : List (Option ℤ)}
    {Li : ℤ × List ℕ} (hLi : Li ∈ group_by_layer layers) {i : ℕ}
    (hi : i ∈ Li.2) : i < layers.length := by
  have hmv : memVals (group_by_layer layers) i := ⟨Li, hLi, hi⟩
  unfold group_by_layer at hmv
  rcases memVals_foldl_upsert _ _ _ _ hmv with h | h
  · obtain ⟨kv, hkv, _⟩ := h
    cases hkv
  · exact List.mem_range.mp h

theorem build_fingerprints_len (ν : List (List ℚ) → List (List ℚ)) (g : Graph)
    (fs : String) (nf : Bool) (wl : Option (List ℤ)) :
    (build_fingerprints ν g fs nf wl).layers.length =
      (build_fingerprints ν g fs nf wl).fids.length := by
  simp only [build_fingerprints]
  by_cases hfs : fs = "delta_logit"
  · rw [if_pos hfs]
    rcases hd : delta_logit_vectors_from_meta g with _ | X
    · simp
    · simp
  · rw [if_neg hfs]
    simp


theorem unionLoser_facts {d : DSU} (hwf : d.WF) {a b : ℕ}
    (ha : a < d.items.length) (hb : b < d.items.length) :
    unionLoser d a b < d.parent.length ∧ isRootP d.parent (unionLoser d a b) := by
  have hpl : d.parent.length = d.items.length := hwf.2.1
  unfold unionLoser
  split
  · exact ⟨rootP_lt hwf.1 (by rw [hpl]; exact ha), rootP_isRoot hwf.1 a⟩
  · exact ⟨rootP_lt hwf.1 (by rw [hpl]; exact hb), rootP_isRoot hwf.1 b⟩

theorem getD_map_range {f : ℕ → ℕ} {n i : ℕ} (h : i < n) :
    ((List.range n).map f).getD i 0 = f i := by
  rw [List.getD_eq_getElem _ _ (by simpa using h), List.getElem_map,
    List.getElem_range]

theorem MInv_congr {fids : List String} {st st' : MPhase} (h : MInv fids st)
    (hwf : st'.dsu.WF) (hitems : st'.dsu.items = st.dsu.items)
    (hlen : st'.dsu.parent.length = st.dsu.parent.length)
    (hiso : ∀ x, isRootP st'.dsu.parent x ↔ isRootP st.dsu.parent x)
    (hml : st'.merge_log = st.merge_log)
    (hps : st'.parent_snapshots = st.parent_snapshots) :
    MInv fids st' := by
  obtain ⟨h1, h2, h3, h4, h5⟩ := h
  refine ⟨hwf, hitems.trans h2, ?_, ?_, ?_⟩
  · rw [rootCount_congr hlen hiso, hml]
    exact h3
  · rw [hml, hps]
    exact h4
  · rw [hps]
    exact h5

theorem union_snap_inv {fids : List String} {d2 : DSU} {ml : List MergeEvent}
    {ps : List (List ℕ)} (hinv : MInv fids ⟨d2, ml, ps⟩)
    {ia ib : ℕ} (hia : ia < d2.items.length) (hib : ib < d2.items.length)
    (hne : rootP d2.parent ia ≠ rootP d2.parent ib) (e : MergeEvent) :
    MInv fids ⟨((d2.union ia ib).1.snapshotM).1, ml ++ [e],
      ps ++ [((d2.union ia ib).1.snapshotM).2]⟩ := by
  obtain ⟨hwf, hitems, hroots, hslen, hsnap⟩ := hinv
  dsimp only at hwf hitems hroots hslen hsnap
  obtain ⟨hu2, huitems, huwf, hulen, _, _, _, huroots, huiso⟩ :=
    DSU.union_true_spec d2 hwf ia ib hia hib hne
  obtain ⟨hsval, hswf, hsitems, hssize, hslen2, hsroots, hsiso⟩ :=
    DSU.snapshotM_spec (d2.union ia ib).1 huwf
  obtain ⟨hll, hlr⟩ := unionLoser_facts hwf hia hib
  have hqlen : (d2.union ia ib).1.parent.length = fids.length := by
    rw [hulen, hwf.2.1, hitems]
  have hqcount : rootCount (d2.union ia ib).1.parent + 1 =
      rootCount d2.parent :=
    rootCount_link hulen hll hlr huiso
  have hwcount : rootCount ((d2.union ia ib).1.snapshotM).1.parent =
      rootCount (d2.union ia ib).1.parent :=
    rootCount_congr hslen2 hsiso
  have hn : rootCount d2.parent + ml.length = fids.length := hroots
  have hsnapval : ((d2.union ia ib).1.snapshotM).2 =
      (List.range fids.length).map (rootP (d2.union ia ib).1.parent) := by
    rw [hsval, huitems, hitems]
  refine ⟨hswf, by rw [hsitems, huitems, hitems], ?_, ?_, ?_⟩
  · rw [hwcount]
    simp only [List.length_append, List.length_cons, List.length_nil]
    omega
  · simp only [List.length_append, List.length_cons, List.length_nil]
    omega
  · intro k hk
    simp only [List.length_append, List.length_cons, List.length_nil] at hk
    by_cases hkl : k < ps.length
    · have hgd : (ps ++ [((d2.union ia ib).1.snapshotM).2]).getD k [] =
          ps.getD k [] := List.getD_append _ _ _ _ hkl
      rw [hgd]
      exact hsnap k hkl
    · have hkeq : k = ps.length := by omega
      subst hkeq
      have hgd : (ps ++ [((d2.union ia ib).1.snapshotM).2]).getD ps.length [] =
          ((d2.union ia ib).1.snapshotM).2 := by
        rw [List.getD_append_right _ _ _ _ (le_refl _)]
        simp
      rw [hgd, hsnapval]
      constructor
      · simp
      · have hlist : ((List.range fids.length).map fun i =>
            ((List.range fids.length).map
              (rootP (d2.union ia ib).1.parent)).getD i 0) =
            (List.range fids.length).map (rootP (d2.union ia ib).1.parent) := by
          apply List.ext_getElem (by simp)
          intro i hi1 hi2
          simp only [List.getElem_map, List.getElem_range]
          exact getD_map_range (by simpa using hi2)
        rw [hlist]
        have := rootP_image_card huwf.1
        rw [hqlen] at this
        rw [this]
        omega


theorem mergePairs_inv (req : RunRequest) (fids : List String)
    (idxs : List ℕ) (L : ℤ) :
    ∀ (pairs : List (ℕ × ℕ × ℚ)) (st : MPhase),
    (∀ t ∈ pairs, idxs.getD t.1 0 < fids.length ∧
      idxs.getD t.2.1 0 < fids.length) →
    MInv fids st → MInv fids (mergePairs req fids idxs L pairs st) := by
  intro pairs
  induction pairs with
  | nil =>
    intro st _ h
    exact h
  | cons t rest ih =>
    intro st hidx hinv
    obtain ⟨d, ml, ps⟩ := st
    obtain ⟨hu, hv⟩ := hidx t (List.mem_cons_self _ _)
    have hrest : ∀ t' ∈ rest, idxs.getD t'.1 0 < fids.length ∧
        idxs.getD t'.2.1 0 < fids.length :=
      fun t' ht' => hidx t' (List.mem_cons_of_mem _ ht')
    have hwf0 : d.WF := hinv.1
    have hitems0 : d.items = fids := hinv.2.1
    obtain ⟨f1r, f1wf, f1items, f1size, f1len, f1roots, f1isr⟩ :=
      DSU.find_spec d hwf0 (d.toIndex (fids.getD (idxs.getD t.1 0) ""))
    obtain ⟨f2r, f2wf, f2items, f2size, f2len, f2roots, f2isr⟩ :=
      DSU.find_spec (d.find (d.toIndex (fids.getD (idxs.getD t.1 0) ""))).1 f1wf
        ((d.find (d.toIndex (fids.getD (idxs.getD t.1 0) ""))).1.toIndex
          (fids.getD (idxs.getD t.2.1 0) ""))
    have hinv1 : MInv fids ⟨(d.find
        (d.toIndex (fids.getD (idxs.getD t.1 0) ""))).1, ml, ps⟩ :=
      MInv_congr hinv f1wf f1items f1len f1isr rfl rfl
    have hinv2 : MInv fids ⟨((d.find
        (d.toIndex (fids.getD (idxs.getD t.1 0) ""))).1.find
        ((d.find (d.toIndex (fids.getD (idxs.getD t.1 0) ""))).1.toIndex
          (fids.getD (idxs.getD t.2.1 0) ""))).1, ml, ps⟩ :=
      MInv_congr hinv1 f2wf f2items f2len f2isr rfl rfl
    have hd2items : ((d.find
        (d.toIndex (fids.getD (idxs.getD t.1 0) ""))).1.find
        ((d.find (d.toIndex (fids.getD (idxs.getD t.1 0) ""))).1.toIndex
          (fids.getD (idxs.getD t.2.1 0) ""))).1.items = fids := by
      rw [f2items, f1items, hitems0]
    have hd2wf := f2wf
    have hia : ((d.find
        (d.toIndex (fids.getD (idxs.getD t.1 0) ""))).1.find
        ((d.find (d.toIndex (fids.getD (idxs.getD t.1 0) ""))).1.toIndex
          (fids.getD (idxs.getD t.2.1 0) ""))).1.toIndex
          (fids.getD (idxs.getD t.1 0) "") < ((d.find
        (d.toIndex (fids.getD (idxs.getD t.1 0) ""))).1.find
        ((d.find (d.toIndex (fids.getD (idxs.getD t.1 0) ""))).1.toIndex
          (fids.getD (idxs.getD t.2.1 0) ""))).1.items.length :=
      toIndex_lt _ _ (by rw [hd2items]; exact getD_mem_of_lt hu)
    have hib : ((d.find
        (d.toIndex (fids.getD (idxs.getD t.1 0) ""))).1.find
        ((d.find (d.toIndex (fids.getD (idxs.getD t.1 0) ""))).1.toIndex
          (fids.getD (idxs.getD t.2.1 0) ""))).1.toIndex
          (fids.getD (idxs.getD t.2.1 0) "") < ((d.find
        (d.toIndex (fids.getD (idxs.getD t.1 0) ""))).1.find
        ((d.find (d.toIndex (fids.getD (idxs.getD t.1 0) ""))).1.toIndex
          (fids.getD (idxs.getD t.2.1 0) ""))).1.items.length :=
      toIndex_lt _ _ (by rw [hd2items]; exact getD_mem_of_lt hv)
    simp only [mergePairs]
    split
    next hskip => exact ih _ hrest hinv2
    next hskip =>
      split
      next => exact ih _ hrest hinv2
      next mc hmc =>
        split
        next hun =>
          by_cases hr : rootP ((d.find
              (d.toIndex (fids.getD (idxs.getD t.1 0) ""))).1.find
              ((d.find (d.toIndex (fids.getD (idxs.getD t.1 0) ""))).1.toIndex
                (fids.getD (idxs.getD t.2.1 0) ""))).1.parent
              (((d.find (d.toIndex (fids.getD (idxs.getD t.1 0) ""))).1.find
              ((d.find (d.toIndex (fids.getD (idxs.getD t.1 0) ""))).1.toIndex
                (fids.getD (idxs.getD t.2.1 0) ""))).1.toIndex
                (fids.getD (idxs.getD t.1 0) "")) = rootP ((d.find
              (d.toIndex (fids.getD (idxs.getD t.1 0) ""))).1.find
              ((d.find (d.toIndex (fids.getD (idxs.getD t.1 0) ""))).1.toIndex
                (fids.getD (idxs.getD t.2.1 0) ""))).1.parent
              (((d.find (d.toIndex (fids.getD (idxs.getD t.1 0) ""))).1.find
              ((d.find (d.toIndex (fids.getD (idxs.getD t.1 0) ""))).1.toIndex
                (fids.getD (idxs.getD t.2.1 0) ""))).1.toIndex
                (fids.getD (idxs.getD t.2.1 0) ""))
          · obtain ⟨hfalse, _⟩ := DSU.union_false_spec _ hd2wf _ _ hr
            rw [hfalse] at hun
            cases hun
          · have hnext := union_snap_inv hinv2 hia hib hr
              { u := fids.getD (idxs.getD t.1 0) "",
                v := fids.getD (idxs.getD t.2.1 0) "", score := t.2.2,
                layer := L, mean_corr := mc.1, ce_gap := mc.2 }
            split
            next hbr => exact hnext
            next hbr => exact ih _ hrest hnext
        next hun =>
          by_cases hr : rootP ((d.find
              (d.toIndex (fids.getD (idxs.getD t.1 0) ""))).1.find
              ((d.find (d.toIndex (fids.getD (idxs.getD t.1 0) ""))).1.toIndex
                (fids.getD (idxs.getD t.2.1 0) ""))).1.parent
              (((d.find (d.toIndex (fids.getD (idxs.getD t.1 0) ""))).1.find
              ((d.find (d.toIndex (fids.getD (idxs.getD t.1 0) ""))).1.toIndex
                (fids.getD (idxs.getD t.2.1 0) ""))).1.toIndex
                (fids.getD (idxs.getD t.1 0) "")) = rootP ((d.find
              (d.toIndex (fids.getD (idxs.getD t.1 0) ""))).1.find
              ((d.find (d.toIndex (fids.getD (idxs.getD t.1 0) ""))).1.toIndex
                (fids.getD (idxs.getD t.2.1 0) ""))).1.parent
              (((d.find (d.toIndex (fids.getD (idxs.getD t.1 0) ""))).1.find
              ((d.find (d.toIndex (fids.getD (idxs.getD t.1 0) ""))).1.toIndex
                (fids.getD (idxs.getD t.2.1 0) ""))).1.toIndex
                (fids.getD (idxs.getD t.2.1 0) ""))
          · obtain ⟨_, huitems, huwf, _, hulen, _, huiso⟩ :=
              DSU.union_false_spec _ hd2wf _ _ hr
            exact ih _ hrest (MInv_congr hinv2 huwf huitems hulen huiso rfl rfl)
          · obtain ⟨htrue, _⟩ := DSU.union_true_spec _ hd2wf _ _ hia hib hr
            rw [htrue] at hun
            simp at hun


theorem processLayer_inv {ν : List (List ℚ) → List (List ℚ)}
    {req : RunRequest} {fids : List String} {X : List (List ℚ)}
    {Li : ℤ × List ℕ} {st : MPhase} {st' : MPhase} {c : ℕ}
    (hidx : ∀ i ∈ Li.2, i < fids.length) (hinv : MInv fids st)
    (h : processLayer ν req fids X Li st = .ok (st', c)) : MInv fids st' := by
  simp only [processLayer] at h
  split at h
  · cases h
    exact hinv
  · rcases hS : similarity_matrix ν (Li.2.map fun i => X.getD i [])
        req.similarity_metric with e | S
    · rw [hS] at h
      cases h
    · rw [hS] at h
      dsimp only at h
      cases h
      refine mergePairs_inv req fids Li.2 Li.1 _ st ?_ hinv
      intro t ht
      have ht1 : t ∈ select_topk_above_threshold S Li.2.length req.tau_sim
          req.topk_candidates_per_node := by
        have := (stableSort_perm (pairLe fids Li.2) _).subset ht
        exact mem_of_mem_if_take this
      obtain ⟨l, hl, hcl⟩ := List.mem_flatten.mp ht1
      obtain ⟨i, hir, rfl⟩ := List.mem_map.mp hl
      obtain ⟨hti, _, htj, _, _⟩ := selectRow_mem hcl
      constructor
      · refine hidx _ (getD_mem_of_lt ?_)
        rw [hti]
        exact List.mem_range.mp hir
      · exact hidx _ (getD_mem_of_lt htj)

theorem runLayers_inv {ν : List (List ℚ) → List (List ℚ)}
    {req : RunRequest} {fids : List String} {X : List (List ℚ)} :
    ∀ (l2i : List (ℤ × List ℕ)) (st : MPhase) (cands : ℕ) {st' : MPhase}
    {c : ℕ}, (∀ Li ∈ l2i, ∀ i ∈ Li.2, i < fids.length) → MInv fids st →
    runLayers ν req fids X l2i st cands = .ok (st', c) → MInv fids st' := by
  intro l2i
  induction l2i with
  | nil =>
    intro st cands st' c _ hinv h
    simp only [runLayers] at h
    cases h
    exact hinv
  | cons Li rest ih =>
    intro st cands st' c hins hinv h
    have hstep : runLayers ν req fids X (Li :: rest) st cands =
        match processLayer ν req fids X Li st with
        | .error e => .error e
        | .ok stc =>
          if 0 < req.max_merges ∧ req.max_merges ≤ (stc.1.merge_log.length : ℤ)
          then .ok (stc.1, cands + stc.2)
          else runLayers ν req fids X rest stc.1 (cands + stc.2) := rfl
    rw [hstep] at h
    rcases hP : processLayer ν req fids X Li st with e | sc
    · rw [hP] at h
      cases h
    · rw [hP] at h
      dsimp only at h
      have hnext : MInv fids sc.1 :=
        processLayer_inv (hins Li (List.mem_cons_self _ _)) hinv
          (by rw [hP])
      by_cases hc : 0 < req.max_merges ∧
          req.max_merges ≤ (sc.1.merge_log.length : ℤ)
      · rw [if_pos hc] at h
        cases h
        exact hnext
      · rw [if_neg hc] at h
        exact ih sc.1 (cands + sc.2)
          (fun L hL => hins L (List.mem_cons_of_mem _ hL)) hnext h

theorem run_pipeline_inv {ν : List (List ℚ) → List (List ℚ)} {g : Graph}
    {req : RunRequest} {st : RunState} (h : run_pipeline ν g req = .ok st) :
    (∀ k < st.parent_snapshots.length,
      (st.parent_snapshots.getD k []).length = st.feature_ids.length ∧
      ((List.range st.feature_ids.length).map fun i =>
        (st.parent_snapshots.getD k []).getD i 0).toFinset.card =
        st.feature_ids.length - (k + 1)) ∧
    (0 < st.feature_ids.length →
      st.parent_snapshots.length < st.feature_ids.length) := by
  simp only [run_pipeline] at h
  rcases hR : runLayers ν req
      (build_fingerprints ν g req.fingerprint_source
        req.normalize_fingerprints req.layer_whitelist).fids
      (build_fingerprints ν g req.fingerprint_source
        req.normalize_fingerprints req.layer_whitelist).X
      (group_by_layer (build_fingerprints ν g req.fingerprint_source
        req.normalize_fingerprints req.layer_whitelist).layers)
      ⟨DSU.init (build_fingerprints ν g req.fingerprint_source
        req.normalize_fingerprints req.layer_whitelist).fids, [], []⟩ 0
    with e | stc
  · rw [hR] at h
    cases h
  · rw [hR] at h
    have hinit : MInv (build_fingerprints ν g req.fingerprint_source
        req.normalize_fingerprints req.layer_whitelist).fids
        ⟨DSU.init (build_fingerprints ν g req.fingerprint_source
          req.normalize_fingerprints req.layer_whitelist).fids, [], []⟩ := by
      refine ⟨init_WF _, rfl, ?_, rfl, ?_⟩
      · show rootCount (List.range _) + 0 = _
        rw [rootCount_range]
        omega
      · intro k hk
        cases hk
    have hins : ∀ Li ∈ group_by_layer (build_fingerprints ν g
        req.fingerprint_source req.normalize_fingerprints
        req.layer_whitelist).layers, ∀ i ∈ Li.2,
        i < (build_fingerprints ν g req.fingerprint_source
          req.normalize_fingerprints req.layer_whitelist).fids.length := by
      intro Li hLi i hi
      have := group_by_layer_mem_lt hLi hi
      rwa [build_fingerprints_len] at this
    have hminv := runLayers_inv _ _ 0 hins hinit hR
    obtain ⟨hwf, hitems, hroots, hslen, hsnap⟩ := hminv
    dsimp only at h
    cases h
    dsimp only
    refine ⟨hsnap, ?_⟩
    intro hn
    have hpos : 0 < rootCount stc.1.dsu.parent := by
      refine rootCount_pos hwf.1 ?_
      rw [hwf.2.1, hitems]
      exact hn
    omega


theorem snapshot_eff {st : RunState} {s : ℤ} {τ : ℚ} {snap : Snapshot}
    (h : snapshot st s τ = some snap)
    (hfacts : ∀ k < st.parent_snapshots.length,
      (st.parent_snapshots.getD k []).length = st.feature_ids.length ∧
      ((List.range st.feature_ids.length).map fun i =>
        (st.parent_snapshots.getD k []).getD i 0).toFinset.card =
        st.feature_ids.length - (k + 1)) :
    ∃ m : ℕ,
      m = (if s ≤ 0 then 0 else min s.toNat st.parent_snapshots.length) ∧
      (¬ s ≤ 0 → 1 ≤ st.parent_snapshots.length) ∧
      snap.metrics.num_groups = st.feature_ids.length - m ∧
      snap.cr = (if 0 < snap.metrics.num_groups then
        (st.feature_ids.length : ℚ) / (snap.metrics.num_groups : ℚ)
        else 1) := by
  have hbg : ∀ parents : List ℕ, parents.length = st.feature_ids.length →
      (build_groups_from_parents parents).length =
      ((List.range st.feature_ids.length).map fun i =>
        parents.getD i 0).toFinset.card := by
    intro parents hpl
    rw [build_groups_length, hpl]
  simp only [snapshot] at h
  split at h
  next heq => cases h
  next parents heq =>
    cases h
    split at heq
    next hs0 =>
      cases heq
      refine ⟨0, by rw [if_pos hs0], fun hc => absurd hs0 hc, ?_, ?_⟩
      · show (build_groups_from_parents _).length = _
        rw [hbg _ (List.length_range _), range_getD_image_card]
        omega
      · rfl
    next hs0 =>
      split at heq
      next hlast =>
        rw [List.getLast?_eq_getElem?] at heq
        obtain ⟨hlt, hval0⟩ := List.getElem?_eq_some.mp heq
        have hlen1 : 1 ≤ st.parent_snapshots.length := by omega
        have hval : parents =
            st.parent_snapshots.getD (st.parent_snapshots.length - 1) [] := by
          rw [List.getD_eq_getElem _ _ (by omega), hval0]
        obtain ⟨hplen, hcard⟩ := hfacts (st.parent_snapshots.length - 1)
          (by omega)
        have hm : min s.toNat st.parent_snapshots.length =
            st.parent_snapshots.length := by omega
        refine ⟨st.parent_snapshots.length,
          by rw [if_neg hs0, hm], fun _ => hlen1, ?_, ?_⟩
        · show (build_groups_from_parents _).length = _
          rw [hbg _ (by rw [hval]; exact hplen), hval, hcard]
          omega
        · rfl
      next hlast =>
        cases heq
        have hs1 : 1 ≤ s := by omega
        have hslt : s < (st.parent_snapshots.length : ℤ) := by omega
        have hk : (s - 1).toNat < st.parent_snapshots.length := by omega
        obtain ⟨hplen, hcard⟩ := hfacts (s - 1).toNat hk
        have hm : min s.toNat st.parent_snapshots.length = s.toNat := by omega
        refine ⟨s.toNat, by rw [if_neg hs0, hm], fun _ => by omega, ?_, ?_⟩
        · show (build_groups_from_parents _).length = _
          rw [hbg _ hplen, hcard]
          omega
        · rfl

/-- C9: monotonicity over replay steps.  For every completed run, the
`num_groups` metric of the snapshot builder is antitone in the step index
(step 0 gives one group per tracked feature; each later defined step removes
exactly one group per accepted merge up to the final grouping) and the
compression ratio is non-decreasing as the step index increases. -/
theorem c9_monotonicity (ν : List (List ℚ) → List (List ℚ)) (g : Graph)
    (req : RunRequest) (st : RunState)
    (hrun : run_pipeline ν g req = .ok st) (τ : ℚ) (s1 s2 : ℤ)
    (h12 : s1 ≤ s2) (snap1 snap2 : Snapshot)
    (h1 : snapshot st s1 τ = some snap1)
    (h2 : snapshot st s2 τ = some snap2) :
    snap2.metrics.num_groups ≤ snap1.metrics.num_groups ∧
    snap1.cr ≤ snap2.cr := by
  obtain ⟨hfacts, hlen⟩ := run_pipeline_inv hrun
  obtain ⟨m1, hm1, hpos1, hng1, hcr1⟩ := snapshot_eff h1 hfacts
  obtain ⟨m2, hm2, hpos2, hng2, hcr2⟩ := snapshot_eff h2 hfacts
  have hm12 : m1 ≤ m2 := by
    rw [hm1, hm2]
    by_cases hs1 : s1 ≤ 0
    · rw [if_pos hs1]
      omega
    · rw [if_neg hs1, if_neg (by omega : ¬ s2 ≤ 0)]
      omega
  have hml1 : m1 ≤ st.parent_snapshots.length := by
    rw [hm1]
    split <;> omega
  have hml2 : m2 ≤ st.parent_snapshots.length := by
    rw [hm2]
    split <;> omega
  refine ⟨by rw [hng1, hng2]; omega, ?_⟩
  rw [hcr1, hcr2, hng1, hng2]
  by_cases hn0 : st.feature_ids.length = 0
  · rw [if_neg (by omega), if_neg (by omega)]
  · have hnpos : 0 < st.feature_ids.length := by omega
    have hlenlt : st.parent_snapshots.length < st.feature_ids.length :=
      hlen hnpos
    rw [if_pos (by omega), if_pos (by omega)]
    have hc2 : (0 : ℚ) < ((st.feature_ids.length - m2 : ℕ) : ℚ) := by
      exact_mod_cast Nat.pos_of_ne_zero (by omega)
    have hc12 : ((st.feature_ids.length - m2 : ℕ) : ℚ) ≤
        ((st.feature_ids.length - m1 : ℕ) : ℚ) := by
      exact_mod_cast (show st.feature_ids.length - m2 ≤
        st.feature_ids.length - m1 by omega)
    exact div_le_div_of_nonneg_left (by positivity) hc2 hc12


-- Witness for C9 on a concrete two-feature run with one accepted merge:
-- num_groups falls 2 → 1 and the compression ratio rises 1 → 2.
unseal Rat.inv Rat.mul Rat.add Rat.sub in
theorem c9_monotonicity_witness :
    ∃ (st : RunState) (snap1 snap2 : Snapshot),
      run_pipeline id c9_graph c9_req = .ok st ∧
      snapshot st 0 (1 / 10) = some snap1 ∧
      snapshot st 1 (1 / 10) = some snap2 ∧
      snap2.metrics.num_groups ≤ snap1.metrics.num_groups ∧
      snap1.cr ≤ snap2.cr := by
  rcases hE : run_pipeline id c9_graph c9_req with e | st
  · have hok : (run_pipeline id c9_graph c9_req).toOption.isSome = true := by
      decide
    rw [hE] at hok
    cases hok
  · have hs1 : ((run_pipeline id c9_graph c9_req).map
        (fun s => (snapshot s 0 (1 / 10)).isSome)) = .ok true := by decide
    have hs2 : ((run_pipeline id c9_graph c9_req).map
        (fun s => (snapshot s 1 (1 / 10)).isSome)) = .ok true := by decide
    rw [hE] at hs1 hs2
    simp only [Except.map] at hs1 hs2
    obtain ⟨snap1, h1⟩ := Option.isSome_iff_exists.mp (Except.ok.inj hs1)
    obtain ⟨snap2, h2⟩ := Option.isSome_iff_exists.mp (Except.ok.inj hs2)
    obtain ⟨hng, hcr⟩ := c9_monotonicity id c9_graph c9_req st hE (1 / 10)
      0 1 (by decide) snap1 snap2 h1 h2
    exact ⟨st, snap1, snap2, rfl, h1, h2, hng, hcr⟩


end EASE
